import Mathlib

/-!
# aaron210/common: the fz storage engine and the sched timing wheel

A shallow embedding of `fz/node.go`, `fz/struct.go` and `sched/sched.go`, followed by the
properties proved about it.

Conventions of the embedding

* A Go method that mutates its receiver returns the receiver's new value.
* A Go call that can panic (index out of range, nil dereference, `panic("wtf")`) returns an
  `Option`; `none` is the panic. A recursive method takes a fuel argument, and the entry point
  without it supplies the height of the tree, which the theorems show to be enough.
* A Go result `(value, error)` is a pair whose second component is `none` for a nil error.
* Machine integers are `Nat` or `Int`, reduced modulo the width where the code can overflow.
-/

namespace sort

/-- The loop of Go's `sort.Search` on the window `[i, j)`: bisect, keep the upper half when
`f h` is false and the lower half when it is true. -/
def searchLoop (f : Nat → Bool) : Nat → Nat → Nat → Nat
  | 0, i, _ => i
  | fuel + 1, i, j =>
    if i < j then
      let h := (i + j) / 2
      if !f h then searchLoop f fuel (h + 1) j else searchLoop f fuel i h
    else i

/-- Go's `sort.Search n f`. Every round shrinks the window, so `n` rounds are enough. -/
def Search (n : Nat) (f : Nat → Bool) : Nat := searchLoop f n 0 n

end sort

namespace fz

/-- A byte. -/
abbrev byte := Fin 256

/-- The ordering key, `uint128`: two 64-bit words, `key[0]` and `key[1]`. The type is declared
outside the files at hand; `node.go` indexes it (`node.key[0]`) and compares it with `==`. -/
structure uint128 where
  w0 : Nat
  w1 : Nat
  deriving DecidableEq, Repr

/-- The record descriptor `pair` of `node.go` (the two reserved bytes are left out). -/
structure pair where
  key : uint128
  value : Int
  size : Int
  tstamp : Nat
  oct : Nat
  deleted : Bool
  flag : Nat
  hash : Nat
  deriving DecidableEq, Repr

/-- The zero value `pair{}`. -/
def pair.zero : pair := ⟨⟨0, 0⟩, 0, 0, 0, 0, false, 0, 0⟩

/-- The errors the engine returns. `EOF` and `ErrUnexpectedEOF` are those of Go's `io`
package, `loadFailed` is the error of a node block that cannot be loaded, and the four after it
are the errors `OpenFZ` makes with `fmt.Errorf`. -/
inductive Error where
  | ErrKeyExisted
  | ErrKeyNotFound
  | EOF
  | ErrUnexpectedEOF
  | loadFailed (off : Int)
  | wrongMagic
  | wrongEndianness
  | wrongSuperHash
  | corruptedRootNode
  | other (code : Nat)
  deriving DecidableEq, Repr

def maxItems : Nat := 63

def maxChildren : Nat := maxItems + 1

/-- A node of the tree, `nodeBlock`.

* `items` holds the cells `items[0 .. itemsSize)` of the Go array and `children` the cells
  `[0 .. childrenSize)` of `childrenOffset` and `_children`, side by side; the code reads no
  cell past these sizes as long as an internal node has one child more than it has items, and
  the embedding answers `none` where it would.
* A child cell is `(childrenOffset[i], node)`, where `node` is the node `child(i)` resolves to:
  the cached pointer `_children[i]`, or the block `loadNodeBlock` reads at the offset.
* `dirty` tells whether the node is in the dirty set of its super-block (`markDirty`).
-/
inductive nodeBlock where
  | mk (offset : Int) (items : List pair) (children : List (Int × Option nodeBlock))
      (dirty : Bool)
  deriving Repr

namespace nodeBlock

def offset : nodeBlock → Int
  | mk o _ _ _ => o

def items : nodeBlock → List pair
  | mk _ its _ _ => its

def children : nodeBlock → List (Int × Option nodeBlock)
  | mk _ _ cs _ => cs

def dirty : nodeBlock → Bool
  | mk _ _ _ d => d

def itemsSize (s : nodeBlock) : Nat := s.items.length

def childrenSize (s : nodeBlock) : Nat := s.children.length

mutual
/-- Number of levels of the subtree; the fuel the recursive methods need. -/
def height : nodeBlock → Nat
  | mk _ _ cs _ => heightL cs + 1
/-- Greatest height among the nodes of a list of child cells. -/
def heightL : List (Int × Option nodeBlock) → Nat
  | [] => 0
  | (_, c) :: r => max (heightO c) (heightL r)
/-- Height of the node of a child cell, 0 when there is none. -/
def heightO : Option nodeBlock → Nat
  | none => 0
  | some c => height c
end

/-- The method `markDirty`: `_super.addDirtyNode(s)`. -/
def markDirty (s : nodeBlock) : nodeBlock := mk s.offset s.items s.children true

/-- The method `insertItemAt`. The guard `_ = s.items[maxItems-1-s.itemsSize]` panics on a full
node; an index past `itemsSize` would leave a gap of stale cells and is answered `none`. -/
def insertItemAt (s : nodeBlock) (index : Nat) (item : pair) : Option nodeBlock :=
  if s.itemsSize < maxItems ∧ index ≤ s.itemsSize then
    some (markDirty
      (mk s.offset (s.items.take index ++ item :: s.items.drop index) s.children s.dirty))
  else none

/-- The method `appendItems`; `panic("wtf")` past `maxItems`. -/
def appendItems (s : nodeBlock) (pairs : List pair) : Option nodeBlock :=
  if s.itemsSize + pairs.length > maxItems then none
  else some (markDirty (mk s.offset (s.items ++ pairs) s.children s.dirty))

/-- The method `find`: bisection for the first item greater than `key`, then a look at the item
before it. `less` is `uint128.less`, which is declared outside the files at hand. -/
def find (less : uint128 → uint128 → Bool) (s : nodeBlock) (key : uint128) : Nat × Bool :=
  let i := sort.Search s.itemsSize (fun i =>
    match s.items[i]? with
    | some p => less key p.key
    | none => false)
  match (if i > 0 then s.items[i - 1]? else none) with
  | some p => if p.key = key then (i - 1, true) else (i, false)
  | none => (i, false)

/-- The method `insertChildAt`, guarded by `_ = s._children[maxChildren-1-s.childrenSize]`. -/
def insertChildAt (s : nodeBlock) (index : Nat) (n : nodeBlock) : Option nodeBlock :=
  if s.childrenSize < maxChildren ∧ index ≤ s.childrenSize then
    some (markDirty (mk s.offset s.items
      (s.children.take index ++ (n.offset, some n) :: s.children.drop index) s.dirty))
  else none

/-- The method `appendChildrenAndOffsets`: `offsets[i]` panics when `offsets` is the shorter
slice, and the size check panics past `maxChildren`. -/
def appendChildrenAndOffsets (s : nodeBlock) (nodes : List (Option nodeBlock))
    (offsets : List Int) : Option nodeBlock :=
  if offsets.length < nodes.length ∨ s.childrenSize + nodes.length > maxChildren then none
  else some (markDirty (mk s.offset s.items (s.children ++ List.zip offsets nodes) s.dirty))

/-- Modelled from the spec: `newNode` of the super-block, which is not among the files at hand.
A newly allocated node holds no item and no child, and its offset is 0 until it is first
synced. -/
def newNode : nodeBlock := mk 0 [] [] false

/-- The method `split`: returns the item at `i`, the shrunk receiver and the new node. -/
def split (n : nodeBlock) (i : Nat) : Option (pair × nodeBlock × nodeBlock) :=
  match n.items[i]? with
  | none => none
  | some item =>
    match appendItems newNode (n.items.drop (i + 1)) with
    | none => none
    | some next =>
      let n1 := mk n.offset (n.items.take i) n.children n.dirty
      if n1.childrenSize > 0 then
        match appendChildrenAndOffsets next ((n1.children.drop (i + 1)).map Prod.snd)
            ((n1.children.drop (i + 1)).map Prod.fst) with
        | none => none
        | some next2 =>
          let n2 := mk n1.offset n1.items (n1.children.take (i + 1)) n1.dirty
          some (item, markDirty n2, markDirty next2)
      else some (item, markDirty n1, markDirty next)

/-- The method `child`: the node of cell `i` with a nil error; `(nil, nil)` for an empty cell
with offset 0; `(nil, err)` for an offset whose block does not load. -/
def child (n : nodeBlock) (i : Nat) : Option (Option nodeBlock × Option Error) :=
  match n.children[i]? with
  | none => none
  | some (_, some c) => some (some c, none)
  | some (off, none) =>
    if off = 0 then some (none, none) else some (none, some (Error.loadFailed off))

/-- The effect on a parent of mutating, through the pointer, the node of its cell `i`. -/
def setChild (n : nodeBlock) (i : Nat) (c : nodeBlock) : nodeBlock :=
  mk n.offset n.items (n.children.modify (fun sl => (sl.1, some c)) i) n.dirty

/-- The method `maybeSplitChild`. -/
def maybeSplitChild (n : nodeBlock) (i : Nat) : Option (Bool × nodeBlock) :=
  match child n i with
  | none => none
  | some (none, _) => some (false, n)
  | some (some ch, _) =>
    if ch.itemsSize < maxItems then some (false, n)
    else
      match split ch (maxItems / 2) with
      | none => none
      | some (item, ch1, second) =>
        match insertItemAt (setChild n i ch1) i item with
        | none => none
        | some n1 =>
          match insertChildAt n1 (i + 1) second with
          | none => none
          | some n2 => some (true, markDirty n2)

/-- The tail of `insert`: `ch, err := n.child(i)`, then `ch.insert(key)`, where `rec` is the
recursive call. -/
def insertDescend {S : Type}
    (rec : nodeBlock → uint128 → S → Option (Option Error × nodeBlock × S))
    (n : nodeBlock) (i : Nat) (key : uint128) (s : S) : Option (Option Error × nodeBlock × S) :=
  match child n i with
  | none => none
  | some (_, some err) => some (some err, n, s)
  | some (none, none) => none
  | some (some ch, none) =>
    match rec ch key s with
    | none => none
    | some (err, ch1, s1) => some (err, setChild n i ch1, s1)

/-- The method `insert`, with fuel. `S` is the state of the super-block and `writePair` its
method of that name, which is not among the files at hand. The result is the returned error,
the subtree as the call leaves it (also when it fails) and the state of the super-block. -/
def insertAux {S : Type} (less : uint128 → uint128 → Bool)
    (writePair : uint128 → S → (pair × Option Error) × S) :
    Nat → nodeBlock → uint128 → S → Option (Option Error × nodeBlock × S)
  | 0, _, _, _ => none
  | fuel + 1, n, key, s =>
    match find less n key with
    | (_, true) => some (some Error.ErrKeyExisted, n, s)
    | (i, false) =>
      if n.childrenSize = 0 then
        match writePair key s with
        | ((_, some err), s1) => some (some err, n, s1)
        | ((p, none), s1) =>
          match insertItemAt n i p with
          | none => none
          | some n1 => some (none, n1, s1)
      else
        match maybeSplitChild n i with
        | none => none
        | some (false, n1) => insertDescend (insertAux less writePair fuel) n1 i key s
        | some (true, n1) =>
          match n1.items[i]? with
          | none => none
          | some inTree =>
            if less key inTree.key then
              insertDescend (insertAux less writePair fuel) n1 i key s
            else if less inTree.key key then
              insertDescend (insertAux less writePair fuel) n1 (i + 1) key s
            else some (some Error.ErrKeyExisted, n1, s)

/-- The method `insert`. -/
def insert {S : Type} (less : uint128 → uint128 → Bool)
    (writePair : uint128 → S → (pair × Option Error) × S)
    (n : nodeBlock) (key : uint128) (s : S) : Option (Option Error × nodeBlock × S) :=
  insertAux less writePair n.height n key s

/-- The method `get`, with fuel. -/
def getAux (less : uint128 → uint128 → Bool) :
    Nat → nodeBlock → uint128 → Option (pair × Option Error)
  | 0, _, _ => none
  | fuel + 1, n, key =>
    match find less n key with
    | (i, true) =>
      match n.items[i]? with
      | none => none
      | some p => some (p, none)
    | (i, false) =>
      if n.childrenSize > 0 then
        match child n i with
        | none => none
        | some (_, some err) => some (pair.zero, some err)
        | some (none, none) => none
        | some (some ch, none) => getAux less fuel ch key
      else some (pair.zero, some Error.ErrKeyNotFound)

/-- The method `get`. -/
def get (less : uint128 → uint128 → Bool) (n : nodeBlock) (key : uint128) :
    Option (pair × Option Error) :=
  getAux less n.height n key

end nodeBlock

/-! ## Bytes in memory and in the file -/

/-- The `w` low bytes of `x`, least significant first. -/
def leBytes : Nat → Nat → List byte
  | 0, _ => []
  | w + 1, x => ⟨x % 256, Nat.mod_lt _ (by decide)⟩ :: leBytes w (x / 256)

/-- The number whose bytes, least significant first, are given. -/
def leNat : List byte → Nat
  | [] => 0
  | b :: r => b.val + 256 * leNat r

/-- The memory image of an unsigned integer of `w` bytes on the host. `_endian` is the
variable of that name in `struct.go`, the first byte in memory of the `uint16` 1: it is 1 on a
little-endian host and 0 on a big-endian one. -/
def memBytes (_endian : byte) (w x : Nat) : List byte :=
  if _endian = 1 then leBytes w x else (leBytes w x).reverse

/-- The unsigned integer whose memory image on the host is given. -/
def memNat (_endian : byte) (bs : List byte) : Nat :=
  if _endian = 1 then leNat bs else leNat bs.reverse

/-- Go's `io.ReadAtLeast(f, buf, min)` with `len(buf) = min`, on a file of content `file` read
from offset `pos`: the bytes read or the error, and the offset afterwards. -/
def ReadAtLeast (file : List byte) (pos min : Nat) : Except Error (List byte) × Nat :=
  if min = 0 then (Except.ok [], pos)
  else if pos + min ≤ file.length then (Except.ok ((file.drop pos).take min), pos + min)
  else if file.length ≤ pos then (Except.error Error.EOF, pos)
  else (Except.error Error.ErrUnexpectedEOF, file.length)

/-- Go's `f.Seek(off, 0)`: refused for a negative offset (EINVAL). -/
def Seek (off : Int) : Option Error :=
  if off < 0 then some (Error.other 22) else none

/-- Go's `binary.BigEndian.Uint16`. -/
def bigEndianUint16 (b : List byte) : Nat :=
  (b.getD 0 0).val * 256 + (b.getD 1 0).val

/-! ## Traversal -/

/-- The fields of the value handle `Data` that `iterate` sets. -/
structure Data where
  pair : pair
  depth : Nat
  index : Nat
  deriving DecidableEq, Repr

/-- One execution of the line `callback(string(keyname), d)`: the two arguments, what the
callback returned, and the item the loop was at. -/
structure Call where
  keyname : List byte
  d : Option Data
  result : Option Error
  item : pair
  deriving DecidableEq, Repr

/-- What a traversal has done so far: the calls of the callback, oldest first, and the read
offset of `_super._fd`. -/
structure Walked where
  calls : List Call
  pos : Nat
  deriving DecidableEq, Repr

/-- The key `iterate` recovers from an inline record: `keyname = make([]byte, node.oct)` filled
by `copy` from the eight bytes in memory of the word `node.key[0]`. -/
def inlineKeyname (_endian : byte) (node : pair) : List byte :=
  (memBytes _endian 8 (node.key.w0 % 2 ^ 64)).take node.oct ++ List.replicate (node.oct - 8) 0

/-- The body of the loop of `iterate` after the visit of the left child (lines 295 to 343).
The descriptor taken from the pool `_cacheFds` is open on the same file. The value the callback
returns is dropped, as it is in the source. -/
def iterateItem (_endian : byte) (file : List byte)
    (callback : List byte → Option Data → Option Error) (readData : Bool) (depth : Nat)
    (node : pair) (i : Nat) (st : Walked) : Option Error × Walked :=
  if readData then
    match Seek node.value with
    | some err => (some err, st)
    | none =>
      let d : Data := ⟨node, depth, i⟩
      if node.oct = 9 then
        match ReadAtLeast file node.value.toNat 2 with
        | (Except.error err, _) => (some err, st)
        | (Except.ok keystrbuf, pos1) =>
          match ReadAtLeast file pos1 (bigEndianUint16 keystrbuf) with
          | (Except.error err, _) => (some err, st)
          | (Except.ok keyname, _) =>
            (none, ⟨st.calls ++ [⟨keyname, some d, callback keyname (some d), node⟩], st.pos⟩)
      else
        let keyname := inlineKeyname _endian node
        (none, ⟨st.calls ++ [⟨keyname, some d, callback keyname (some d), node⟩], st.pos⟩)
  else
    match ReadAtLeast file st.pos 2 with
    | (Except.error err, pos1) => (some err, ⟨st.calls, pos1⟩)
    | (Except.ok keystrbuf, pos1) =>
      match ReadAtLeast file pos1 (bigEndianUint16 keystrbuf) with
      | (Except.error err, pos2) => (some err, ⟨st.calls, pos2⟩)
      | (Except.ok keyname, pos2) =>
        (none, ⟨st.calls ++ [⟨keyname, none, callback keyname none, node⟩], pos2⟩)

/-- The reads `iterate` makes for a record when it reads data all succeed: the offset is not
negative and, for an externally stored key, the two bytes of the length and the bytes of the
key are in the file. -/
def recordReadable (file : List byte) (node : pair) : Bool :=
  decide (0 ≤ node.value) &&
    (if node.oct = 9 then
      match ReadAtLeast file node.value.toNat 2 with
      | (Except.error _, _) => false
      | (Except.ok keystrbuf, pos1) =>
        match ReadAtLeast file pos1 (bigEndianUint16 keystrbuf) with
        | (Except.error _, _) => false
        | (Except.ok _, _) => true
    else true)

namespace nodeBlock

/-- In `iterate`: `ch, err := n.child(i)`, then `ch.iterate(...)`, where `rec` is the
recursive call. -/
def iterateVisit (rec : nodeBlock → Walked → Option (Option Error × Walked))
    (n : nodeBlock) (i : Nat) (st : Walked) : Option (Option Error × Walked) :=
  match child n i with
  | none => none
  | some (_, some err) => some (some err, st)
  | some (none, none) => none
  | some (some ch, none) => rec ch st

/-- The loop `for i := uint16(0); i < n.itemsSize; i++` of `iterate`, with `todo` rounds left
and `body` the rest of a round after the visit of the child. -/
def iterateLoop (body : pair → Nat → Walked → Option Error × Walked)
    (rec : nodeBlock → Walked → Option (Option Error × Walked)) (n : nodeBlock) :
    Nat → Nat → Walked → Option (Option Error × Walked)
  | 0, _, st => some (none, st)
  | todo + 1, i, st =>
    match (if n.childrenSize > 0 then iterateVisit rec n i st else some (none, st)) with
    | none => none
    | some (some err, st1) => some (some err, st1)
    | some (none, st1) =>
      match n.items[i]? with
      | none => none
      | some node =>
        match body node i st1 with
        | (some err, st2) => some (some err, st2)
        | (none, st2) => iterateLoop body rec n todo (i + 1) st2

/-- The method `iterate`, with fuel. -/
def iterateAux (_endian : byte) (file : List byte)
    (callback : List byte → Option Data → Option Error) (readData : Bool) :
    Nat → nodeBlock → Nat → Walked → Option (Option Error × Walked)
  | 0, _, _, _ => none
  | fuel + 1, n, depth, st =>
    match iterateLoop (iterateItem _endian file callback readData depth)
        (fun ch st1 => iterateAux _endian file callback readData fuel ch (depth + 1) st1)
        n n.itemsSize 0 st with
    | none => none
    | some (some err, st1) => some (some err, st1)
    | some (none, st1) =>
      if n.childrenSize > 0 then
        iterateVisit
          (fun ch st2 => iterateAux _endian file callback readData fuel ch (depth + 1) st2)
          n (n.childrenSize - 1) st1
      else some (none, st1)

/-- The method `iterate`. -/
def iterate (_endian : byte) (file : List byte)
    (callback : List byte → Option Data → Option Error) (readData : Bool)
    (n : nodeBlock) (depth : Nat) (st : Walked) : Option (Option Error × Walked) :=
  iterateAux _endian file callback readData n.height n depth st

end nodeBlock
/-! ## What the tree holds, and when it is well formed -/

namespace nodeBlock

mutual
/-- The records of a subtree in traversal order: child 0, item 0, child 1, item 1, and so on
up to the last child. -/
def inorder : nodeBlock → List pair
  | mk _ its cs _ => inorderL its cs
/-- Items and child cells interleaved, starting with a child. -/
def inorderL : List pair → List (Int × Option nodeBlock) → List pair
  | its, [] => its
  | [], (_, c) :: cs => inorderO c ++ inorderL [] cs
  | it :: r, (_, c) :: cs => inorderO c ++ it :: inorderL r cs
/-- The records below a child cell. -/
def inorderO : Option nodeBlock → List pair
  | none => []
  | some c => inorder c
end

/-- The traversal from an item on: item, child, item, child, and so on. -/
def inorderR (its : List pair) (cs : List (Int × Option nodeBlock)) : List pair :=
  match its with
  | [] => inorderL [] cs
  | it :: r => it :: inorderL r cs

mutual
/-- The shape of a subtree: every node holds at most `maxItems` items, and it is either a leaf
(no child cell) or it has one child cell more than it has items, each with its node. -/
def shape : nodeBlock → Bool
  | mk _ its cs _ =>
    decide (its.length ≤ maxItems) && (cs.isEmpty || (cs.length == its.length + 1 && shapeL cs))
/-- Every cell of the list has a node, of the right shape. -/
def shapeL : List (Int × Option nodeBlock) → Bool
  | [] => true
  | (_, c) :: r => shapeO c && shapeL r
/-- The cell has a node, of the right shape. -/
def shapeO : Option nodeBlock → Bool
  | none => false
  | some c => shape c
end

/-- The record `x` lies strictly between items `j - 1` and `j` of `its`, as far as there are
such items. -/
def between (less : uint128 → uint128 → Bool) (its : List pair) (j : Nat) (x : pair) : Bool :=
  (match (if j > 0 then its[j - 1]? else none) with
    | some p => less p.key x.key
    | none => true) &&
  (match its[j]? with
    | some p => less x.key p.key
    | none => true)

mutual
/-- The order of a search tree, node by node: the items of every node are strictly ascending
and every record below child `i` lies strictly between items `i - 1` and `i`. -/
def searchTree (less : uint128 → uint128 → Bool) : nodeBlock → Bool
  | mk _ its cs _ =>
    decide (its.Pairwise (fun a b => less a.key b.key = true)) && searchTreeL less its 0 cs
/-- The order of a search tree for the child cells from index `j` on. -/
def searchTreeL (less : uint128 → uint128 → Bool) (its : List pair) :
    Nat → List (Int × Option nodeBlock) → Bool
  | _, [] => true
  | j, (_, c) :: r =>
    searchTreeO less c && (inorderO c).all (between less its j) && searchTreeL less its (j + 1) r
/-- The order of a search tree below a child cell. -/
def searchTreeO (less : uint128 → uint128 → Bool) : Option nodeBlock → Bool
  | none => true
  | some c => searchTree less c
end

mutual
/-- The nodes of a subtree: its root, then the nodes below its child cells, cell by cell. -/
def nodes : nodeBlock → List nodeBlock
  | mk o its cs d => mk o its cs d :: nodesL cs
/-- The nodes below the cells of a list. -/
def nodesL : List (Int × Option nodeBlock) → List nodeBlock
  | [] => []
  | (_, c) :: r => nodesO c ++ nodesL r
/-- The nodes below a child cell. -/
def nodesO : Option nodeBlock → List nodeBlock
  | none => []
  | some c => nodes c
end

/-- The node `b` has the fields of the node `a`: the offset, the items, and the child cells
with their offsets, one for one; what lies below the children is left aside. -/
def sameFields (a b : nodeBlock) : Prop :=
  a.offset = b.offset ∧ a.items = b.items ∧
  a.children.map Prod.fst = b.children.map Prod.fst

/-- The number of nodes of a subtree that are not in the dirty set. -/
def cleanCount (n : nodeBlock) : Nat := n.nodes.countP (fun m => !m.dirty)

/-- What a call owes the dirty set, from the subtree `before` it to the subtree `after` it:
every node that is not in the dirty set afterwards is a node that was there before, outside
the dirty set, with the same fields; and the nodes outside the dirty set are no more than they
were. So a node that is new or whose fields have changed is in the dirty set, and none has
left it. -/
def dirtyOwes (before after : nodeBlock) : Prop :=
  (∀ m ∈ after.nodes, m.dirty = false →
    ∃ m0 ∈ before.nodes, m0.dirty = false ∧ sameFields m0 m) ∧
  cleanCount after ≤ cleanCount before

mutual
/-- Every leaf of the subtree lies `d` levels below its root; a leaf is a node without child
cells. -/
def leavesAt : nodeBlock → Nat → Bool
  | mk _ _ cs _, d =>
    if cs.isEmpty then d == 0
    else
      match d with
      | 0 => false
      | k + 1 => leavesAtL cs k
/-- Every leaf below the cells of the list lies `d` levels below their nodes. -/
def leavesAtL : List (Int × Option nodeBlock) → Nat → Bool
  | [], _ => true
  | (_, c) :: r, d => leavesAtO c d && leavesAtL r d
/-- Every leaf below the cell lies `d` levels below its node; a cell without a node has none. -/
def leavesAtO : Option nodeBlock → Nat → Bool
  | none, _ => true
  | some c, d => leavesAt c d
end

/-- The node `b` is the node `a` as it was or with one item put in: same offset, the items of
`a` in their order among those of `b`, and at most one item more. -/
def grownFrom (a b : nodeBlock) : Prop :=
  a.items.Sublist b.items ∧ b.itemsSize ≤ a.itemsSize + 1 ∧ b.offset = a.offset

/-- The node that a call `maybeSplitChild(i)` which has returned true has made, read off the
node `n1` that the call leaves: it is the node of cell `i + 1`, where `insertChildAt(i+1,
second)` has put it. -/
def createdBySplit (n1 : nodeBlock) (i : Nat) : List nodeBlock :=
  match n1.children[i + 1]? with
  | some (_, some c) => [c]
  | _ => []

/-- The record of the tail of `insert`: that of the recursive call on the child. -/
def descendCreates (rec : nodeBlock → uint128 → List nodeBlock) (n : nodeBlock) (i : Nat)
    (key : uint128) : List nodeBlock :=
  match child n i with
  | some (some ch, none) => rec ch key
  | _ => []

/-- The record of the nodes that the splits of a call of `insert` make, in the order they are
made: the call is followed as `insertAux` goes, and at each `maybeSplitChild` that returns true
the node made is taken from the parent as `maybeSplitChild` leaves it, before the call goes
down. -/
def insertCreates (less : uint128 → uint128 → Bool) : Nat → nodeBlock → uint128 → List nodeBlock
  | 0, _, _ => []
  | fuel + 1, n, key =>
    match find less n key with
    | (_, true) => []
    | (i, false) =>
      if n.childrenSize = 0 then []
      else
        match maybeSplitChild n i with
        | none => []
        | some (false, n1) => descendCreates (insertCreates less fuel) n1 i key
        | some (true, n1) =>
          createdBySplit n1 i ++
          match n1.items[i]? with
          | none => []
          | some inTree =>
            if less key inTree.key then descendCreates (insertCreates less fuel) n1 i key
            else if less inTree.key key then
              descendCreates (insertCreates less fuel) n1 (i + 1) key
            else []

/-- A well-formed subtree: the right shape with all children present, and ordering keys
strictly ascending along the traversal. On a subtree of the right shape this is the order of a
search tree taken node by node, `searchTree` (theorem `wellFormed_iff_searchTree`). -/
def wellFormed (less : uint128 → uint128 → Bool) (n : nodeBlock) : Prop :=
  n.shape = true ∧ n.inorder.Pairwise (fun a b => less a.key b.key = true)

instance (less : uint128 → uint128 → Bool) (n : nodeBlock) : Decidable (wellFormed less n) := by
  unfold wellFormed
  infer_instance

/-- What a call of `insert` owes on a subtree whose records, in traversal order, are `L`,
when the super-block is in state `s` and `res` is what the call returns.

* If `L` has a record with the key: the error is `ErrKeyExisted`, the state of the super-block
  is untouched, and the subtree left behind has the same records and a right shape.
* If it has none and `writePair` succeeds with `p`: the error is nil, and the subtree left
  behind has the records of `L` with `p` put in between those of smaller and of greater key.
* If it has none and `writePair` fails: the error is that of `writePair`, and the subtree left
  behind has the records of `L`. -/
def insertOwes {S : Type} (less : uint128 → uint128 → Bool)
    (writePair : uint128 → S → (pair × Option Error) × S) (L : List pair) (key : uint128)
    (s : S) (res : Option (Option Error × nodeBlock × S)) : Prop :=
  ((∃ x ∈ L, x.key = key) →
    ∃ n1, res = some (some Error.ErrKeyExisted, n1, s) ∧ n1.inorder = L ∧ n1.shape = true) ∧
  ((∀ x ∈ L, x.key ≠ key) →
    (∀ p s1, writePair key s = ((p, none), s1) →
      ∃ n1 A B, res = some (none, n1, s1) ∧ L = A ++ B ∧ n1.inorder = A ++ p :: B ∧
        (∀ x ∈ A, less x.key key = true) ∧ (∀ x ∈ B, less key x.key = true) ∧
        n1.shape = true) ∧
    (∀ p err s1, writePair key s = ((p, some err), s1) →
      ∃ n1, res = some (some err, n1, s1) ∧ n1.inorder = L ∧ n1.shape = true))

/-- What the callback is called with: the value it returns is recorded, and the handle is on
the record of the call when data is read and nil when it is not. -/
def okCall (callback : List byte → Option Data → Option Error) (readData : Bool) (c : Call) :
    Prop :=
  c.result = callback c.keyname c.d ∧ (readData = true → c.d.map Data.pair = some c.item) ∧
    (readData = false → c.d = none)

/-- What a piece of a traversal owes when the records it is to visit, in order, are `L`, it
starts after the calls of `st`, and `res` is what it returns: it does return; the calls it adds
are made for the first records of `L`, one call a record, in order, and each call satisfies
`ok`; when the error is nil it has gone through all of `L`; and the error is nil when every
record of `L` is `good`. -/
def walkOwes (good : pair → Prop) (ok : Call → Prop) (L : List pair) (st : Walked)
    (res : Option (Option Error × Walked)) : Prop :=
  ∃ err st1 done, res = some (err, st1) ∧ st1.calls = st.calls ++ done ∧
    (∃ rest, L = done.map Call.item ++ rest) ∧ (∀ c ∈ done, ok c) ∧
    (err = none → done.map Call.item = L) ∧ ((∀ p ∈ L, good p) → err = none)

end nodeBlock

/-- What the tree needs of `uint128.less`: a strict total order. -/
structure StrictTotal (less : uint128 → uint128 → Bool) : Prop where
  irrefl : ∀ a, less a a = false
  trans : ∀ a b c, less a b = true → less b c = true → less a c = true
  total : ∀ a b, less a b = true ∨ a = b ∨ less b a = true

/-- A strict total order on keys, word by word, to run the definitions on. -/
def lessByWords (l r : uint128) : Bool :=
  if l.w0 = r.w0 then decide (l.w1 < r.w1) else decide (l.w0 < r.w0)

/-- A record with the key `k`, an inline key of one byte, to run the definitions on. -/
def sampleRecord (k : Nat) : pair := ⟨⟨k, 0⟩, 64 + 8 * k, 8, 0, 1, false, 0, 0⟩

/-- A leaf with the records of the given keys. -/
def sampleLeaf (ks : List Nat) : nodeBlock := nodeBlock.mk 0 (ks.map sampleRecord) [] false

/-- A tree of two levels: items 10 and 20 over the leaves 1 5, 12 15 and 30. -/
def sampleTree : nodeBlock :=
  nodeBlock.mk 0 [sampleRecord 10, sampleRecord 20]
    [(0, some (sampleLeaf [1, 5])), (0, some (sampleLeaf [12, 15])), (0, some (sampleLeaf [30]))]
    false

/-- A node of two leaves whose first one is full: it holds the 63 keys 0 to 62. -/
def sampleParent : nodeBlock :=
  nodeBlock.mk 0 [sampleRecord 100]
    [(0, some (sampleLeaf (List.range 63))), (0, some (sampleLeaf [200]))] false

/-- A `writePair` that never fails, with the list of the keys written as the state of the
super-block. -/
def sampleWritePair (key : uint128) (s : List uint128) : (pair × Option Error) × List uint128 :=
  ((⟨key, 1000, 8, 0, 1, false, 0, 0⟩, none), s ++ [key])

/-- A `writePair` that always fails, and leaves the state of the super-block as it is. -/
def sampleFailingWritePair (_key : uint128) (s : List uint128) :
    (pair × Option Error) × List uint128 :=
  ((pair.zero, some (Error.other 5)), s)

/-- Modelled from the spec: the ordering key of a key of at most 8 bytes, whose codec is not
among the files at hand. "The raw key bytes are packed directly into the low word": the word
`key[0]` is the one whose eight bytes in memory are the key bytes followed by zeros. -/
def packKey (_endian : byte) (key : List byte) : uint128 :=
  ⟨memNat _endian (key ++ List.replicate (8 - key.length) 0), 0⟩

/-- Modelled from the spec: the record of an inline key, "`oct` in 0..8 marks inline key
length"; the value location and the metadata are those of `p`. -/
def inlinePair (_endian : byte) (key : List byte) (p : pair) : pair :=
  { p with key := packKey _endian key, oct := key.length }

/-! ## The super-block of `struct.go` -/

def superBlockMagic : List byte := [122, 122, 122, 48]

def superBlockSize : Nat := 64

/-- The header fields of `SuperBlock`. The arrays are lists of bytes; the integers are `Nat`,
and `rootNode`, an `int64`, is `Int`. -/
structure SuperBlock where
  magic : List byte
  endian : byte
  reserved : List byte
  createdAt : Nat
  size : Nat
  count : Nat
  salt : List byte
  rootNode : Int
  superHash : Nat
  deriving DecidableEq, Repr

namespace SuperBlock

/-- The fields fit their Go types: `[4]byte`, `[7]byte`, `uint32`, `uint64`, `uint64`,
`[16]byte`, `int64`, `uint64`. -/
def wellTyped (b : SuperBlock) : Prop :=
  b.magic.length = 4 ∧ b.reserved.length = 7 ∧ b.createdAt < 2 ^ 32 ∧ b.size < 2 ^ 64 ∧
  b.count < 2 ^ 64 ∧ b.salt.length = 16 ∧ -(2 : Int) ^ 63 ≤ b.rootNode ∧
  b.rootNode < (2 : Int) ^ 63 ∧ b.superHash < 2 ^ 64

instance (b : SuperBlock) : Decidable (wellTyped b) := by
  unfold wellTyped
  infer_instance

/-- The value of an `int64` read as `uint64` (two's complement). -/
def int64Bits (x : Int) : Nat := (x % (2 : Int) ^ 64).toNat

/-- The `int64` whose bits are those of the `uint64` `u`. -/
def int64OfBits (u : Nat) : Int := if u < 2 ^ 63 then (u : Int) else (u : Int) - (2 : Int) ^ 64

/-- The cast `*(*[superBlockSize]byte)(unsafe.Pointer(b))`: the 64 bytes of the header in
memory, the fields one after another (Go lays them out without padding: offsets 0, 4, 5, 12,
16, 24, 32, 48, 56), integers in host byte order. -/
def bytes (_endian : byte) (b : SuperBlock) : List byte :=
  b.magic ++ [b.endian] ++ b.reserved ++ memBytes _endian 4 b.createdAt ++
  memBytes _endian 8 b.size ++ memBytes _endian 8 b.count ++ b.salt ++
  memBytes _endian 8 (int64Bits b.rootNode) ++ memBytes _endian 8 b.superHash

/-- The copy of 64 bytes over the header, `copy((*(*[superBlockSize]byte)(unsafe.Pointer(sb)))[:],
blockHdr[:])`. -/
def ofBytes (_endian : byte) (hdr : List byte) : SuperBlock where
  magic := hdr.take 4
  endian := hdr.getD 4 0
  reserved := (hdr.drop 5).take 7
  createdAt := memNat _endian ((hdr.drop 12).take 4)
  size := memNat _endian ((hdr.drop 16).take 8)
  count := memNat _endian ((hdr.drop 24).take 8)
  salt := (hdr.drop 32).take 16
  rootNode := int64OfBits (memNat _endian ((hdr.drop 48).take 8))
  superHash := memNat _endian ((hdr.drop 56).take 8)

end SuperBlock

/-- Go's `hash/fnv` `New64`, `Write`, `Sum64`: the 64-bit FNV-1 hash. -/
def fnv64 (data : List byte) : Nat :=
  data.foldl (fun h c => ((h * 1099511628211) % 2 ^ 64) ^^^ c.val) 14695981039346656037

/-- The method `Sync`: hash the first 56 bytes of the header, store the hash, write the 64
bytes at offset 0. The result is the error, the super-block and the content of the file
afterwards. The medium is reliable: `Write` and `Sync` of the descriptor do not fail. -/
def SuperBlock.Sync (_endian : byte) (b : SuperBlock) (file : List byte) :
    Option Error × SuperBlock × List byte :=
  let blockHdr := b.bytes _endian
  let b1 := { b with superHash := fnv64 (blockHdr.take (superBlockSize - 8)) }
  let blockHdr1 := b1.bytes _endian
  (none, b1, blockHdr1 ++ file.drop superBlockSize)

/-- The function `OpenFZ`. `path` is the file the path names, `none` when there is none
(`os.O_CREATE` then creates it empty); `now` is `time.Now().Unix()` and `rnd` the bytes of
`r.Fetch(16)`. The result is the pair Go returns and the content of the file afterwards. -/
def OpenFZ (_endian : byte) (now : Int) (rnd : List byte) (path : Option (List byte))
    (create : Bool) : (Option SuperBlock × Option Error) × List byte :=
  let f := path.getD []
  match ReadAtLeast f 0 superBlockSize, create with
  | (Except.error err, _), false => ((none, some err), f)
  | (rd, _), _ =>
    let blockHdr : List byte :=
      match rd with
      | Except.ok bs => bs
      | Except.error _ => f.take superBlockSize ++ List.replicate (superBlockSize - f.length) 0
    let sb : SuperBlock := ⟨[0, 0, 0, 0], 0, List.replicate 7 0, 0, 0, 0, List.replicate 16 0, 0, 0⟩
    if create then
      let sb1 : SuperBlock :=
        { sb with
          magic := superBlockMagic
          endian := _endian
          createdAt := (now % (2 : Int) ^ 32).toNat
          salt := rnd.take 16 ++ List.replicate (16 - rnd.length) 0 }
      match sb1.Sync _endian f with
      | (some err, _, f1) => ((none, some err), f1)
      | (none, sb2, f1) => ((some sb2, none), f1)
    else
      let sb1 := SuperBlock.ofBytes _endian blockHdr
      if sb1.magic ≠ superBlockMagic then ((none, some Error.wrongMagic), f)
      else if sb1.endian ≠ _endian then ((none, some Error.wrongEndianness), f)
      else if sb1.superHash ≠ fnv64 (blockHdr.take (superBlockSize - 8)) then
        ((none, some Error.wrongSuperHash), f)
      else if sb1.rootNode ≥ (f.length : Int) then ((none, some Error.corruptedRootNode), f)
      else ((some sb1, none), f)

/-- A super-block of 5 records, on a little-endian host, to run the definitions on. -/
def sampleSuperBlock : SuperBlock :=
  ⟨superBlockMagic, 1, List.replicate 7 0, 1000, 40, 5, List.replicate 16 9, 0, 0⟩

/-- The file `Sync` writes for `sampleSuperBlock`. -/
def sampleFile : List byte := (sampleSuperBlock.Sync 1 []).2.2

/-! ## Storing a node: `sync` and `revertToLastSnapshot` -/

/-- The fields of a node that are kept in the file: `magic`, `itemsSize`, `childrenSize`,
`offset`, `items` and `childrenOffset`, the arrays as lists. They are the first
`nodeBlockSize` bytes of the struct, which `sync` and `revertToLastSnapshot` take as one array
(`*(*[nodeBlockSize]byte)(unsafe.Pointer(n))`); the array is kept here field by field. -/
structure blockImage where
  magic : List byte
  itemsSize : Nat
  childrenSize : Nat
  offset : Int
  items : List pair
  childrenOffset : List Int
  deriving DecidableEq, Repr

/-- The struct `nodeBlock` in memory, as `sync` and `revertToLastSnapshot` use it: `id` stands
for its address, `image` for the fields kept in the file, `_children` holds the addresses of
the cached children and `_super` that of the super-block. -/
structure nodeStruct where
  id : Nat
  image : blockImage
  _children : List (Option Nat)
  _super : Nat
  _snapshot : blockImage
  deriving DecidableEq, Repr

/-- The file `_fd`, block by block: its length, its cursor, the blocks written with the
offsets they were written at, latest first, and the errors the medium has in store for `Seek`
and for `Write`, if any. -/
structure blockFile where
  size : Int
  pos : Int
  blocks : List (Int × blockImage)
  seekFault : Option Error
  writeFault : Option Error
  deriving DecidableEq, Repr

/-- The slice `_mmap`: its length, and the blocks copied into it with their offsets, latest
first. -/
structure mappedRegion where
  len : Int
  blocks : List (Int × blockImage)
  deriving DecidableEq, Repr

/-- Modelled from the spec: the fields of the super-block that `sync` uses. The `SuperBlock`
of `struct.go` has none of them; `node.go` names them, and the spec lists them as the bounds
of the mapped region, the bump offset into it, the file handle and the map of pending
snapshots. The map `_snapshotChPending`, keyed by the address of a node, is a list of entries.
The integers are taken without bounds. -/
structure superState where
  mmapSize : Int
  mmapSizeUsed : Int
  _mmap : mappedRegion
  _fd : blockFile
  _snapshotChPending : List (Nat × blockImage)
  deriving DecidableEq, Repr

namespace blockFile

/-- Go's `f.Seek(0, os.SEEK_END)`: the length of the file, where the cursor now is; 0 and the
error when the medium fails. -/
def SeekEnd (f : blockFile) : (Int × Option Error) × blockFile :=
  match f.seekFault with
  | some e => ((0, some e), f)
  | none => ((f.size, none), ⟨f.size, f.size, f.blocks, f.seekFault, f.writeFault⟩)

/-- Go's `f.Seek(off, 0)`: refused for a negative offset (EINVAL). -/
def SeekStart (f : blockFile) (off : Int) : Option Error × blockFile :=
  if off < 0 then (some (Error.other 22), f)
  else
    match f.seekFault with
    | some e => (some e, f)
    | none => (none, ⟨f.size, off, f.blocks, f.seekFault, f.writeFault⟩)

/-- Go's `f.Write(x[:])` of one block of `nodeBlockSize` bytes at the cursor; a write that
fails is taken to leave the file as it was. -/
def Write (nodeBlockSize : Int) (f : blockFile) (x : blockImage) : Option Error × blockFile :=
  match f.writeFault with
  | some e => (some e, f)
  | none =>
    (none, ⟨max f.size (f.pos + nodeBlockSize), f.pos + nodeBlockSize, (f.pos, x) :: f.blocks,
      f.seekFault, f.writeFault⟩)

end blockFile

/-- Go's `m[key]` on the map `_snapshotChPending`. -/
def pendingGet (l : List (Nat × blockImage)) (id : Nat) : Option blockImage :=
  (l.find? (fun e => e.1 = id)).map Prod.snd

/-- Go's `m[key] = x` on the map `_snapshotChPending`. -/
def pendingSet (l : List (Nat × blockImage)) (id : Nat) (x : blockImage) :
    List (Nat × blockImage) :=
  (id, x) :: l.filter (fun e => e.1 ≠ id)

namespace nodeStruct

/-- The assignment `n.offset = off`. -/
def setOffset (n : nodeStruct) (off : Int) : nodeStruct :=
  ⟨n.id, ⟨n.image.magic, n.image.itemsSize, n.image.childrenSize, off, n.image.items,
    n.image.childrenOffset⟩, n._children, n._super, n._snapshot⟩

end nodeStruct

namespace superState

/-- The super-block with the file `_fd` in a new state. -/
def setFd (sb : superState) (fd : blockFile) : superState :=
  ⟨sb.mmapSize, sb.mmapSizeUsed, sb._mmap, fd, sb._snapshotChPending⟩

/-- The assignment `_snapshotChPending[n] = x`. -/
def setPending (sb : superState) (id : Nat) (x : blockImage) : superState :=
  ⟨sb.mmapSize, sb.mmapSizeUsed, sb._mmap, sb._fd, pendingSet sb._snapshotChPending id x⟩

end superState

namespace nodeBlock

/-- The first part of `sync`, up to `x := ...`: a node whose offset is 0 is given one, from
the mapped region when `mmapSizeUsed+nodeBlockSize < mmapSize` and else from the end of the
file. The result is the error of `Seek` if there is one, the flag `mm`, the node and the
super-block. `nodeBlockSize` is the constant of that name, whose value for this `nodeBlock` is
not in the code at hand. -/
def syncOffset (nodeBlockSize : Int) (n : nodeStruct) (sb : superState) :
    Option Error × Bool × nodeStruct × superState :=
  if n.image.offset = 0 then
    if sb.mmapSizeUsed + nodeBlockSize < sb.mmapSize then
      (none, true, n.setOffset sb.mmapSizeUsed,
        ⟨sb.mmapSize, sb.mmapSizeUsed + nodeBlockSize, sb._mmap, sb._fd, sb._snapshotChPending⟩)
    else
      let r := sb._fd.SeekEnd
      (r.1.2, false, n.setOffset r.1.1, sb.setFd r.2)
  else (none, false, n, sb)

/-- The method `sync`: the error it returns, the node and the super-block afterwards; `none`
where `_mmap[n.offset:]` is out of range. The image `x` is taken after the offset is set; it
is copied into the mapped region when the offset has just been taken from it, and written to
the file at the offset otherwise; `copy` cuts a block short where the region ends, and the cut
is not followed here. The image is put into `_snapshotChPending` when there was no error. -/
def sync (nodeBlockSize : Int) (n : nodeStruct) (sb : superState) :
    Option (Option Error × nodeStruct × superState) :=
  match syncOffset nodeBlockSize n sb with
  | (some err, _, n1, sb1) => some (some err, n1, sb1)
  | (none, mm, n1, sb1) =>
    let x := n1.image
    if mm then
      if 0 ≤ n1.image.offset ∧ n1.image.offset ≤ sb1._mmap.len then
        some (none, n1,
          superState.setPending
            ⟨sb1.mmapSize, sb1.mmapSizeUsed,
              ⟨sb1._mmap.len, (n1.image.offset, x) :: sb1._mmap.blocks⟩, sb1._fd,
              sb1._snapshotChPending⟩ n1.id x)
      else none
    else
      match sb1._fd.SeekStart n1.image.offset with
      | (some err, fd1) => some (some err, n1, sb1.setFd fd1)
      | (none, fd1) =>
        match fd1.Write nodeBlockSize x with
        | (some err, fd2) => some (some err, n1, sb1.setFd fd2)
        | (none, fd2) => some (none, n1, (sb1.setFd fd2).setPending n1.id x)

/-- The method `revertToLastSnapshot`: the fields kept in the file are those of `_snapshot`
again, and `_children` is an array of nil pointers. -/
def revertToLastSnapshot (n : nodeStruct) : nodeStruct :=
  ⟨n.id, n._snapshot, List.replicate maxChildren none, n._super, n._snapshot⟩

/-- Calls of `sync` one after the other on the nodes at the addresses listed, each on the node
and the super-block as the calls before left them, whatever error a call returns; `nodes` has
the node at each address. -/
def syncEach (nodeBlockSize : Int) :
    List Nat → (Nat → nodeStruct) → superState → Option ((Nat → nodeStruct) × superState)
  | [], nodes, sb => some (nodes, sb)
  | i :: rest, nodes, sb =>
    match sync nodeBlockSize (nodes i) sb with
    | none => none
    | some (_, n1, sb1) => syncEach nodeBlockSize rest (fun j => if j = i then n1 else nodes j) sb1

end nodeBlock

/-- A node that was never stored: offset 0, one item. -/
def sampleNode (id : Nat) : nodeStruct :=
  ⟨id, ⟨[120, 120, 120, 48], 1, 0, 0, [sampleRecord 1], []⟩, [], 0,
    ⟨[120, 120, 120, 48], 0, 0, 0, [], []⟩⟩

/-- A super-block with a mapped region of `mmapSize` bytes of which `used` are taken, over a
file of 16384 bytes, with no entry pending and the fault given for `Write`. -/
def sampleSuper (mmapSize used : Int) (writeFault : Option Error) : superState :=
  ⟨mmapSize, used, ⟨mmapSize, []⟩, ⟨16384, 0, [], none, writeFault⟩, []⟩

end fz

namespace sched

/-- The type `SchedKey`, a `uint64`. -/
abbrev SchedKey := Nat

/-- The type `notifier`; a callback is named by a number. -/
structure notifier where
  deadline : Nat
  async : Bool
  callback : Nat
  deriving DecidableEq, Repr

/-- One cell of `timeoutWheel.secmin`: its counter and its map, `none` while the map is nil.
The mutex is left out: the calls are taken one at a time. -/
structure bucket where
  counter : Nat
  list : Option (List (SchedKey × notifier))
  deriving DecidableEq, Repr

/-- The array `timeoutWheel.secmin`, by second and minute. -/
abbrev Wheel := Nat → Nat → bucket

/-- What the code reads of a `time.Time`: `Unix()`, `Second()` and `Minute()`. -/
structure Time where
  unix : Int
  second : Nat
  minute : Nat
  deriving DecidableEq, Repr

/-- The wheel when the program starts: every counter 0, every map nil. -/
def emptyWheel : Wheel := fun _ _ => ⟨0, none⟩

/-- The expression `SchedKey(uint64(s+1)<<58 | uint64(m+1)<<52 | (ts.counter & 0xfffffffffffff))`. -/
def makeKey (s m counter : Nat) : SchedKey :=
  (((s + 1) <<< 58) % 2 ^ 64) ||| (((m + 1) <<< 52) % 2 ^ 64) ||| (counter &&& 0xfffffffffffff)

/-- Go's `m[key] = n` on a map kept as a list of entries. -/
def mapSet (l : List (SchedKey × notifier)) (key : SchedKey) (n : notifier) :
    List (SchedKey × notifier) :=
  (key, n) :: l.filter (fun e => e.1 ≠ key)

/-- Go's `delete(m, key)`. -/
def mapDelete (l : List (SchedKey × notifier)) (key : SchedKey) : List (SchedKey × notifier) :=
  l.filter (fun e => e.1 ≠ key)

/-- Go's `m[key]`. -/
def mapGet (l : List (SchedKey × notifier)) (key : SchedKey) : Option notifier :=
  (l.find? (fun e => e.1 = key)).map Prod.snd

/-- The wheel with the cell at second `s`, minute `m` replaced. -/
def setBucket (w : Wheel) (s m : Nat) (b : bucket) : Wheel :=
  fun s1 m1 => if s1 = s ∧ m1 = m then b else w s1 m1

/-- The function `schedule`, called at the time `now` (`time.Now().Unix()`). The result is
the key, the wheel afterwards, and the callback run on the spot if there is one (with `async`
telling whether it runs in a goroutine of its own). -/
def schedule (callback : Nat) (async : Bool) (deadline : Time) (now : Int) (w : Wheel) :
    SchedKey × Wheel × Option (Nat × Bool) :=
  if now > deadline.unix then (0, w, none)
  else if now = deadline.unix then (0, w, some (callback, async))
  else
    let s := deadline.second
    let m := deadline.minute
    let ts := w s m
    let counter := (ts.counter + 1) % 2 ^ 64
    let key := makeKey s m counter
    let list := mapSet (ts.list.getD []) key
      ⟨(deadline.unix % (2 : Int) ^ 32).toNat, async, callback⟩
    (key, setBucket w s m ⟨counter, some list⟩, none)

/-- In `Cancel`: `s := int(key>>58) - 1` and `m := int(key<<6>>58) - 1`. -/
def cancelCell (key : SchedKey) : Int × Int :=
  (((key >>> 58 : Nat) : Int) - 1, ((((key <<< 6) % 2 ^ 64) >>> 58 : Nat) : Int) - 1)

/-- The method `Cancel`. -/
def Cancel (key : SchedKey) (w : Wheel) : Wheel :=
  let (s, m) := cancelCell key
  if s < 0 ∨ s > 59 ∨ m < 0 ∨ m > 59 then w
  else
    let ts := w s.toNat m.toNat
    match ts.list with
    | some l => setBucket w s.toNat m.toNat ⟨ts.counter, some (mapDelete l key)⟩
    | none => w

end sched


/-! ## Bisection -/

namespace sort

theorem searchLoop_spec (f : Nat → Bool) (n : Nat)
    (mono : ∀ k k1, k ≤ k1 → k1 < n → f k = true → f k1 = true) :
    ∀ fuel i j, i ≤ j → j ≤ n → j - i ≤ fuel →
      (∀ k, k < i → f k = false) → (∀ k, j ≤ k → k < n → f k = true) →
      searchLoop f fuel i j ≤ n ∧ (∀ k, k < searchLoop f fuel i j → f k = false) ∧
      (∀ k, searchLoop f fuel i j ≤ k → k < n → f k = true) := by
  intro fuel
  induction fuel with
  | zero =>
    intro i j hij hjn hfuel hlo hhi
    have : i = j := by omega
    subst this
    exact ⟨hjn, hlo, hhi⟩
  | succ fuel ih =>
    intro i j hij hjn hfuel hlo hhi
    unfold searchLoop
    by_cases hlt : i < j
    · simp only [hlt, if_true]
      by_cases hf : f ((i + j) / 2) = true
      · simp only [hf, Bool.not_true, Bool.false_eq_true, if_false]
        apply ih i ((i + j) / 2) (by omega) (by omega) (by omega) hlo
        intro k hk hkn
        exact mono _ _ hk hkn hf
      · have hf1 : f ((i + j) / 2) = false := by simpa using hf
        simp only [hf1, Bool.not_false, if_true]
        apply ih ((i + j) / 2 + 1) j (by omega) hjn (by omega) _ hhi
        intro k hk
        by_contra hc
        have hc1 : f k = true := by simpa using hc
        have := mono k ((i + j) / 2) (by omega) (by omega) hc1
        rw [hf1] at this
        exact Bool.noConfusion this
    · have : i = j := by omega
      subst this
      simp only [hlt, if_false]
      exact ⟨hjn, hlo, hhi⟩

theorem Search_spec (f : Nat → Bool) (n : Nat)
    (mono : ∀ k k1, k ≤ k1 → k1 < n → f k = true → f k1 = true) :
    Search n f ≤ n ∧ (∀ k, k < Search n f → f k = false) ∧
    (∀ k, Search n f ≤ k → k < n → f k = true) := by
  unfold Search
  apply searchLoop_spec f n mono n 0 n (by omega) (by omega) (by omega)
  · intro k hk; omega
  · intro k hk hkn; omega

end sort

namespace fz
namespace nodeBlock

/-- What `find` returns on strictly ascending items: either the index of the item that has the
key, or the index before which every item is smaller and from which every item is greater. -/
theorem find_spec (less : uint128 → uint128 → Bool) (hst : StrictTotal less) (s : nodeBlock)
    (key : uint128) (hs : s.items.Pairwise (fun a b => less a.key b.key = true)) :
    ((find less s key).2 = true →
      ∃ p, s.items[(find less s key).1]? = some p ∧ p.key = key) ∧
    ((find less s key).2 = false →
      (find less s key).1 ≤ s.items.length ∧
      (∀ p ∈ s.items.take (find less s key).1, less p.key key = true) ∧
      (∀ p ∈ s.items.drop (find less s key).1, less key p.key = true)) := by
  have hpw := List.pairwise_iff_getElem.mp hs
  have mono : ∀ k k1, k ≤ k1 → k1 < s.itemsSize →
      (match s.items[k]? with | some p => less key p.key | none => false) = true →
      (match s.items[k1]? with | some p => less key p.key | none => false) = true := by
    intro k k1 hk hk1 hf
    have hk1' : k1 < s.items.length := hk1
    have hk' : k < s.items.length := by omega
    rw [List.getElem?_eq_getElem hk1']
    rw [List.getElem?_eq_getElem hk'] at hf
    simp only at hf ⊢
    rcases Nat.eq_or_lt_of_le hk with h | h
    · subst h; exact hf
    · exact hst.trans _ _ _ hf (hpw k k1 hk' hk1' h)
  obtain ⟨hr, hlo, hhi⟩ := sort.Search_spec _ s.itemsSize mono
  generalize hrdef : sort.Search s.itemsSize (fun i =>
    match s.items[i]? with
    | some p => less key p.key
    | none => false) = r at hr hlo hhi
  have hr' : r ≤ s.items.length := hr
  have hfind : find less s key =
      match (if r > 0 then s.items[r - 1]? else none) with
      | some p => if p.key = key then (r - 1, true) else (r, false)
      | none => (r, false) := by
    rw [← hrdef]
    rfl
  -- every item from r on is greater
  have habove : ∀ p ∈ s.items.drop r, less key p.key = true := by
    intro p hp
    obtain ⟨k, hk, rfl⟩ := List.getElem_of_mem hp
    rw [List.length_drop] at hk
    rw [List.getElem_drop]
    have := hhi (r + k) (by omega) (by show r + k < s.items.length; omega)
    rw [List.getElem?_eq_getElem (by omega)] at this
    exact this
  -- no item before r is greater
  have hnot : ∀ k (_ : k < r) (hk2 : k < s.items.length), less key (s.items[k]).key = false := by
    intro k hk hk2
    have := hlo k hk
    rw [List.getElem?_eq_getElem hk2] at this
    exact this
  by_cases hr0 : r > 0
  · have hlt : r - 1 < s.items.length := by omega
    have hget : s.items[r - 1]? = some (s.items[r - 1]) := List.getElem?_eq_getElem hlt
    by_cases heq : (s.items[r - 1]).key = key
    · have : find less s key = (r - 1, true) := by
        rw [hfind]; simp only [hr0, if_true, hget, heq]
      rw [this]
      refine ⟨fun _ => ⟨_, hget, heq⟩, fun h => ?_⟩
      exact absurd h (by simp)
    · have : find less s key = (r, false) := by
        rw [hfind]; simp only [hr0, if_true, hget, heq, if_false]
      rw [this]
      refine ⟨fun h => absurd h (by simp), fun _ => ⟨hr', ?_, habove⟩⟩
      intro p hp
      obtain ⟨k, hk, rfl⟩ := List.getElem_of_mem hp
      rw [List.length_take] at hk
      have hkr : k < r := by omega
      rw [List.getElem_take]
      have hlast : less (s.items[r - 1]).key key = true := by
        rcases hst.total (s.items[r - 1]).key key with h | h | h
        · exact h
        · exact absurd h heq
        · have := hnot (r - 1) (by omega) hlt
          rw [this] at h
          exact Bool.noConfusion h
      rcases Nat.eq_or_lt_of_le (Nat.le_sub_one_of_lt hkr) with h | h
      · subst h; exact hlast
      · exact hst.trans _ _ _ (hpw k (r - 1) (by omega) hlt h) hlast
  · have hr00 : r = 0 := by omega
    have : find less s key = (r, false) := by
      rw [hfind]; simp only [hr0, if_false]
    rw [this]
    refine ⟨fun h => absurd h (by simp), fun _ => ⟨hr', ?_, habove⟩⟩
    subst hr00
    simp

end nodeBlock
end fz


/-! ## The records of a subtree -/

namespace fz
namespace nodeBlock

theorem inorderL_nil (its : List pair) : inorderL its [] = its := by
  cases its <;> simp [inorderL]

theorem inorderL_cons (its : List pair) (c : Int × Option nodeBlock)
    (cs : List (Int × Option nodeBlock)) :
    inorderL its (c :: cs) = inorderO c.2 ++ inorderR its cs := by
  obtain ⟨off, c⟩ := c
  cases its <;> simp [inorderL, inorderR]

theorem inorderO_some (c : nodeBlock) : inorderO (some c) = inorder c := by
  simp [inorderO]

theorem inorder_mk (o : Int) (its : List pair) (cs : List (Int × Option nodeBlock)) (d : Bool) :
    inorder (mk o its cs d) = inorderL its cs := by
  simp [inorder]

theorem inorderR_nil (its : List pair) : inorderR its [] = its := by
  cases its <;> simp [inorderR, inorderL_nil]

/-- The traversal cut at a child: what comes before it, what is below it, what comes
after it. -/
theorem inorderL_append (I1 I2 : List pair) (C1 : List (Int × Option nodeBlock))
    (c : Int × Option nodeBlock) (C2 : List (Int × Option nodeBlock))
    (h : I1.length = C1.length) :
    inorderL (I1 ++ I2) (C1 ++ c :: C2) = inorderL I1 C1 ++ (inorderO c.2 ++ inorderR I2 C2) := by
  induction I1 generalizing C1 with
  | nil =>
    cases C1 with
    | nil => simp [inorderL_cons, inorderL_nil]
    | cons d C1 => simp at h
  | cons a I1 ih =>
    cases C1 with
    | nil => simp at h
    | cons d C1 =>
      have h1 : I1.length = C1.length := by simpa using h
      simp only [List.cons_append, inorderL_cons, inorderR, ih C1 h1, List.append_assoc,
        List.cons_append]

theorem items_sublist_inorderL (its : List pair) (cs : List (Int × Option nodeBlock)) :
    its.Sublist (inorderL its cs) := by
  induction cs generalizing its with
  | nil => rw [inorderL_nil]
  | cons c cs ih =>
    rw [inorderL_cons]
    cases its with
    | nil => exact List.nil_sublist _
    | cons a r =>
      simp only [inorderR]
      exact (List.Sublist.cons₂ a (ih r)).trans (List.sublist_append_right _ _)

theorem child_sublist_inorderL (its : List pair) (cs : List (Int × Option nodeBlock))
    (off : Int) (c : nodeBlock) (hc : (off, some c) ∈ cs) :
    (inorder c).Sublist (inorderL its cs) := by
  induction cs generalizing its with
  | nil => simp at hc
  | cons d cs ih =>
    rw [inorderL_cons]
    rcases List.mem_cons.mp hc with h | h
    · subst h
      simp only [inorderO_some]
      exact List.sublist_append_left _ _
    · cases its with
      | nil =>
        simp only [inorderR]
        exact (ih [] h).trans (List.sublist_append_right _ _)
      | cons a r =>
        simp only [inorderR]
        exact ((ih r h).trans (List.sublist_cons_self a _)).trans
          (List.sublist_append_right _ _)

/-! ## Shape and height -/

theorem shapeL_append (C1 C2 : List (Int × Option nodeBlock)) :
    shapeL (C1 ++ C2) = (shapeL C1 && shapeL C2) := by
  induction C1 with
  | nil => simp [shapeL]
  | cons c C1 ih =>
    obtain ⟨off, c⟩ := c
    simp [shapeL, ih, Bool.and_assoc]

theorem shapeL_cons_some (off : Int) (c : nodeBlock) (cs : List (Int × Option nodeBlock)) :
    shapeL ((off, some c) :: cs) = (shape c && shapeL cs) := by
  simp [shapeL, shapeO]

theorem shapeL_mem (cs : List (Int × Option nodeBlock)) (h : shapeL cs = true)
    (sl : Int × Option nodeBlock) (hsl : sl ∈ cs) : ∃ c, sl.2 = some c ∧ shape c = true := by
  induction cs with
  | nil => simp at hsl
  | cons d cs ih =>
    obtain ⟨off, c⟩ := d
    simp only [shapeL, Bool.and_eq_true] at h
    rcases List.mem_cons.mp hsl with h1 | h1
    · subst h1
      cases c with
      | none => simp [shapeO] at h
      | some c => exact ⟨c, rfl, by simpa [shapeO] using h.1⟩
    · exact ih h.2 h1

theorem shape_mk (o : Int) (its : List pair) (cs : List (Int × Option nodeBlock)) (d : Bool) :
    shape (mk o its cs d) = true ↔
      its.length ≤ maxItems ∧ (cs = [] ∨ (cs.length = its.length + 1 ∧ shapeL cs = true)) := by
  cases cs with
  | nil => simp [shape]
  | cons c cs => simp [shape]

theorem heightL_append (C1 C2 : List (Int × Option nodeBlock)) :
    heightL (C1 ++ C2) = max (heightL C1) (heightL C2) := by
  induction C1 with
  | nil => simp [heightL]
  | cons c C1 ih =>
    obtain ⟨off, c⟩ := c
    simp [heightL, ih, Nat.max_assoc]

theorem heightL_cons_some (off : Int) (c : nodeBlock) (cs : List (Int × Option nodeBlock)) :
    heightL ((off, some c) :: cs) = max (height c) (heightL cs) := by
  simp [heightL, heightO]

theorem heightL_mem (cs : List (Int × Option nodeBlock)) (off : Int) (c : nodeBlock)
    (h : (off, some c) ∈ cs) : c.height ≤ heightL cs := by
  obtain ⟨C1, C2, rfl⟩ := List.append_of_mem h
  rw [heightL_append, heightL_cons_some]
  omega

theorem height_mk (o : Int) (its : List pair) (cs : List (Int × Option nodeBlock)) (d : Bool) :
    height (mk o its cs d) = heightL cs + 1 := by
  simp [height]

theorem height_pos (n : nodeBlock) : 0 < n.height := by
  cases n; simp [height]

end nodeBlock
end fz


/-! ## Going down to a child -/

namespace fz
namespace nodeBlock

theorem below_of_items (less : uint128 → uint128 → Bool) (hst : StrictTotal less)
    (key : uint128) (I1 : List pair) (C1 : List (Int × Option nodeBlock))
    (h : I1.length = C1.length)
    (hp : (inorderL I1 C1).Pairwise (fun a b => less a.key b.key = true))
    (hk : ∀ p ∈ I1, less p.key key = true) :
    ∀ x ∈ inorderL I1 C1, less x.key key = true := by
  induction I1 generalizing C1 with
  | nil =>
    cases C1 with
    | nil => simp [inorderL_nil]
    | cons d C1 => simp at h
  | cons a I1 ih =>
    cases C1 with
    | nil => simp at h
    | cons d C1 =>
      have h1 : I1.length = C1.length := by simpa using h
      rw [inorderL_cons] at hp ⊢
      simp only [inorderR] at hp ⊢
      rw [List.pairwise_append] at hp
      obtain ⟨-, hp2, hp3⟩ := hp
      have ha : less a.key key = true := hk a (List.mem_cons_self _ _)
      intro x hx
      rcases List.mem_append.mp hx with hx1 | hx1
      · exact hst.trans _ _ _ (hp3 x hx1 a (List.mem_cons_self _ _)) ha
      · rcases List.mem_cons.mp hx1 with hx2 | hx2
        · subst hx2; exact ha
        · exact ih C1 h1 (List.Pairwise.of_cons hp2)
            (fun p hp => hk p (List.mem_cons_of_mem _ hp)) x hx2

theorem above_of_items (less : uint128 → uint128 → Bool) (hst : StrictTotal less)
    (key : uint128) (I2 : List pair) (C2 : List (Int × Option nodeBlock))
    (h : C2.length = I2.length)
    (hp : (inorderR I2 C2).Pairwise (fun a b => less a.key b.key = true))
    (hk : ∀ p ∈ I2, less key p.key = true) :
    ∀ x ∈ inorderR I2 C2, less key x.key = true := by
  cases I2 with
  | nil =>
    have : C2 = [] := List.length_eq_zero.mp (by simpa using h)
    subst this
    simp [inorderR, inorderL_nil]
  | cons a r =>
    simp only [inorderR] at hp ⊢
    have ha : less key a.key = true := hk a (List.mem_cons_self _ _)
    intro x hx
    rcases List.mem_cons.mp hx with hx1 | hx1
    · subst hx1; exact ha
    · exact hst.trans _ _ _ ha (List.rel_of_pairwise_cons hp hx1)

/-- The cells of a well-shaped internal node, cut at index `i`. -/
theorem cells_at (its : List pair) (cs : List (Int × Option nodeBlock))
    (hlen : cs.length = its.length + 1) (hsh : shapeL cs = true) (i : Nat)
    (hi : i ≤ its.length) :
    ∃ C1 off c C2, cs = C1 ++ (off, some c) :: C2 ∧ C1.length = i ∧
      C2.length = (its.drop i).length ∧ shape c = true ∧ shapeL C1 = true ∧
      shapeL C2 = true := by
  have hic : i < cs.length := by omega
  have hcut : cs = cs.take i ++ cs[i] :: cs.drop (i + 1) := by
    rw [← List.drop_eq_getElem_cons hic, List.take_append_drop]
  obtain ⟨c, hc2, hcs⟩ := shapeL_mem cs hsh cs[i] (List.getElem_mem _)
  have hsl : cs[i] = ((cs[i]).1, some c) := by
    rw [← hc2]
  rw [hsl] at hcut
  have hall := hsh
  rw [hcut, shapeL_append, shapeL_cons_some] at hall
  simp only [Bool.and_eq_true] at hall
  refine ⟨cs.take i, (cs[i]).1, c, cs.drop (i + 1), hcut, ?_, ?_, hcs, hall.1, hall.2.2⟩
  · rw [List.length_take]; omega
  · rw [List.length_drop, List.length_drop]; omega

theorem getElem?_mid {α : Type} (C1 : List α) (sl : α) (C2 : List α) :
    (C1 ++ sl :: C2)[C1.length]? = some sl := by
  rw [List.getElem?_append_right (Nat.le_refl _)]
  simp

theorem modify_mid {α : Type} (f : α → α) (C1 : List α) (sl : α) (C2 : List α) :
    (C1 ++ sl :: C2).modify f C1.length = C1 ++ f sl :: C2 := by
  rw [List.modify_eq_take_drop]
  simp [List.modifyHead]

theorem child_at (o : Int) (its : List pair) (C1 : List (Int × Option nodeBlock)) (off : Int)
    (c : nodeBlock) (C2 : List (Int × Option nodeBlock)) (d : Bool) :
    child (mk o its (C1 ++ (off, some c) :: C2) d) C1.length = some (some c, none) := by
  simp only [child, children, getElem?_mid]

theorem setChild_at (o : Int) (its : List pair) (C1 : List (Int × Option nodeBlock))
    (sl : Int × Option nodeBlock) (C2 : List (Int × Option nodeBlock)) (d : Bool)
    (c1 : nodeBlock) :
    setChild (mk o its (C1 ++ sl :: C2) d) C1.length c1 =
      mk o its (C1 ++ (sl.1, some c1) :: C2) d := by
  simp only [setChild, children, items, offset, dirty, modify_mid]

theorem height_child_lt (o : Int) (its : List pair) (C1 : List (Int × Option nodeBlock))
    (off : Int) (c : nodeBlock) (C2 : List (Int × Option nodeBlock)) (d : Bool) :
    c.height < (mk o its (C1 ++ (off, some c) :: C2) d).height := by
  rw [height_mk, heightL_append, heightL_cons_some]
  omega

/-- In a list with strictly ascending keys, a key names one record. -/
theorem unique_of_pairwise (less : uint128 → uint128 → Bool) (hst : StrictTotal less)
    (l : List pair) (hp : l.Pairwise (fun a b => less a.key b.key = true))
    (p q : pair) (hp1 : p ∈ l) (hq : q ∈ l) (hk : p.key = q.key) : p = q := by
  induction l with
  | nil => simp at hp1
  | cons a l ih =>
    have hirr : ∀ x y : pair, x.key = y.key → less x.key y.key = true → False := by
      intro x y hxy h
      rw [hxy, hst.irrefl] at h
      exact Bool.noConfusion h
    rcases List.mem_cons.mp hp1 with h1 | h1 <;> rcases List.mem_cons.mp hq with h2 | h2
    · rw [h1, h2]
    · subst h1
      exact (hirr _ _ hk (List.rel_of_pairwise_cons hp h2)).elim
    · subst h2
      exact (hirr _ _ hk.symm (List.rel_of_pairwise_cons hp h1)).elim
    · exact ih (List.Pairwise.of_cons hp) h1 h2

end nodeBlock
end fz


namespace fz
namespace nodeBlock

/-- Where the search goes on when the key is not among the items of a well-formed internal
node: the cells cut at the index `find` returns, everything before the child smaller than the
key and everything after it greater. -/
theorem descend_facts (less : uint128 → uint128 → Bool) (hst : StrictTotal less)
    (key : uint128) (o : Int) (its : List pair) (cs : List (Int × Option nodeBlock)) (d : Bool)
    (hsh : shape (mk o its cs d) = true)
    (hp : (inorderL its cs).Pairwise (fun a b => less a.key b.key = true))
    (hne : cs ≠ []) (i : Nat) (hfind : find less (mk o its cs d) key = (i, false)) :
    ∃ C1 off c C2, cs = C1 ++ (off, some c) :: C2 ∧ C1.length = i ∧ (its.take i).length = i ∧
      C2.length = (its.drop i).length ∧ shape c = true ∧ shapeL C1 = true ∧
      shapeL C2 = true ∧
      (∀ x ∈ inorderL (its.take i) C1, less x.key key = true) ∧
      (∀ x ∈ inorderR (its.drop i) C2, less key x.key = true) ∧
      inorderL its cs = inorderL (its.take i) C1 ++ (inorder c ++ inorderR (its.drop i) C2) := by
  have hits : its.Pairwise (fun a b => less a.key b.key = true) :=
    hp.sublist (items_sublist_inorderL its cs)
  obtain ⟨-, hnf⟩ := find_spec less hst (mk o its cs d) key hits
  rw [hfind] at hnf
  obtain ⟨hi, hlo, hhi⟩ := hnf rfl
  simp only [items] at hi hlo hhi
  rw [shape_mk] at hsh
  obtain ⟨-, hsh2⟩ := hsh
  rcases hsh2 with h | ⟨hlen, hshL⟩
  · exact absurd h hne
  obtain ⟨C1, off, c, C2, hcs, hC1, hC2, hc, hs1, hs2⟩ := cells_at its cs hlen hshL i hi
  have htake : (its.take i).length = i := by rw [List.length_take]; omega
  have hdec : inorderL its cs
      = inorderL (its.take i) C1 ++ (inorder c ++ inorderR (its.drop i) C2) := by
    conv_lhs => rw [← List.take_append_drop i its, hcs]
    rw [inorderL_append _ _ _ _ _ (by rw [htake, hC1])]
    simp [inorderO]
  rw [hdec] at hp
  rw [List.pairwise_append] at hp
  obtain ⟨hpA, hpXB, -⟩ := hp
  rw [List.pairwise_append] at hpXB
  obtain ⟨-, hpB, -⟩ := hpXB
  refine ⟨C1, off, c, C2, hcs, hC1, htake, hC2, hc, hs1, hs2, ?_, ?_, hdec⟩
  · exact below_of_items less hst key _ _ (by rw [htake, hC1]) hpA hlo
  · exact above_of_items less hst key _ _ hC2 hpB hhi

theorem key_ne_of_less (less : uint128 → uint128 → Bool) (hst : StrictTotal less)
    (a b : uint128) (h : less a b = true) : a ≠ b := by
  intro hab
  rw [hab, hst.irrefl] at h
  exact Bool.noConfusion h

/-- What `get` returns on a well-formed subtree, with fuel for its height: the record that has
the key when there is one, `ErrKeyNotFound` when there is none. -/
theorem getAux_spec (less : uint128 → uint128 → Bool) (hst : StrictTotal less)
    (key : uint128) :
    ∀ (fuel : Nat) (n : nodeBlock), n.height ≤ fuel → wellFormed less n →
      (∀ p ∈ n.inorder, p.key = key → getAux less fuel n key = some (p, none)) ∧
      ((∀ p ∈ n.inorder, p.key ≠ key) →
        getAux less fuel n key = some (pair.zero, some Error.ErrKeyNotFound)) := by
  intro fuel
  induction fuel with
  | zero =>
    intro n hh
    have := height_pos n
    omega
  | succ fuel ih =>
    intro n hh hwf
    obtain ⟨o, its, cs, d⟩ := n
    obtain ⟨hsh, hp⟩ := hwf
    rw [inorder_mk] at hp
    have hits : its.Pairwise (fun a b => less a.key b.key = true) :=
      hp.sublist (items_sublist_inorderL its cs)
    obtain ⟨hfound, hnf⟩ := find_spec less hst (mk o its cs d) key hits
    rcases hfd : find less (mk o its cs d) key with ⟨i, b⟩
    rw [hfd] at hfound hnf
    cases b with
    | true =>
      obtain ⟨q, hq, hqk⟩ := hfound rfl
      simp only [items] at hq
      have hqin : q ∈ inorderL its cs :=
        (items_sublist_inorderL its cs).subset (List.getElem?_mem hq)
      have hget : getAux less (fuel + 1) (mk o its cs d) key = some (q, none) := by
        simp only [getAux, hfd, items, hq]
      constructor
      · intro p hpin hpk
        rw [inorder_mk] at hpin
        have : p = q := unique_of_pairwise less hst _ hp p q hpin hqin (by rw [hpk, hqk])
        rw [this, hget]
      · intro hall
        rw [inorder_mk] at hall
        exact absurd hqk (hall q hqin)
    | false =>
      obtain ⟨hi, hlo, hhi⟩ := hnf rfl
      simp only [items] at hi hlo hhi
      by_cases hcs : cs = []
      · subst hcs
        have hget : getAux less (fuel + 1) (mk o its [] d) key
            = some (pair.zero, some Error.ErrKeyNotFound) := by
          simp [getAux, hfd, childrenSize, children]
        have habs : ∀ p ∈ its, p.key ≠ key := by
          intro p hpin
          rw [← List.take_append_drop i its] at hpin
          rcases List.mem_append.mp hpin with h | h
          · exact key_ne_of_less less hst _ _ (hlo p h)
          · exact (key_ne_of_less less hst _ _ (hhi p h)).symm
        constructor
        · intro p hpin hpk
          rw [inorder_mk, inorderL_nil] at hpin
          exact absurd hpk (habs p hpin)
        · intro _
          exact hget
      · obtain ⟨C1, off, c, C2, hcut, hC1, -, -, hc, -, -, hA, hB, hdec⟩ :=
          descend_facts less hst key o its cs d hsh hp hcs i hfd
        have hch : child (mk o its cs d) i = some (some c, none) := by
          rw [hcut, ← hC1]; exact child_at o its C1 off c C2 d
        have hlt : c.height ≤ fuel := by
          have := height_child_lt o its C1 off c C2 d
          rw [← hcut] at this
          omega
        have hpc : (inorder c).Pairwise (fun a b => less a.key b.key = true) := by
          rw [hdec] at hp
          exact ((List.pairwise_append.mp (List.pairwise_append.mp hp).2.1).1)
        obtain ⟨ih1, ih2⟩ := ih c hlt ⟨hc, hpc⟩
        have hpos : (mk o its cs d).childrenSize > 0 := by
          simp only [childrenSize, children]
          exact List.length_pos.mpr hcs
        have hget : getAux less (fuel + 1) (mk o its cs d) key = getAux less fuel c key := by
          simp only [getAux, hfd, hpos, if_true, hch]
        rw [hget, inorder_mk, hdec]
        constructor
        · intro p hpin hpk
          rcases List.mem_append.mp hpin with h | h
          · exact absurd hpk (key_ne_of_less less hst _ _ (hA p h))
          · rcases List.mem_append.mp h with h1 | h1
            · exact ih1 p h1 hpk
            · exact absurd hpk.symm (key_ne_of_less less hst _ _ (hB p h1))
        · intro hall
          exact ih2 (fun p hpin => hall p
            (List.mem_append_right _ (List.mem_append_left _ hpin)))

end nodeBlock
end fz


/-! ## The order of a search tree, node by node -/

namespace fz
namespace nodeBlock

theorem between_iff (less : uint128 → uint128 → Bool) (its : List pair) (j : Nat) (x : pair) :
    between less its j x = true ↔
      (∀ p, 0 < j → its[j - 1]? = some p → less p.key x.key = true) ∧
      (∀ p, its[j]? = some p → less x.key p.key = true) := by
  unfold between
  rw [Bool.and_eq_true]
  constructor
  · rintro ⟨h1, h2⟩
    constructor
    · intro p hj hp
      simp only [hj, if_true, hp] at h1
      exact h1
    · intro p hp
      simp only [hp] at h2
      exact h2
  · rintro ⟨h1, h2⟩
    constructor
    · by_cases hj : 0 < j
      · cases hp : its[j - 1]? with
        | none => simp [hj, hp]
        | some p =>
          simp only [gt_iff_lt, hj, if_true, hp]
          exact h1 p hj hp
      · simp [hj]
    · cases hp : its[j]? with
      | none => rfl
      | some p => exact h2 p hp

theorem searchTree_mk (less : uint128 → uint128 → Bool) (o : Int) (its : List pair)
    (cs : List (Int × Option nodeBlock)) (d : Bool) :
    searchTree less (mk o its cs d) = true ↔
      its.Pairwise (fun a b => less a.key b.key = true) ∧ searchTreeL less its 0 cs = true := by
  simp [searchTree]

theorem searchTreeL_cons (less : uint128 → uint128 → Bool) (its : List pair) (j : Nat)
    (off : Int) (c : nodeBlock) (r : List (Int × Option nodeBlock)) :
    searchTreeL less its j ((off, some c) :: r) = true ↔
      searchTree less c = true ∧ (∀ x ∈ c.inorder, between less its j x = true) ∧
      searchTreeL less its (j + 1) r = true := by
  simp [searchTreeL, searchTreeO, inorderO, and_assoc]

/-- Strictly ascending along the traversal means a search tree, node by node. -/
theorem searchTree_of_pairwise (less : uint128 → uint128 → Bool) :
    ∀ (h : Nat) (n : nodeBlock), n.height ≤ h → n.shape = true →
      n.inorder.Pairwise (fun a b => less a.key b.key = true) → searchTree less n = true := by
  intro h
  induction h with
  | zero =>
    intro n hh
    have := height_pos n
    omega
  | succ h ih =>
    intro n hh hsh hp
    obtain ⟨o, its, cs, d⟩ := n
    rw [inorder_mk] at hp
    rw [height_mk] at hh
    rw [searchTree_mk]
    refine ⟨hp.sublist (items_sublist_inorderL its cs), ?_⟩
    rw [shape_mk] at hsh
    rcases hsh.2 with hnil | ⟨hlen, hshL⟩
    · rw [hnil]; simp [searchTreeL]
    · have key : ∀ (C2 C1 : List (Int × Option nodeBlock)), cs = C1 ++ C2 →
          searchTreeL less its C1.length C2 = true := by
        intro C2
        induction C2 with
        | nil => intro C1 _; simp [searchTreeL]
        | cons cell C2 ihC =>
          intro C1 hcs
          have hmem : cell ∈ cs := by rw [hcs]; simp
          obtain ⟨c, hc2, hshc⟩ := shapeL_mem cs hshL cell hmem
          obtain ⟨off, c0⟩ := cell
          simp only at hc2
          subst hc2
          have hj : C1.length ≤ its.length := by
            have := congrArg List.length hcs
            simp only [List.length_append, List.length_cons] at this
            omega
          have hI : (its.take C1.length).length = C1.length := by
            rw [List.length_take]; omega
          have hdec : inorderL its cs = inorderL (its.take C1.length) C1 ++
              (inorder c ++ inorderR (its.drop C1.length) C2) := by
            conv_lhs => rw [← List.take_append_drop C1.length its, hcs]
            rw [inorderL_append _ _ _ _ _ hI]
            simp [inorderO]
          rw [hdec] at hp
          obtain ⟨-, hpXB, hAX⟩ := List.pairwise_append.mp hp
          obtain ⟨hpc, -, hXB⟩ := List.pairwise_append.mp hpXB
          rw [searchTreeL_cons]
          refine ⟨?_, ?_, ?_⟩
          · have hch : c.height ≤ heightL cs := by
              rw [hcs, heightL_append, heightL_cons_some]; omega
            exact ih c (by omega) hshc hpc
          · intro x hx
            rw [between_iff]
            constructor
            · intro p hj0 hpj
              have hpin : p ∈ inorderL (its.take C1.length) C1 := by
                apply (items_sublist_inorderL _ _).subset
                have : (its.take C1.length)[C1.length - 1]? = some p := by
                  rw [List.getElem?_take_of_lt (by omega)]; exact hpj
                exact List.getElem?_mem this
              exact hAX p hpin x (List.mem_append_left _ hx)
            · intro p hpj
              have hpin : p ∈ inorderR (its.drop C1.length) C2 := by
                have hlt : C1.length < its.length := by
                  by_contra hge
                  rw [List.getElem?_eq_none (by omega)] at hpj
                  exact Option.noConfusion hpj
                rw [List.drop_eq_getElem_cons hlt]
                simp only [inorderR]
                rw [List.getElem?_eq_getElem hlt] at hpj
                rw [Option.some.inj hpj]
                exact List.mem_cons_self _ _
              exact hXB x hx p hpin
          · have := ihC (C1 ++ [(off, some c)]) (by rw [hcs]; simp)
            simpa using this
      exact key cs [] rfl

theorem searchTreeL_getElem (less : uint128 → uint128 → Bool) (its : List pair)
    (C : List (Int × Option nodeBlock)) (hsh : shapeL C = true) :
    ∀ (j0 k : Nat) (hk : k < C.length), searchTreeL less its j0 C = true →
      ∃ c, (C[k]).2 = some c ∧ shape c = true ∧ searchTree less c = true ∧
        ∀ x ∈ c.inorder, between less its (j0 + k) x = true := by
  induction C with
  | nil => intro j0 k hk; simp at hk
  | cons cell C ih =>
    intro j0 k hk hst
    obtain ⟨c, hc2, hshc⟩ := shapeL_mem _ hsh cell (List.mem_cons_self _ _)
    obtain ⟨off, c0⟩ := cell
    simp only at hc2
    subst hc2
    rw [shapeL_cons_some, Bool.and_eq_true] at hsh
    rw [searchTreeL_cons] at hst
    cases k with
    | zero => exact ⟨c, rfl, hshc, hst.1, by simpa using hst.2.1⟩
    | succ k =>
      have := ih hsh.2 (j0 + 1) k (by simpa using hk) hst.2.2
      have e : j0 + 1 + k = j0 + (k + 1) := by omega
      rw [e] at this
      simpa using this

/-- A search tree, node by node, of the right shape is strictly ascending along the
traversal. -/
theorem pairwise_of_searchTree (less : uint128 → uint128 → Bool) (hst : StrictTotal less) :
    ∀ (h : Nat) (n : nodeBlock), n.height ≤ h → n.shape = true → searchTree less n = true →
      n.inorder.Pairwise (fun a b => less a.key b.key = true) := by
  intro h
  induction h with
  | zero =>
    intro n hh
    have := height_pos n
    omega
  | succ h ih =>
    intro n hh hsh hs
    obtain ⟨o, its, cs, d⟩ := n
    rw [inorder_mk]
    rw [height_mk] at hh
    rw [searchTree_mk] at hs
    obtain ⟨hits, hsL⟩ := hs
    have hpw := List.pairwise_iff_getElem.mp hits
    rw [shape_mk] at hsh
    rcases hsh.2 with hnil | ⟨hlen, hshL⟩
    · rw [hnil, inorderL_nil]; exact hits
    · -- from index j on: ascending, and above item j - 1
      have key : ∀ (k j : Nat), j + k = its.length →
          (inorderL (its.drop j) (cs.drop j)).Pairwise (fun a b => less a.key b.key = true) ∧
          ∀ y ∈ inorderL (its.drop j) (cs.drop j), ∀ p, 0 < j → its[j - 1]? = some p →
            less p.key y.key = true := by
        intro k
        induction k with
        | zero =>
          intro j hj
          have hjc : j < cs.length := by omega
          obtain ⟨c, hc2, hshc, hsc, hbt⟩ := searchTreeL_getElem less its cs hshL 0 j hjc hsL
          have hch : c.height ≤ heightL cs := by
            apply heightL_mem cs (cs[j]).1 c
            rw [← hc2]; exact List.getElem_mem _
          have hI : its.drop j = [] := List.drop_of_length_le (by omega)
          have hC : cs.drop j = [cs[j]] := by
            rw [List.drop_eq_getElem_cons hjc, List.drop_of_length_le (by omega)]
          rw [hI, hC, inorderL_cons, hc2]
          simp only [inorderO, inorderR, inorderL_nil, List.append_nil]
          refine ⟨ih c (by omega) hshc hsc, ?_⟩
          intro y hy p hj0 hp
          have := (between_iff less its (0 + j) y).mp (hbt y hy)
          rw [Nat.zero_add] at this
          exact this.1 p hj0 hp
        | succ k ihk =>
          intro j hj
          have hjc : j < cs.length := by omega
          have hji : j < its.length := by omega
          obtain ⟨c, hc2, hshc, hsc, hbt⟩ := searchTreeL_getElem less its cs hshL 0 j hjc hsL
          have hch : c.height ≤ heightL cs := by
            apply heightL_mem cs (cs[j]).1 c
            rw [← hc2]; exact List.getElem_mem _
          obtain ⟨hrest, habove⟩ := ihk (j + 1) (by omega)
          have hgetj : its[j]? = some its[j] := List.getElem?_eq_getElem hji
          have hbtw : ∀ x ∈ c.inorder,
              (∀ p, 0 < j → its[j - 1]? = some p → less p.key x.key = true) ∧
              less x.key (its[j]).key = true := by
            intro x hx
            have := (between_iff less its (0 + j) x).mp (hbt x hx)
            rw [Nat.zero_add] at this
            exact ⟨this.1, this.2 _ hgetj⟩
          have hab : ∀ y ∈ inorderL (its.drop (j + 1)) (cs.drop (j + 1)),
              less (its[j]).key y.key = true := by
            intro y hy
            exact habove y hy its[j] (by omega) (by simp)
          rw [List.drop_eq_getElem_cons hji, List.drop_eq_getElem_cons hjc, inorderL_cons, hc2]
          simp only [inorderO, inorderR]
          refine ⟨?_, ?_⟩
          · rw [List.pairwise_append]
            refine ⟨ih c (by omega) hshc hsc, List.pairwise_cons.mpr ⟨hab, hrest⟩, ?_⟩
            intro x hx y hy
            rcases List.mem_cons.mp hy with h1 | h1
            · rw [h1]; exact (hbtw x hx).2
            · exact hst.trans _ _ _ (hbtw x hx).2 (hab y h1)
          · intro y hy p hj0 hp
            have hpj : less p.key (its[j]).key = true := by
              obtain ⟨hlt, hpe⟩ := List.getElem?_eq_some.mp hp
              rw [← hpe]
              exact hpw (j - 1) j hlt hji (by omega)
            rcases List.mem_append.mp hy with h1 | h1
            · exact (hbtw y h1).1 p hj0 hp
            · rcases List.mem_cons.mp h1 with h2 | h2
              · rw [h2]; exact hpj
              · exact hst.trans _ _ _ hpj (hab y h2)
      have := (key its.length 0 (by omega)).1
      simpa using this

/-- On a subtree of the right shape, the two ways to say that it is ordered agree. -/
theorem wellFormed_iff_searchTree (less : uint128 → uint128 → Bool) (hst : StrictTotal less)
    (n : nodeBlock) :
    wellFormed less n ↔ (n.shape = true ∧ searchTree less n = true) := by
  constructor
  · rintro ⟨hsh, hp⟩
    exact ⟨hsh, searchTree_of_pairwise less n.height n (Nat.le_refl _) hsh hp⟩
  · rintro ⟨hsh, hs⟩
    exact ⟨hsh, pairwise_of_searchTree less hst n.height n (Nat.le_refl _) hsh hs⟩

end nodeBlock
end fz


/-! ## Splitting a full child -/

namespace fz
namespace nodeBlock

theorem zip_fst_snd {α β : Type} (l : List (α × β)) :
    List.zip (l.map Prod.fst) (l.map Prod.snd) = l := by
  induction l with
  | nil => rfl
  | cons a l ih => simp [ih]

theorem insertItemAt_mid (o : Int) (I1 I2 : List pair) (cs : List (Int × Option nodeBlock))
    (d : Bool) (m : pair) (h : (I1 ++ I2).length < maxItems) :
    insertItemAt (mk o (I1 ++ I2) cs d) I1.length m = some (mk o (I1 ++ m :: I2) cs true) := by
  have hcond : (mk o (I1 ++ I2) cs d).itemsSize < maxItems ∧
      I1.length ≤ (mk o (I1 ++ I2) cs d).itemsSize := by
    refine ⟨h, ?_⟩
    show I1.length ≤ (I1 ++ I2).length
    rw [List.length_append]; omega
  rw [insertItemAt, if_pos hcond]
  simp only [items, List.take_left', List.drop_left', markDirty, offset, children]

theorem insertChildAt_mid (o : Int) (its : List pair) (C1 C2 : List (Int × Option nodeBlock))
    (d : Bool) (r : nodeBlock) (h : (C1 ++ C2).length < maxChildren) :
    insertChildAt (mk o its (C1 ++ C2) d) C1.length r =
      some (mk o its (C1 ++ (r.offset, some r) :: C2) true) := by
  have hcond : (mk o its (C1 ++ C2) d).childrenSize < maxChildren ∧
      C1.length ≤ (mk o its (C1 ++ C2) d).childrenSize := by
    refine ⟨h, ?_⟩
    show C1.length ≤ (C1 ++ C2).length
    rw [List.length_append]; omega
  rw [insertChildAt, if_pos hcond]
  simp only [children, List.take_left', List.drop_left', markDirty, offset, items]

/-- What `split` at the middle does to a full node. -/
theorem split_full (o : Int) (its : List pair) (cs : List (Int × Option nodeBlock)) (d : Bool)
    (hlen : its.length = maxItems) (hcs : cs = [] ∨ cs.length = its.length + 1) :
    ∃ m, its = its.take 31 ++ m :: its.drop 32 ∧
      split (mk o its cs d) (maxItems / 2) =
        some (m, mk o (its.take 31) (cs.take 32) true, mk 0 (its.drop 32) (cs.drop 32) true) := by
  have h63 : its.length = 63 := hlen
  have h31 : 31 < its.length := by omega
  have hhalf : maxItems / 2 = 31 := by decide
  refine ⟨its[31], ?_, ?_⟩
  · rw [← List.drop_eq_getElem_cons h31, List.take_append_drop]
  · have hget : its[31]? = some its[31] := List.getElem?_eq_getElem h31
    have happ : appendItems newNode (its.drop 32) = some (mk 0 (its.drop 32) [] true) := by
      have hcond : ¬ (newNode.itemsSize + (its.drop 32).length > maxItems) := by
        show ¬ (0 + (its.drop 32).length > 63)
        rw [List.length_drop]; omega
      rw [appendItems, if_neg hcond]
      rfl
    rcases hcs with h | h
    · subst h
      simp [split, hhalf, items, hget, happ, childrenSize, children, markDirty, offset, dirty]
    · have hpos : (mk o (its.take 31) cs d).childrenSize > 0 := by
        simp only [childrenSize, children]; omega
      have happc : appendChildrenAndOffsets (mk 0 (its.drop 32) [] true)
          ((cs.drop 32).map Prod.snd) ((cs.drop 32).map Prod.fst)
          = some (mk 0 (its.drop 32) (cs.drop 32) true) := by
        have hcond : ¬ (((cs.drop 32).map Prod.fst).length < ((cs.drop 32).map Prod.snd).length ∨
            (mk 0 (its.drop 32) [] true).childrenSize + ((cs.drop 32).map Prod.snd).length
              > maxChildren) := by
          show ¬ (_ ∨ 0 + ((cs.drop 32).map Prod.snd).length > 64)
          rw [List.length_map, List.length_map, List.length_drop]; omega
        rw [appendChildrenAndOffsets, if_neg hcond]
        simp only [children, List.nil_append, zip_fst_snd, markDirty, offset, items]
      simp only [split, hhalf, items, hget, happ, offset, dirty, children, hpos, if_true,
        happc, markDirty]

theorem inorder_split (its : List pair) (cs : List (Int × Option nodeBlock))
    (m : pair) (hlen : its.length = maxItems) (hcs : cs = [] ∨ cs.length = its.length + 1)
    (hm : its = its.take 31 ++ m :: its.drop 32) :
    inorderL its cs =
      inorderL (its.take 31) (cs.take 32) ++ m :: inorderL (its.drop 32) (cs.drop 32) := by
  have h63 : its.length = 63 := hlen
  rcases hcs with h | h
  · subst h
    simp only [List.take_nil, List.drop_nil, inorderL_nil]
    exact hm
  · have h31 : 31 < cs.length := by omega
    have hcut : cs = cs.take 31 ++ cs[31] :: cs.drop 32 := by
      rw [← List.drop_eq_getElem_cons h31, List.take_append_drop]
    have hl1 : (its.take 31).length = (cs.take 31).length := by
      rw [List.length_take, List.length_take]; omega
    have htake : cs.take 32 = cs.take 31 ++ cs[31] :: [] := by
      rw [List.take_succ, List.getElem?_eq_getElem h31]
      rfl
    conv_lhs => rw [hm, hcut]
    rw [inorderL_append _ _ _ _ _ hl1, htake]
    have := inorderL_append (its.take 31) [] (cs.take 31) cs[31] [] hl1
    rw [List.append_nil] at this
    rw [this]
    simp [inorderR, inorderL_nil, List.append_assoc]

theorem shapeL_take_drop (cs : List (Int × Option nodeBlock)) (h : shapeL cs = true) (k : Nat) :
    shapeL (cs.take k) = true ∧ shapeL (cs.drop k) = true := by
  rw [← List.take_append_drop k cs, shapeL_append] at h
  simpa using h

theorem heightL_take_drop (cs : List (Int × Option nodeBlock)) (k : Nat) :
    heightL (cs.take k) ≤ heightL cs ∧ heightL (cs.drop k) ≤ heightL cs := by
  have := heightL_append (cs.take k) (cs.drop k)
  rw [List.take_append_drop] at this
  omega

/-- The two halves of a full well-shaped node are well shaped, hold 31 items each and are no
higher than the node. -/
theorem halves_shape (o : Int) (its : List pair) (cs : List (Int × Option nodeBlock))
    (d : Bool) (hsh : shape (mk o its cs d) = true) (hlen : its.length = maxItems) :
    shape (mk o (its.take 31) (cs.take 32) true) = true ∧
    shape (mk 0 (its.drop 32) (cs.drop 32) true) = true ∧
    (its.take 31).length = 31 ∧ (its.drop 32).length = 31 ∧
    (mk o (its.take 31) (cs.take 32) true).height ≤ (mk o its cs d).height ∧
    (mk 0 (its.drop 32) (cs.drop 32) true).height ≤ (mk o its cs d).height ∧
    (cs = [] ∨ cs.length = its.length + 1) := by
  have h63 : its.length = 63 := hlen
  rw [shape_mk] at hsh
  obtain ⟨-, hsh2⟩ := hsh
  have ht : (its.take 31).length = 31 := by rw [List.length_take]; omega
  have hd : (its.drop 32).length = 31 := by rw [List.length_drop]; omega
  have hh := heightL_take_drop cs 32
  refine ⟨?_, ?_, ht, hd, ?_, ?_, ?_⟩
  · rw [shape_mk]
    refine ⟨by rw [ht]; decide, ?_⟩
    rcases hsh2 with h | ⟨h1, h2⟩
    · left; rw [h]; rfl
    · right
      exact ⟨by rw [List.length_take, ht]; omega, (shapeL_take_drop cs h2 32).1⟩
  · rw [shape_mk]
    refine ⟨by rw [hd]; decide, ?_⟩
    rcases hsh2 with h | ⟨h1, h2⟩
    · left; rw [h]; rfl
    · right
      exact ⟨by rw [List.length_drop, hd]; omega, (shapeL_take_drop cs h2 32).2⟩
  · rw [height_mk, height_mk]; omega
  · rw [height_mk, height_mk]; omega
  · rcases hsh2 with h | ⟨h1, -⟩
    · exact Or.inl h
    · exact Or.inr h1

/-- What `maybeSplitChild` does at a child that is not full: nothing. -/
theorem maybeSplitChild_roomy (o : Int) (its : List pair)
    (C1 : List (Int × Option nodeBlock)) (off : Int) (c : nodeBlock)
    (C2 : List (Int × Option nodeBlock)) (d : Bool) (hc : c.items.length < maxItems) :
    maybeSplitChild (mk o its (C1 ++ (off, some c) :: C2) d) C1.length =
      some (false, mk o its (C1 ++ (off, some c) :: C2) d) := by
  have hc1 : c.itemsSize < maxItems := hc
  simp only [maybeSplitChild, child_at, hc1, if_true]

/-- What `maybeSplitChild` does at a full child of a node that has room: the middle item of
the child moves up to index `i`, the child keeps its left half and a new node right after it
takes the right half. -/
theorem maybeSplitChild_full (o : Int) (I1 I2 : List pair)
    (C1 : List (Int × Option nodeBlock)) (off oc : Int) (its : List pair)
    (cs : List (Int × Option nodeBlock)) (dc : Bool)
    (C2 : List (Int × Option nodeBlock)) (d : Bool)
    (hI : I1.length = C1.length) (hroom : (I1 ++ I2).length < maxItems)
    (hC : (C1 ++ (off, some (mk oc its cs dc)) :: C2).length = (I1 ++ I2).length + 1)
    (hlen : its.length = maxItems) (hcs : cs = [] ∨ cs.length = its.length + 1) :
    ∃ m, its = its.take 31 ++ m :: its.drop 32 ∧
      maybeSplitChild (mk o (I1 ++ I2) (C1 ++ (off, some (mk oc its cs dc)) :: C2) d) C1.length =
      some (true, mk o (I1 ++ m :: I2)
        (C1 ++ (off, some (mk oc (its.take 31) (cs.take 32) true)) ::
          (0, some (mk 0 (its.drop 32) (cs.drop 32) true)) :: C2) true) := by
  obtain ⟨m, hm, hsplit⟩ := split_full oc its cs dc hlen hcs
  refine ⟨m, hm, ?_⟩
  have hfull : ¬ (mk oc its cs dc).itemsSize < maxItems := by
    simp only [itemsSize, items]; omega
  have hit := insertItemAt_mid o I1 I2
    (C1 ++ (off, some (mk oc (its.take 31) (cs.take 32) true)) :: C2) d m hroom
  rw [hI] at hit
  have hl : ((C1 ++ [(off, some (mk oc (its.take 31) (cs.take 32) true))]) ++ C2).length
      < maxChildren := by
    have : (C1 ++ (off, some (mk oc its cs dc)) :: C2).length < maxChildren := by
      rw [hC]; simp only [maxChildren]; omega
    simpa using this
  have hct := insertChildAt_mid o (I1 ++ m :: I2)
    (C1 ++ [(off, some (mk oc (its.take 31) (cs.take 32) true))]) C2 true
    (mk 0 (its.drop 32) (cs.drop 32) true) hl
  simp only [List.length_append, List.length_singleton, List.append_assoc,
    List.singleton_append, offset] at hct
  simp only [maybeSplitChild, child_at, hfull, if_false, hsplit, setChild_at, hit, hct,
    markDirty, offset, items, children]

end nodeBlock
end fz


/-! ## Insertion -/

namespace fz
namespace nodeBlock

/-- Going down into a child hands on what `insert` owes: from the child to the node. -/
theorem insertDescend_owes {S : Type} (less : uint128 → uint128 → Bool)
    (hst : StrictTotal less) (writePair : uint128 → S → (pair × Option Error) × S)
    (rec : nodeBlock → uint128 → S → Option (Option Error × nodeBlock × S))
    (key : uint128) (s : S) (o : Int) (I1 I2 : List pair)
    (C1 : List (Int × Option nodeBlock)) (off : Int) (c : nodeBlock)
    (C2 : List (Int × Option nodeBlock)) (d : Bool)
    (hI : I1.length = C1.length) (hlen : (I1 ++ I2).length ≤ maxItems)
    (hC2 : C2.length = I2.length) (hs1 : shapeL C1 = true) (hs2 : shapeL C2 = true)
    (hA : ∀ x ∈ inorderL I1 C1, less x.key key = true)
    (hB : ∀ x ∈ inorderR I2 C2, less key x.key = true)
    (hrec : insertOwes less writePair c.inorder key s (rec c key s)) :
    insertOwes less writePair (inorderL I1 C1 ++ (c.inorder ++ inorderR I2 C2)) key s
      (insertDescend rec (mk o (I1 ++ I2) (C1 ++ (off, some c) :: C2) d) C1.length key s) := by
  have hne := fun (a b : uint128) (h : less a b = true) => key_ne_of_less less hst a b h
  -- the node left behind, for a child left behind
  have hnode : ∀ c1 : nodeBlock, c1.shape = true →
      (mk o (I1 ++ I2) (C1 ++ (off, some c1) :: C2) d).shape = true ∧
      (mk o (I1 ++ I2) (C1 ++ (off, some c1) :: C2) d).inorder
        = inorderL I1 C1 ++ (c1.inorder ++ inorderR I2 C2) := by
    intro c1 hc1
    constructor
    · rw [shape_mk]
      refine ⟨hlen, Or.inr ⟨?_, ?_⟩⟩
      · simp only [List.length_append, List.length_cons]; omega
      · rw [shapeL_append, shapeL_cons_some, hs1, hc1, hs2]; rfl
    · rw [inorder_mk, inorderL_append _ _ _ _ _ hI]
      simp [inorderO]
  have hres : ∀ err c1 s1, rec c key s = some (err, c1, s1) →
      insertDescend rec (mk o (I1 ++ I2) (C1 ++ (off, some c) :: C2) d) C1.length key s
        = some (err, mk o (I1 ++ I2) (C1 ++ (off, some c1) :: C2) d, s1) := by
    intro err c1 s1 h
    simp only [insertDescend, child_at, h, setChild_at]
  obtain ⟨hrec1, hrec2⟩ := hrec
  constructor
  · rintro ⟨x, hx, hxk⟩
    have hxc : x ∈ c.inorder := by
      rcases List.mem_append.mp hx with h | h
      · exact absurd hxk (hne _ _ (hA x h))
      · rcases List.mem_append.mp h with h1 | h1
        · exact h1
        · exact absurd hxk.symm (hne _ _ (hB x h1))
    obtain ⟨c1, hr, hin, hsh⟩ := hrec1 ⟨x, hxc, hxk⟩
    obtain ⟨hsh1, hin1⟩ := hnode c1 hsh
    exact ⟨_, hres _ _ _ hr, by rw [hin1, hin], hsh1⟩
  · intro hall
    have hallc : ∀ x ∈ c.inorder, x.key ≠ key := fun x hx =>
      hall x (List.mem_append_right _ (List.mem_append_left _ hx))
    obtain ⟨hok, herr⟩ := hrec2 hallc
    constructor
    · intro p s1 hw
      obtain ⟨c1, A, B, hr, hL, hin, hAk, hBk, hsh⟩ := hok p s1 hw
      obtain ⟨hsh1, hin1⟩ := hnode c1 hsh
      refine ⟨_, inorderL I1 C1 ++ A, B ++ inorderR I2 C2, hres _ _ _ hr, ?_, ?_, ?_, ?_, hsh1⟩
      · rw [hL]; simp [List.append_assoc]
      · rw [hin1, hin]; simp [List.append_assoc]
      · intro x hx
        rcases List.mem_append.mp hx with h | h
        · exact hA x h
        · exact hAk x h
      · intro x hx
        rcases List.mem_append.mp hx with h | h
        · exact hBk x h
        · exact hB x h
    · intro p err s1 hw
      obtain ⟨c1, hr, hin, hsh⟩ := herr p err s1 hw
      obtain ⟨hsh1, hin1⟩ := hnode c1 hsh
      exact ⟨_, hres _ _ _ hr, by rw [hin1, hin], hsh1⟩

/-- The cut of `descend_facts`, with the items before and from the index named. -/
theorem descend_cut (less : uint128 → uint128 → Bool) (hst : StrictTotal less)
    (key : uint128) (o : Int) (its : List pair) (cs : List (Int × Option nodeBlock)) (d : Bool)
    (hsh : shape (mk o its cs d) = true)
    (hp : (inorderL its cs).Pairwise (fun a b => less a.key b.key = true))
    (hne : cs ≠ []) (i : Nat) (hfind : find less (mk o its cs d) key = (i, false)) :
    ∃ I1 I2 C1 off c C2, its = I1 ++ I2 ∧ cs = C1 ++ (off, some c) :: C2 ∧ C1.length = i ∧
      I1.length = C1.length ∧ C2.length = I2.length ∧ shape c = true ∧ shapeL C1 = true ∧
      shapeL C2 = true ∧
      (∀ x ∈ inorderL I1 C1, less x.key key = true) ∧
      (∀ x ∈ inorderR I2 C2, less key x.key = true) ∧
      inorderL its cs = inorderL I1 C1 ++ (inorder c ++ inorderR I2 C2) := by
  obtain ⟨C1, off, c, C2, hcut, hC1, htake, hC2, hc, hs1, hs2, hA, hB, hdec⟩ :=
    descend_facts less hst key o its cs d hsh hp hne i hfind
  exact ⟨its.take i, its.drop i, C1, off, c, C2, (List.take_append_drop i its).symm, hcut, hC1,
    by rw [htake, hC1], hC2, hc, hs1, hs2, hA, hB, hdec⟩

/-- What `insert` does on a well-formed subtree whose root has room, with fuel for its
height. -/
theorem insertAux_owes {S : Type} (less : uint128 → uint128 → Bool) (hst : StrictTotal less)
    (writePair : uint128 → S → (pair × Option Error) × S) (key : uint128) :
    ∀ (fuel : Nat) (n : nodeBlock) (s : S), n.height ≤ fuel → n.shape = true →
      n.inorder.Pairwise (fun a b => less a.key b.key = true) → n.items.length < maxItems →
      insertOwes less writePair n.inorder key s (insertAux less writePair fuel n key s) := by
  intro fuel
  induction fuel with
  | zero =>
    intro n s hh
    have := height_pos n
    omega
  | succ fuel ih =>
    intro n s hh hsh hp hroom
    obtain ⟨o, its, cs, d⟩ := n
    rw [inorder_mk] at hp ⊢
    simp only [items] at hroom
    have hne := fun (a b : uint128) (h : less a b = true) => key_ne_of_less less hst a b h
    have hits : its.Pairwise (fun a b => less a.key b.key = true) :=
      hp.sublist (items_sublist_inorderL its cs)
    obtain ⟨hfound, hnf⟩ := find_spec less hst (mk o its cs d) key hits
    rcases hfd : find less (mk o its cs d) key with ⟨i, b⟩
    rw [hfd] at hfound hnf
    cases b with
    | true =>
      obtain ⟨q, hq, hqk⟩ := hfound rfl
      simp only [items] at hq
      have hqin : q ∈ inorderL its cs :=
        (items_sublist_inorderL its cs).subset (List.getElem?_mem hq)
      have hres : insertAux less writePair (fuel + 1) (mk o its cs d) key s
          = some (some Error.ErrKeyExisted, mk o its cs d, s) := by
        simp only [insertAux, hfd]
      rw [hres]
      constructor
      · intro _
        exact ⟨_, rfl, inorder_mk o its cs d, hsh⟩
      · intro hall
        exact absurd hqk (hall q hqin)
    | false =>
      obtain ⟨hi, hlo, hhi⟩ := hnf rfl
      simp only [items] at hi hlo hhi
      by_cases hcs : cs = []
      · subst hcs
        rw [inorderL_nil]
        have habs : ∀ p ∈ its, p.key ≠ key := by
          intro p hpin
          rw [← List.take_append_drop i its] at hpin
          rcases List.mem_append.mp hpin with h | h
          · exact hne _ _ (hlo p h)
          · exact (hne _ _ (hhi p h)).symm
        have hti : (its.take i).length = i := by rw [List.length_take]; omega
        have hins : ∀ p, insertItemAt (mk o its [] d) i p
            = some (mk o (its.take i ++ p :: its.drop i) [] true) := by
          intro p
          have := insertItemAt_mid o (its.take i) (its.drop i) [] d p
            (by rw [List.take_append_drop]; exact hroom)
          rw [List.take_append_drop, hti] at this
          exact this
        constructor
        · rintro ⟨x, hx, hxk⟩
          exact absurd hxk (habs x hx)
        · intro _
          constructor
          · intro p s1 hw
            refine ⟨mk o (its.take i ++ p :: its.drop i) [] true, its.take i, its.drop i, ?_,
              (List.take_append_drop i its).symm, ?_, hlo, hhi, ?_⟩
            · simp only [insertAux, hfd, childrenSize, children, List.length_nil, if_true, hw,
                hins]
            · rw [inorder_mk, inorderL_nil]
            · rw [shape_mk]
              refine ⟨?_, Or.inl rfl⟩
              simp only [List.length_append, List.length_cons, List.length_take,
                List.length_drop]
              omega
          · intro p err s1 hw
            refine ⟨mk o its [] d, ?_, ?_, hsh⟩
            · simp only [insertAux, hfd, childrenSize, children, List.length_nil, if_true, hw]
            · rw [inorder_mk, inorderL_nil]
      · obtain ⟨I1, I2, C1, off, c, C2, hI, hcut, hC1, hI1, hC2, hc, hs1, hs2, hA, hB, hdec⟩ :=
          descend_cut less hst key o its cs d hsh hp hcs i hfd
        subst hI hcut hC1
        rw [hdec]
        have hnz : ¬ (mk o (I1 ++ I2) (C1 ++ (off, some c) :: C2) d).childrenSize = 0 := by
          simp [childrenSize, children]
        have hlt : c.height ≤ fuel := by
          have := height_child_lt o (I1 ++ I2) C1 off c C2 d
          omega
        have hpc : (inorder c).Pairwise (fun a b => less a.key b.key = true) := by
          rw [hdec] at hp
          exact ((List.pairwise_append.mp (List.pairwise_append.mp hp).2.1).1)
        by_cases hfull : c.items.length < maxItems
        · have hres : insertAux less writePair (fuel + 1)
              (mk o (I1 ++ I2) (C1 ++ (off, some c) :: C2) d) key s
              = insertDescend (insertAux less writePair fuel)
                (mk o (I1 ++ I2) (C1 ++ (off, some c) :: C2) d) C1.length key s := by
            simp only [insertAux, hfd, hnz, if_false, maybeSplitChild_roomy _ _ _ _ _ _ _ hfull]
          rw [hres]
          exact insertDescend_owes less hst writePair _ key s o I1 I2 C1 off c C2 d hI1
            (Nat.le_of_lt hroom) hC2 hs1 hs2 hA hB (ih c s hlt hc hpc hfull)
        · obtain ⟨oc, cits, ccs, dc⟩ := c
          have hc63 : cits.length = maxItems := by
            have h1 := ((shape_mk oc cits ccs dc).mp hc).1
            simp only [items] at hfull
            omega
          obtain ⟨hshl, hshr, hl31, hr31, hhl, hhr, hccs⟩ :=
            halves_shape oc cits ccs dc hc hc63
          have hCl : (C1 ++ (off, some (mk oc cits ccs dc)) :: C2).length
              = (I1 ++ I2).length + 1 := by
            simp only [List.length_append, List.length_cons]; omega
          obtain ⟨m, hm, hms⟩ := maybeSplitChild_full o I1 I2 C1 off oc cits ccs dc C2 d hI1
            hroom hCl hc63 hccs
          have hinc := inorder_split cits ccs m hc63 hccs hm
          rw [inorder_mk] at hpc
          rw [inorder_mk, hinc]
          rw [hinc] at hpc
          have hpl := (List.pairwise_append.mp hpc).1
          have hpmr := (List.pairwise_append.mp hpc).2.1
          have hlm : ∀ x ∈ inorderL (cits.take 31) (ccs.take 32), less x.key m.key = true :=
            fun x hx => (List.pairwise_append.mp hpc).2.2 x hx m (List.mem_cons_self _ _)
          have hmr : ∀ x ∈ inorderL (cits.drop 32) (ccs.drop 32), less m.key x.key = true :=
            fun x hx => List.rel_of_pairwise_cons hpmr hx
          have hpr := List.Pairwise.of_cons hpmr
          have hitem : (mk o (I1 ++ m :: I2)
              (C1 ++ (off, some (mk oc (cits.take 31) (ccs.take 32) true)) ::
                (0, some (mk 0 (cits.drop 32) (ccs.drop 32) true)) :: C2) true).items[C1.length]?
              = some m := by
            simp only [items, ← hI1, getElem?_mid]
          have hlen1 : (I1 ++ m :: I2).length ≤ maxItems := by
            simp only [List.length_append, List.length_cons] at hroom ⊢
            omega
          have hres0 : insertAux less writePair (fuel + 1)
              (mk o (I1 ++ I2) (C1 ++ (off, some (mk oc cits ccs dc)) :: C2) d) key s
              = if less key m.key then
                  insertDescend (insertAux less writePair fuel) (mk o (I1 ++ m :: I2)
                    (C1 ++ (off, some (mk oc (cits.take 31) (ccs.take 32) true)) ::
                      (0, some (mk 0 (cits.drop 32) (ccs.drop 32) true)) :: C2) true)
                    C1.length key s
                else if less m.key key then
                  insertDescend (insertAux less writePair fuel) (mk o (I1 ++ m :: I2)
                    (C1 ++ (off, some (mk oc (cits.take 31) (ccs.take 32) true)) ::
                      (0, some (mk 0 (cits.drop 32) (ccs.drop 32) true)) :: C2) true)
                    (C1.length + 1) key s
                else some (some Error.ErrKeyExisted, mk o (I1 ++ m :: I2)
                    (C1 ++ (off, some (mk oc (cits.take 31) (ccs.take 32) true)) ::
                      (0, some (mk 0 (cits.drop 32) (ccs.drop 32) true)) :: C2) true, s) := by
            simp only [insertAux, hfd, hnz, if_false, hms, hitem]
          rw [hres0]
          have hshr2 : shapeL ((0, some (mk 0 (cits.drop 32) (ccs.drop 32) true)) :: C2)
              = true := by
            rw [shapeL_cons_some, hshr, hs2]; rfl
          by_cases hk1 : less key m.key = true
          · simp only [hk1, if_true]
            have hB1 : ∀ x ∈ inorderR (m :: I2)
                ((0, some (mk 0 (cits.drop 32) (ccs.drop 32) true)) :: C2),
                less key x.key = true := by
              intro x hx
              simp only [inorderR, inorderL_cons, inorderO, inorder_mk] at hx
              rcases List.mem_cons.mp hx with h | h
              · rw [h]; exact hk1
              · rcases List.mem_append.mp h with h1 | h1
                · exact hst.trans _ _ _ hk1 (hmr x h1)
                · exact hB x h1
            have := insertDescend_owes less hst writePair (insertAux less writePair fuel) key s
              o I1 (m :: I2) C1 off (mk oc (cits.take 31) (ccs.take 32) true)
              ((0, some (mk 0 (cits.drop 32) (ccs.drop 32) true)) :: C2) true hI1 hlen1
              (by simp only [List.length_cons]; omega) hs1 hshr2 hA hB1
              (ih _ s (by omega) hshl (by rw [inorder_mk]; exact hpl)
                (by simp only [items, hl31]; decide))
            simp only [inorderR, inorderL_cons, inorderO, inorder_mk, List.append_assoc,
              List.cons_append] at this ⊢
            exact this
          · have hk1f : less key m.key = false := by simpa using hk1
            by_cases hk2 : less m.key key = true
            · simp only [hk1f, hk2, if_true, Bool.false_eq_true, if_false]
              have hA1 : ∀ x ∈ inorderL (I1 ++ [m])
                  (C1 ++ [(off, some (mk oc (cits.take 31) (ccs.take 32) true))]),
                  less x.key key = true := by
                intro x hx
                rw [inorderL_append _ _ _ _ _ hI1] at hx
                simp only [inorderO, inorder_mk, inorderR_nil] at hx
                rcases List.mem_append.mp hx with h | h
                · exact hA x h
                · rcases List.mem_append.mp h with h1 | h1
                  · exact hst.trans _ _ _ (hlm x h1) hk2
                  · rw [List.mem_singleton.mp h1]; exact hk2
              have hI2 : (I1 ++ [m]).length
                  = (C1 ++ [(off, some (mk oc (cits.take 31) (ccs.take 32) true))]).length := by
                simp only [List.length_append, List.length_singleton]; omega
              have hs12 : shapeL (C1 ++ [(off, some (mk oc (cits.take 31) (ccs.take 32) true))])
                  = true := by
                rw [shapeL_append, shapeL_cons_some, hs1, hshl]; rfl
              have := insertDescend_owes less hst writePair (insertAux less writePair fuel) key
                s o (I1 ++ [m]) I2
                (C1 ++ [(off, some (mk oc (cits.take 31) (ccs.take 32) true))]) 0
                (mk 0 (cits.drop 32) (ccs.drop 32) true) C2 true hI2
                (by simpa using hlen1) hC2 hs12 hs2 hA1 hB
                (ih _ s (by omega) hshr (by rw [inorder_mk]; exact hpr)
                  (by simp only [items, hr31]; decide))
              rw [inorderL_append _ _ _ _ _ hI1] at this
              simp only [inorderO, inorder_mk, inorderR_nil, List.append_assoc,
                List.cons_append, List.length_append, List.length_singleton,
                List.singleton_append, List.nil_append] at this ⊢
              exact this
            · have hk2f : less m.key key = false := by simpa using hk2
              simp only [hk1f, hk2f, Bool.false_eq_true, if_false]
              have hmk : m.key = key := by
                rcases hst.total m.key key with h | h | h
                · rw [hk2f] at h; exact Bool.noConfusion h
                · exact h
                · rw [hk1f] at h; exact Bool.noConfusion h
              constructor
              · intro _
                refine ⟨_, rfl, ?_, ?_⟩
                · rw [inorder_mk, inorderL_append _ _ _ _ _ hI1]
                  simp only [inorderO, inorder_mk, inorderR, inorderL_cons, List.append_assoc,
                    List.cons_append]
                · rw [shape_mk]
                  refine ⟨hlen1, Or.inr ⟨?_, ?_⟩⟩
                  · simp only [List.length_append, List.length_cons]; omega
                  · rw [shapeL_append, shapeL_cons_some, hs1, hshl, hshr2]; rfl
              · intro hall
                exact absurd hmk (hall m (List.mem_append_right _
                  (List.mem_append_left _ (List.mem_append_right _ (List.mem_cons_self _ _)))))

end nodeBlock
end fz


/-! ## Lookup and insertion: the main properties -/

namespace fz

theorem lessByWords_strictTotal : StrictTotal lessByWords := by
  refine ⟨?_, ?_, ?_⟩
  · intro a
    simp [lessByWords]
  · intro a b c hab hbc
    unfold lessByWords at *
    by_cases h1 : a.w0 = b.w0 <;> by_cases h2 : b.w0 = c.w0 <;> by_cases h3 : a.w0 = c.w0 <;>
      simp_all <;> omega
  · intro a b
    obtain ⟨a0, a1⟩ := a
    obtain ⟨b0, b1⟩ := b
    unfold lessByWords
    by_cases h1 : a0 = b0
    · subst h1
      rcases Nat.lt_trichotomy a1 b1 with h | h | h
      · left; simp [h]
      · right; left; rw [h]
      · right; right; simp [h]
    · rcases Nat.lt_trichotomy a0 b0 with h | h | h
      · left; simp [h1, h]
      · exact absurd h h1
      · right; right
        have : ¬ b0 = a0 := fun e => h1 e.symm
        simp [this, h]

namespace nodeBlock

/-- C3: on a well-formed subtree, `get` returns `ErrKeyNotFound` exactly when no record of
the subtree has the key, and when a record has it `get` returns that record with a nil
error. -/
theorem C3_get_finds_exactly_the_stored_keys (less : uint128 → uint128 → Bool)
    (hst : StrictTotal less) (n : nodeBlock) (hwf : wellFormed less n) (key : uint128) :
    (get less n key = some (pair.zero, some Error.ErrKeyNotFound) ↔
      ∀ p ∈ n.inorder, p.key ≠ key) ∧
    ((∃ p, get less n key = some (p, some Error.ErrKeyNotFound)) ↔
      ∀ p ∈ n.inorder, p.key ≠ key) ∧
    (∀ p ∈ n.inorder, p.key = key → get less n key = some (p, none)) := by
  obtain ⟨h1, h2⟩ := getAux_spec less hst key n.height n (Nat.le_refl _) hwf
  refine ⟨⟨?_, h2⟩, ⟨?_, fun h => ⟨_, h2 h⟩⟩, h1⟩
  · intro hget p hp hpk
    have := h1 p hp hpk
    unfold get at hget
    rw [this] at hget
    simp at hget
  · rintro ⟨q, hget⟩ p hp hpk
    have := h1 p hp hpk
    unfold get at hget
    rw [this] at hget
    simp at hget

/-- C3 on the sample tree: the key 15 is found in its leaf, with its record. -/
theorem C3_get_finds_exactly_the_stored_keys_witness :
    wellFormed lessByWords sampleTree ∧
    get lessByWords sampleTree ⟨15, 0⟩ = some (sampleRecord 15, none) :=
  ⟨by decide,
   (C3_get_finds_exactly_the_stored_keys lessByWords lessByWords_strictTotal sampleTree
      (by decide) ⟨15, 0⟩).2.2 (sampleRecord 15) (by decide) rfl⟩

/-- C1: on a well-formed subtree whose root holds fewer than 63 items, for a key that no
record has, when `writePair` succeeds with the record `p` of that key, `insert` returns nil
and hands the state of the super-block on from `writePair`; the subtree it leaves is well
formed, `get` of the key returns exactly `p` on it, and `get` of the key of every record that
was there before returns that record, as it did before. -/
theorem C1_insert_then_get {S : Type} (less : uint128 → uint128 → Bool)
    (hst : StrictTotal less) (writePair : uint128 → S → (pair × Option Error) × S)
    (n : nodeBlock) (key : uint128) (s s1 : S) (p : pair)
    (hwf : wellFormed less n) (hroom : n.itemsSize < maxItems)
    (habsent : ∀ q ∈ n.inorder, q.key ≠ key)
    (hw : writePair key s = ((p, none), s1)) (hpk : p.key = key) :
    ∃ n1, insert less writePair n key s = some (none, n1, s1) ∧ wellFormed less n1 ∧
      get less n1 key = some (p, none) ∧
      ∀ q ∈ n.inorder, get less n q.key = some (q, none) ∧ get less n1 q.key = some (q, none) := by
  obtain ⟨hsh, hp⟩ := hwf
  obtain ⟨-, hno⟩ := insertAux_owes less hst writePair key n.height n s (Nat.le_refl _) hsh hp
    hroom
  obtain ⟨n1, A, B, hres, hL, hin, hA, hB, hsh1⟩ := (hno habsent).1 p s1 hw
  have hp1 : n1.inorder.Pairwise (fun a b => less a.key b.key = true) := by
    rw [hL] at hp
    rw [hin]
    obtain ⟨hpA, hpB, hAB⟩ := List.pairwise_append.mp hp
    rw [List.pairwise_append]
    refine ⟨hpA, List.pairwise_cons.mpr ⟨fun x hx => by rw [hpk]; exact hB x hx, hpB⟩, ?_⟩
    intro x hx y hy
    rcases List.mem_cons.mp hy with h | h
    · rw [h, hpk]; exact hA x hx
    · exact hAB x hx y h
  have hwf1 : wellFormed less n1 := ⟨hsh1, hp1⟩
  have hg1 := (getAux_spec less hst key n1.height n1 (Nat.le_refl _) hwf1).1
  refine ⟨n1, hres, hwf1, ?_, ?_⟩
  · exact hg1 p (by rw [hin]; exact List.mem_append_right _ (List.mem_cons_self _ _)) hpk
  · intro q hq
    have hq1 : q ∈ n1.inorder := by
      rw [hin]
      rw [hL] at hq
      rcases List.mem_append.mp hq with h | h
      · exact List.mem_append_left _ h
      · exact List.mem_append_right _ (List.mem_cons_of_mem _ h)
    exact ⟨(getAux_spec less hst q.key n.height n (Nat.le_refl _) ⟨hsh, hp⟩).1 q hq rfl,
      (getAux_spec less hst q.key n1.height n1 (Nat.le_refl _) hwf1).1 q hq1 rfl⟩

/-- C1 on the sample tree: the key 13, which it does not hold, is inserted and found. -/
theorem C1_insert_then_get_witness :
    (wellFormed lessByWords sampleTree ∧ sampleTree.itemsSize < maxItems ∧
      (∀ q ∈ sampleTree.inorder, q.key ≠ ⟨13, 0⟩) ∧
      sampleWritePair ⟨13, 0⟩ [] = ((⟨⟨13, 0⟩, 1000, 8, 0, 1, false, 0, 0⟩, none), [⟨13, 0⟩])) ∧
    ∃ n1, insert lessByWords sampleWritePair sampleTree ⟨13, 0⟩ [] = some (none, n1, [⟨13, 0⟩]) ∧
      get lessByWords n1 ⟨13, 0⟩ = some (⟨⟨13, 0⟩, 1000, 8, 0, 1, false, 0, 0⟩, none) :=
  ⟨⟨by decide, by decide, by decide, rfl⟩,
   (C1_insert_then_get lessByWords lessByWords_strictTotal sampleWritePair sampleTree ⟨13, 0⟩
      [] [⟨13, 0⟩] ⟨⟨13, 0⟩, 1000, 8, 0, 1, false, 0, 0⟩ (by decide) (by decide) (by decide)
      rfl rfl).imp fun _ h => ⟨h.1, h.2.2.1⟩⟩

/-- C2: on a well-formed subtree whose root holds fewer than 63 items, for a key that some
record of the subtree has, wherever it is, `insert` returns `ErrKeyExisted` and the state of
the super-block is the one it was called with, whatever the state and whatever `writePair` is:
`writePair` is not called. The subtree left behind holds the same records. -/
theorem C2_insert_existing_key {S : Type} (less : uint128 → uint128 → Bool)
    (hst : StrictTotal less) (writePair : uint128 → S → (pair × Option Error) × S)
    (n : nodeBlock) (key : uint128) (s : S)
    (hwf : wellFormed less n) (hroom : n.itemsSize < maxItems)
    (hpresent : ∃ q ∈ n.inorder, q.key = key) :
    ∃ n1, insert less writePair n key s = some (some Error.ErrKeyExisted, n1, s) ∧
      n1.inorder = n.inorder ∧ wellFormed less n1 := by
  obtain ⟨hsh, hp⟩ := hwf
  obtain ⟨hyes, -⟩ := insertAux_owes less hst writePair key n.height n s (Nat.le_refl _) hsh hp
    hroom
  obtain ⟨n1, hres, hin, hsh1⟩ := hyes hpresent
  exact ⟨n1, hres, hin, hsh1, by rw [hin]; exact hp⟩

/-- C2 on the sample tree, with a `writePair` that logs the keys it is called with: the key
15 is refused and the log stays empty. -/
theorem C2_insert_existing_key_witness :
    (wellFormed lessByWords sampleTree ∧ sampleTree.itemsSize < maxItems ∧
      ∃ q ∈ sampleTree.inorder, q.key = ⟨15, 0⟩) ∧
    ∃ n1, insert lessByWords sampleWritePair sampleTree ⟨15, 0⟩ []
      = some (some Error.ErrKeyExisted, n1, []) :=
  ⟨⟨by decide, by decide, by decide⟩,
   (C2_insert_existing_key lessByWords lessByWords_strictTotal sampleWritePair sampleTree
      ⟨15, 0⟩ [] (by decide) (by decide) (by decide)).imp fun _ h => h.1⟩

end nodeBlock
end fz


/-! ## Claims on `find`, `maybeSplitChild` and the invariant of `insert` -/

namespace fz
namespace nodeBlock

theorem cut_at {α : Type} (l : List α) (i : Nat) (x : α) (h : l[i]? = some x) :
    l = l.take i ++ x :: l.drop (i + 1) ∧ (l.take i).length = i := by
  obtain ⟨hi, hx⟩ := List.getElem?_eq_some.mp h
  refine ⟨?_, ?_⟩
  · rw [← hx, ← List.drop_eq_getElem_cons hi, List.take_append_drop]
  · rw [List.length_take]; omega

/-- C13: on a node whose items are strictly ascending under a strict total order `less`.
When some item has the key, `find` returns true with an index at which the item has that key.
When no item has it, `find` returns false with an index `i` that is at most the number of
items, every item at an index below `i` is less than the key and every item at index `i` or
above is greater than the key. -/
theorem C13_find_index_or_insertion_point (less : uint128 → uint128 → Bool)
    (hst : StrictTotal less) (s : nodeBlock) (key : uint128)
    (hs : s.items.Pairwise (fun a b => less a.key b.key = true)) :
    ((∃ p ∈ s.items, p.key = key) →
      (find less s key).2 = true ∧
      ∃ p, s.items[(find less s key).1]? = some p ∧ p.key = key) ∧
    ((∀ p ∈ s.items, p.key ≠ key) →
      (find less s key).2 = false ∧
      (find less s key).1 ≤ s.itemsSize ∧
      (∀ j p, j < (find less s key).1 → s.items[j]? = some p → less p.key key = true) ∧
      (∀ j p, (find less s key).1 ≤ j → s.items[j]? = some p → less key p.key = true)) := by
  obtain ⟨hfound, hnf⟩ := find_spec less hst s key hs
  have hpoint : (find less s key).2 = false →
      (find less s key).1 ≤ s.itemsSize ∧
      (∀ j p, j < (find less s key).1 → s.items[j]? = some p → less p.key key = true) ∧
      (∀ j p, (find less s key).1 ≤ j → s.items[j]? = some p → less key p.key = true) := by
    intro hf
    obtain ⟨hle, hlo, hhi⟩ := hnf hf
    refine ⟨hle, ?_, ?_⟩
    · intro j p hj hp
      apply hlo
      apply List.getElem?_mem (n := j)
      rw [List.getElem?_take_of_lt hj]
      exact hp
    · intro j p hj hp
      apply hhi
      apply List.getElem?_mem (n := j - (find less s key).1)
      rw [List.getElem?_drop]
      rw [show (find less s key).1 + (j - (find less s key).1) = j by omega]
      exact hp
  refine ⟨?_, ?_⟩
  · rintro ⟨p, hp, hpk⟩
    cases hb : (find less s key).2 with
    | true => exact ⟨rfl, hfound hb⟩
    | false =>
      exfalso
      obtain ⟨-, hlo, hhi⟩ := hpoint hb
      obtain ⟨j, hj⟩ := List.mem_iff_getElem?.mp hp
      by_cases hlt : j < (find less s key).1
      · have := hlo j p hlt hj
        rw [hpk, hst.irrefl key] at this
        exact Bool.noConfusion this
      · have := hhi j p (by omega) hj
        rw [hpk, hst.irrefl key] at this
        exact Bool.noConfusion this
  · intro hno
    cases hb : (find less s key).2 with
    | true =>
      exfalso
      obtain ⟨p, hp, hpk⟩ := hfound hb
      exact hno p (List.getElem?_mem hp) hpk
    | false => exact ⟨rfl, hpoint hb⟩

/-- C13 on a leaf with the keys 1, 5 and 9: the key 5 is found at index 1, and the key 7,
which is not there, has the insertion point 2. -/
theorem C13_find_index_or_insertion_point_witness :
    (sampleLeaf [1, 5, 9]).items.Pairwise (fun a b => lessByWords a.key b.key = true) ∧
    find lessByWords (sampleLeaf [1, 5, 9]) ⟨5, 0⟩ = (1, true) ∧
    find lessByWords (sampleLeaf [1, 5, 9]) ⟨7, 0⟩ = (2, false) ∧
    (find lessByWords (sampleLeaf [1, 5, 9]) ⟨5, 0⟩).2 = true ∧
    (find lessByWords (sampleLeaf [1, 5, 9]) ⟨7, 0⟩).2 = false :=
  ⟨by decide, by decide, by decide,
   ((C13_find_index_or_insertion_point lessByWords lessByWords_strictTotal
      (sampleLeaf [1, 5, 9]) ⟨5, 0⟩ (by decide)).1 ⟨sampleRecord 5, by decide, rfl⟩).1,
   ((C13_find_index_or_insertion_point lessByWords lessByWords_strictTotal
      (sampleLeaf [1, 5, 9]) ⟨7, 0⟩ (by decide)).2 (by decide)).1⟩

/-- C14: for a node with one child cell more than it has items, whose cell `i` holds the
node `c`. When `c` has fewer than 63 items, `maybeSplitChild` returns false and the node as it
was. When `c` has 63 items and either no child or 64 children, and the node has fewer than 63
items, `maybeSplitChild` returns true: item 31 of `c` is put into the node at index `i`, cell `i`
holds `c` with its first 31 items and its first 32 child cells, cell `i + 1` is a new node with
the last 31 items and the last 32 child cells of `c`, offsets included, in the order they had,
and the other items and cells of the node keep their order around them. -/
theorem C14_maybeSplitChild_splits_a_full_child (n : nodeBlock) (i : Nat) (off : Int)
    (c : nodeBlock) (hcell : n.children[i]? = some (off, some c))
    (hcells : n.childrenSize = n.itemsSize + 1) :
    (c.itemsSize < maxItems → maybeSplitChild n i = some (false, n)) ∧
    (c.itemsSize = maxItems → (c.childrenSize = 0 ∨ c.childrenSize = maxChildren) →
      n.itemsSize < maxItems →
      ∃ item, c.items[31]? = some item ∧
        maybeSplitChild n i = some (true,
          mk n.offset (n.items.take i ++ item :: n.items.drop i)
            (n.children.take i ++
              (off, some (mk c.offset (c.items.take 31) (c.children.take 32) true)) ::
              (0, some (mk 0 (c.items.drop 32) (c.children.drop 32) true)) ::
              n.children.drop (i + 1)) true) ∧
        (c.items.take 31).length = 31 ∧ (c.items.drop 32).length = 31 ∧
        (c.childrenSize = maxChildren →
          (c.children.take 32).length = 32 ∧ (c.children.drop 32).length = 32)) := by
  obtain ⟨o, its, cs, d⟩ := n
  obtain ⟨oc, cits, ccs, dc⟩ := c
  simp only [children, items, itemsSize, childrenSize, offset] at hcell hcells ⊢
  obtain ⟨hcut, hlen⟩ := cut_at cs i _ hcell
  have hi : i ≤ its.length := by
    have := (List.getElem?_eq_some.mp hcell).1
    omega
  refine ⟨?_, ?_⟩
  · intro hc
    have := maybeSplitChild_roomy o its (cs.take i) off (mk oc cits ccs dc) (cs.drop (i + 1)) d hc
    rw [← hcut, hlen] at this
    exact this
  · intro hfull hkids hroom
    have hI : (its.take i).length = (cs.take i).length := by
      rw [hlen, List.length_take]; omega
    have hcs : ccs = [] ∨ ccs.length = cits.length + 1 := by
      rcases hkids with h | h
      · exact Or.inl (List.length_eq_zero.mp h)
      · right; rw [h, hfull]; rfl
    have h63 : cits.length = 63 := hfull
    obtain ⟨m, hm, hres⟩ := maybeSplitChild_full o (its.take i) (its.drop i) (cs.take i) off oc
      cits ccs dc (cs.drop (i + 1)) d hI (by rw [List.take_append_drop]; exact hroom)
      (by rw [← hcut, List.take_append_drop]; exact hcells) hfull hcs
    rw [← hcut, hlen, List.take_append_drop] at hres
    refine ⟨m, ?_, hres, ?_, ?_, ?_⟩
    · conv_lhs => rw [hm]
      have h31 : (cits.take 31).length = 31 := by rw [List.length_take]; omega
      have := getElem?_mid (cits.take 31) m (cits.drop 32)
      rw [h31] at this
      exact this
    · rw [List.length_take]; omega
    · rw [List.length_drop]; omega
    · intro h64
      have : ccs.length = 64 := h64
      rw [List.length_take, List.length_drop]
      omega

set_option maxRecDepth 100000 in
/-- C14 on the sample node with a full first leaf: it is split, and key 31 moves up. -/
theorem C14_maybeSplitChild_splits_a_full_child_witness :
    ∃ item, (sampleLeaf (List.range 63)).items[31]? = some item ∧ item = sampleRecord 31 ∧
      maybeSplitChild sampleParent 0 = some (true,
        mk 0 [item, sampleRecord 100]
          [(0, some (mk 0 ((List.range 31).map sampleRecord) [] true)),
           (0, some (mk 0 ((List.range 31).map (fun k => sampleRecord (k + 32))) [] true)),
           (0, some (sampleLeaf [200]))] true) := by
  obtain ⟨item, h1, h2, -⟩ := (C14_maybeSplitChild_splits_a_full_child sampleParent 0 0
    (sampleLeaf (List.range 63)) rfl rfl).2 (by decide) (Or.inl rfl) (by decide)
  have h3 : (sampleLeaf (List.range 63)).items[31]? = some (sampleRecord 31) := by decide
  have h4 : item = sampleRecord 31 := by
    rw [h3] at h1
    exact (Option.some.inj h1).symm
  subst h4
  refine ⟨_, h3, rfl, ?_⟩
  rw [h2]
  rfl

/-- C12: on a subtree of the right shape (every node has at most 63 items, no child cell or
one more than items, every cell with its node) that has the order of a search tree node by
node (items strictly ascending, every record below child `i` strictly between items `i - 1` and
`i`), whose root has fewer than 63 items, with a `writePair` that gives the record the key it
was asked for: `insert` returns, and whether it returns an error or not, the subtree it leaves,
with the nodes made by splits, has the right shape and the order of a search tree. -/
theorem C12_insert_keeps_shape_and_order {S : Type} (less : uint128 → uint128 → Bool)
    (hst : StrictTotal less) (writePair : uint128 → S → (pair × Option Error) × S)
    (n : nodeBlock) (key : uint128) (s : S)
    (hsh : n.shape = true) (hord : searchTree less n = true) (hroom : n.itemsSize < maxItems)
    (hpk : ∀ p s1, writePair key s = ((p, none), s1) → p.key = key) :
    ∃ err n1 s1, insert less writePair n key s = some (err, n1, s1) ∧
      n1.shape = true ∧ searchTree less n1 = true := by
  obtain ⟨-, hp⟩ := (wellFormed_iff_searchTree less hst n).mpr ⟨hsh, hord⟩
  obtain ⟨hyes, hno⟩ := insertAux_owes less hst writePair key n.height n s (Nat.le_refl _) hsh
    hp hroom
  have back : ∀ n1 : nodeBlock, n1.shape = true →
      n1.inorder.Pairwise (fun a b => less a.key b.key = true) → searchTree less n1 = true :=
    fun n1 h1 h2 => ((wellFormed_iff_searchTree less hst n1).mp ⟨h1, h2⟩).2
  by_cases hpres : ∃ x ∈ n.inorder, x.key = key
  · obtain ⟨n1, hres, hin, hsh1⟩ := hyes hpres
    exact ⟨_, n1, s, hres, hsh1, back n1 hsh1 (by rw [hin]; exact hp)⟩
  · have habs : ∀ x ∈ n.inorder, x.key ≠ key := fun x hx hk => hpres ⟨x, hx, hk⟩
    rcases hw : writePair key s with ⟨⟨p, e⟩, s1⟩
    cases e with
    | some err =>
      obtain ⟨n1, hres, hin, hsh1⟩ := (hno habs).2 p err s1 hw
      exact ⟨_, n1, s1, hres, hsh1, back n1 hsh1 (by rw [hin]; exact hp)⟩
    | none =>
      obtain ⟨n1, A, B, hres, hL, hin, hA, hB, hsh1⟩ := (hno habs).1 p s1 hw
      have hk := hpk p s1 hw
      refine ⟨_, n1, s1, hres, hsh1, back n1 hsh1 ?_⟩
      rw [hL] at hp
      rw [hin]
      obtain ⟨hpA, hpB, hAB⟩ := List.pairwise_append.mp hp
      rw [List.pairwise_append]
      refine ⟨hpA, List.pairwise_cons.mpr ⟨fun x hx => by rw [hk]; exact hB x hx, hpB⟩, ?_⟩
      intro x hx y hy
      rcases List.mem_cons.mp hy with h | h
      · rw [h, hk]; exact hA x hx
      · exact hAB x hx y h

/-- C12 on the sample tree, with the key 13 that it does not hold. -/
theorem C12_insert_keeps_shape_and_order_witness :
    (sampleTree.shape = true ∧ searchTree lessByWords sampleTree = true ∧
      sampleTree.itemsSize < maxItems) ∧
    ∃ err n1 s1, insert lessByWords sampleWritePair sampleTree ⟨13, 0⟩ [] = some (err, n1, s1) ∧
      n1.shape = true ∧ searchTree lessByWords n1 = true :=
  ⟨⟨by decide, by decide, by decide⟩,
   C12_insert_keeps_shape_and_order lessByWords lessByWords_strictTotal sampleWritePair
     sampleTree ⟨13, 0⟩ [] (by decide) (by decide) (by decide)
     (fun p s1 h => by
       have h1 : p = ⟨⟨13, 0⟩, 1000, 8, 0, 1, false, 0, 0⟩ :=
         (congrArg (fun r => r.1.1) h).symm
       rw [h1])⟩

end nodeBlock
end fz


/-! ## Insertion and the dirty set -/

namespace fz
namespace nodeBlock

theorem nodes_mk (o : Int) (its : List pair) (cs : List (Int × Option nodeBlock)) (d : Bool) :
    nodes (mk o its cs d) = mk o its cs d :: nodesL cs := by
  rw [nodes]

theorem nodesL_cons_some (off : Int) (c : nodeBlock) (cs : List (Int × Option nodeBlock)) :
    nodesL ((off, some c) :: cs) = nodes c ++ nodesL cs := by
  rw [nodesL, nodesO]

theorem nodesL_append (C1 C2 : List (Int × Option nodeBlock)) :
    nodesL (C1 ++ C2) = nodesL C1 ++ nodesL C2 := by
  induction C1 with
  | nil => simp [nodesL]
  | cons sl r ih =>
    obtain ⟨off, c⟩ := sl
    show nodesL ((off, c) :: (r ++ C2)) = _
    rw [nodesL, nodesL, ih, List.append_assoc]

theorem nodesL_take_drop (cs : List (Int × Option nodeBlock)) (k : Nat) :
    nodesL (cs.take k) ++ nodesL (cs.drop k) = nodesL cs := by
  rw [← nodesL_append, List.take_append_drop]

theorem countP_cons_mk (o : Int) (its : List pair) (cs : List (Int × Option nodeBlock))
    (d : Bool) (l : List nodeBlock) :
    (mk o its cs d :: l).countP (fun m => !m.dirty) =
      (if d = false then 1 else 0) + l.countP (fun m => !m.dirty) := by
  rw [List.countP_cons]
  cases d <;> simp [dirty, Nat.add_comm]

theorem cleanCount_mk (o : Int) (its : List pair) (cs : List (Int × Option nodeBlock))
    (d : Bool) :
    cleanCount (mk o its cs d) = (if d = false then 1 else 0) +
      (nodesL cs).countP (fun m => !m.dirty) := by
  rw [cleanCount, nodes_mk, countP_cons_mk]

theorem sameFields_refl (a : nodeBlock) : sameFields a a := ⟨rfl, rfl, rfl⟩

theorem sameFields_trans (a b c : nodeBlock) (h1 : sameFields a b) (h2 : sameFields b c) :
    sameFields a c :=
  ⟨h1.1.trans h2.1, h1.2.1.trans h2.2.1, h1.2.2.trans h2.2.2⟩

theorem dirtyOwes_refl (n : nodeBlock) : dirtyOwes n n :=
  ⟨fun m hm hd => ⟨m, hm, hd, sameFields_refl m⟩, Nat.le_refl _⟩

theorem dirtyOwes_trans (a b c : nodeBlock) (h1 : dirtyOwes a b) (h2 : dirtyOwes b c) :
    dirtyOwes a c := by
  refine ⟨?_, Nat.le_trans h2.2 h1.2⟩
  intro m hm hd
  obtain ⟨m1, hm1, hd1, hs1⟩ := h2.1 m hm hd
  obtain ⟨m0, hm0, hd0, hs0⟩ := h1.1 m1 hm1 hd1
  exact ⟨m0, hm0, hd0, sameFields_trans _ _ _ hs0 hs1⟩

/-- What a node owes the dirty set when a call has worked on the node of one of its cells
only. -/
theorem dirtyOwes_child (o : Int) (its : List pair) (C1 : List (Int × Option nodeBlock))
    (off : Int) (c c1 : nodeBlock) (C2 : List (Int × Option nodeBlock)) (d : Bool)
    (h : dirtyOwes c c1) :
    dirtyOwes (mk o its (C1 ++ (off, some c) :: C2) d)
      (mk o its (C1 ++ (off, some c1) :: C2) d) := by
  constructor
  · intro m hm hd
    rw [nodes_mk, nodesL_append, nodesL_cons_some] at hm ⊢
    rcases List.mem_cons.mp hm with h0 | h0
    · subst h0
      refine ⟨_, List.mem_cons_self _ _, hd, rfl, rfl, ?_⟩
      simp [children]
    · rcases List.mem_append.mp h0 with h1 | h1
      · exact ⟨m, List.mem_cons_of_mem _ (List.mem_append_left _ h1), hd, sameFields_refl m⟩
      · rcases List.mem_append.mp h1 with h2 | h2
        · obtain ⟨m0, hm0, hd0, hs0⟩ := h.1 m h2 hd
          exact ⟨m0, List.mem_cons_of_mem _
            (List.mem_append_right _ (List.mem_append_left _ hm0)), hd0, hs0⟩
        · exact ⟨m, List.mem_cons_of_mem _
            (List.mem_append_right _ (List.mem_append_right _ h2)), hd, sameFields_refl m⟩
  · rw [cleanCount_mk, cleanCount_mk, nodesL_append, nodesL_append, nodesL_cons_some,
      nodesL_cons_some]
    simp only [List.countP_append]
    have := h.2
    unfold cleanCount at this
    omega

/-- What a node owes the dirty set after `maybeSplitChild` has split the node of a cell. -/
theorem dirtyOwes_split (o : Int) (I I1 : List pair) (C1 : List (Int × Option nodeBlock))
    (off oc : Int) (its itl itr : List pair) (cs : List (Int × Option nodeBlock)) (dc : Bool)
    (C2 : List (Int × Option nodeBlock)) (d : Bool) (k : Nat) (off1 o1 : Int) :
    dirtyOwes (mk o I (C1 ++ (off, some (mk oc its cs dc)) :: C2) d)
      (mk o I1 (C1 ++ (off, some (mk oc itl (cs.take k) true)) ::
        (off1, some (mk o1 itr (cs.drop k) true)) :: C2) true) := by
  constructor
  · intro m hm hd
    rw [nodes_mk, nodesL_append, nodesL_cons_some, nodesL_cons_some, nodes_mk, nodes_mk] at hm
    rw [nodes_mk, nodesL_append, nodesL_cons_some, nodes_mk]
    have hin : ∀ x, x ∈ nodesL C1 ∨ x ∈ nodesL cs ∨ x ∈ nodesL C2 →
        x ∈ mk o I (C1 ++ (off, some (mk oc its cs dc)) :: C2) d ::
          (nodesL C1 ++ (mk oc its cs dc :: nodesL cs ++ nodesL C2)) := by
      intro x hx
      simp only [List.mem_cons, List.mem_append]
      tauto
    have hdirty : ∀ (o0 : Int) (i0 : List pair) (c0 : List (Int × Option nodeBlock)),
        m = mk o0 i0 c0 true → False := by
      intro o0 i0 c0 hmx
      rw [hmx] at hd
      exact Bool.noConfusion hd
    simp only [List.mem_cons, List.mem_append] at hm
    rcases hm with h0 | h0 | (h0 | h0) | (h0 | h0) | h0
    · exact (hdirty _ _ _ h0).elim
    · exact ⟨m, hin m (Or.inl h0), hd, sameFields_refl m⟩
    · exact (hdirty _ _ _ h0).elim
    · have : m ∈ nodesL cs := by
        rw [← nodesL_take_drop cs k]; exact List.mem_append_left _ h0
      exact ⟨m, hin m (Or.inr (Or.inl this)), hd, sameFields_refl m⟩
    · exact (hdirty _ _ _ h0).elim
    · have : m ∈ nodesL cs := by
        rw [← nodesL_take_drop cs k]; exact List.mem_append_right _ h0
      exact ⟨m, hin m (Or.inr (Or.inl this)), hd, sameFields_refl m⟩
    · exact ⟨m, hin m (Or.inr (Or.inr h0)), hd, sameFields_refl m⟩
  · rw [cleanCount_mk, cleanCount_mk, nodesL_append, nodesL_append, nodesL_cons_some,
      nodesL_cons_some, nodesL_cons_some, nodes_mk, nodes_mk, nodes_mk]
    have h := congrArg (List.countP (fun m : nodeBlock => !m.dirty)) (nodesL_take_drop cs k)
    simp only [List.countP_append] at h
    simp only [List.countP_append, countP_cons_mk, Bool.true_eq_false, if_false]
    omega

/-- What going down into a child returns, when it returns. -/
theorem insertDescend_result {S : Type}
    (rec : nodeBlock → uint128 → S → Option (Option Error × nodeBlock × S))
    (key : uint128) (s : S) (o : Int) (its : List pair)
    (C1 : List (Int × Option nodeBlock)) (off : Int) (c : nodeBlock)
    (C2 : List (Int × Option nodeBlock)) (d : Bool)
    (err : Option Error) (n1 : nodeBlock) (s1 : S)
    (h : insertDescend rec (mk o its (C1 ++ (off, some c) :: C2) d) C1.length key s
      = some (err, n1, s1)) :
    ∃ c1, rec c key s = some (err, c1, s1) ∧ n1 = mk o its (C1 ++ (off, some c1) :: C2) d := by
  simp only [insertDescend, child_at] at h
  rcases hr : rec c key s with _ | ⟨e, c1, s2⟩
  · rw [hr] at h
    exact Option.noConfusion h
  · rw [hr] at h
    simp only [setChild_at, Option.some.injEq, Prod.mk.injEq] at h
    obtain ⟨h1, h2, h3⟩ := h
    subst h1 h3
    exact ⟨c1, rfl, h2.symm⟩

/-- What `insert` owes the dirty set on a well-formed subtree whose root has room, with fuel
for its height. -/
theorem insertAux_dirty {S : Type} (less : uint128 → uint128 → Bool) (hst : StrictTotal less)
    (writePair : uint128 → S → (pair × Option Error) × S) (key : uint128) :
    ∀ (fuel : Nat) (n : nodeBlock) (s : S), n.height ≤ fuel → n.shape = true →
      n.inorder.Pairwise (fun a b => less a.key b.key = true) → n.items.length < maxItems →
      ∀ err n1 s1, insertAux less writePair fuel n key s = some (err, n1, s1) →
        dirtyOwes n n1 := by
  intro fuel
  induction fuel with
  | zero =>
    intro n s hh
    have := height_pos n
    omega
  | succ fuel ih =>
    intro n s hh hsh hp hroom err n1 s1 hres
    obtain ⟨o, its, cs, d⟩ := n
    rw [inorder_mk] at hp
    simp only [items] at hroom
    have hits : its.Pairwise (fun a b => less a.key b.key = true) :=
      hp.sublist (items_sublist_inorderL its cs)
    obtain ⟨-, hnf⟩ := find_spec less hst (mk o its cs d) key hits
    rcases hfd : find less (mk o its cs d) key with ⟨i, b⟩
    rw [hfd] at hnf
    cases b with
    | true =>
      simp only [insertAux, hfd, Option.some.injEq, Prod.mk.injEq] at hres
      rw [← hres.2.1]
      exact dirtyOwes_refl _
    | false =>
      obtain ⟨hi, -, -⟩ := hnf rfl
      simp only [items] at hi
      by_cases hcs : cs = []
      · subst hcs
        have hti : (its.take i).length = i := by rw [List.length_take]; omega
        have hins : ∀ p, insertItemAt (mk o its [] d) i p
            = some (mk o (its.take i ++ p :: its.drop i) [] true) := by
          intro p
          have := insertItemAt_mid o (its.take i) (its.drop i) [] d p
            (by rw [List.take_append_drop]; exact hroom)
          rw [List.take_append_drop, hti] at this
          exact this
        rcases hw : writePair key s with ⟨⟨p, e⟩, s2⟩
        cases e with
        | some e1 =>
          simp only [insertAux, hfd, childrenSize, children, List.length_nil, if_true, hw,
            Option.some.injEq, Prod.mk.injEq] at hres
          rw [← hres.2.1]
          exact dirtyOwes_refl _
        | none =>
          simp only [insertAux, hfd, childrenSize, children, List.length_nil, if_true, hw,
            hins, Option.some.injEq, Prod.mk.injEq] at hres
          rw [← hres.2.1]
          constructor
          · intro m hm hd
            rw [nodes_mk] at hm
            simp only [nodesL, List.mem_singleton] at hm
            rw [hm] at hd
            exact Bool.noConfusion hd
          · rw [cleanCount_mk]
            simp [nodesL]
      · obtain ⟨I1, I2, C1, off, c, C2, hI, hcut, hC1, hI1, hC2, hc, hs1, hs2, -, -, hdec⟩ :=
          descend_cut less hst key o its cs d hsh hp hcs i hfd
        subst hI hcut hC1
        have hnz : ¬ (mk o (I1 ++ I2) (C1 ++ (off, some c) :: C2) d).childrenSize = 0 := by
          simp [childrenSize, children]
        have hlt : c.height ≤ fuel := by
          have := height_child_lt o (I1 ++ I2) C1 off c C2 d
          omega
        have hpc : (inorder c).Pairwise (fun a b => less a.key b.key = true) := by
          rw [hdec] at hp
          exact ((List.pairwise_append.mp (List.pairwise_append.mp hp).2.1).1)
        by_cases hfull : c.items.length < maxItems
        · simp only [insertAux, hfd, hnz, if_false,
            maybeSplitChild_roomy _ _ _ _ _ _ _ hfull] at hres
          obtain ⟨c1, hr, hn1⟩ := insertDescend_result _ key s o (I1 ++ I2) C1 off c C2 d err n1
            s1 hres
          rw [hn1]
          exact dirtyOwes_child o (I1 ++ I2) C1 off c c1 C2 d
            (ih c s hlt hc hpc hfull err c1 s1 hr)
        · obtain ⟨oc, cits, ccs, dc⟩ := c
          have hc63 : cits.length = maxItems := by
            have h1 := ((shape_mk oc cits ccs dc).mp hc).1
            simp only [items] at hfull
            omega
          obtain ⟨hshl, hshr, hl31, hr31, hhl, hhr, hccs⟩ :=
            halves_shape oc cits ccs dc hc hc63
          have hCl : (C1 ++ (off, some (mk oc cits ccs dc)) :: C2).length
              = (I1 ++ I2).length + 1 := by
            simp only [List.length_append, List.length_cons]; omega
          obtain ⟨m, hm, hms⟩ := maybeSplitChild_full o I1 I2 C1 off oc cits ccs dc C2 d hI1
            hroom hCl hc63 hccs
          have hinc := inorder_split cits ccs m hc63 hccs hm
          rw [inorder_mk, hinc] at hpc
          have hpl := (List.pairwise_append.mp hpc).1
          have hpr := List.Pairwise.of_cons (List.pairwise_append.mp hpc).2.1
          have hitem : (mk o (I1 ++ m :: I2)
              (C1 ++ (off, some (mk oc (cits.take 31) (ccs.take 32) true)) ::
                (0, some (mk 0 (cits.drop 32) (ccs.drop 32) true)) :: C2) true).items[C1.length]?
              = some m := by
            simp only [items, ← hI1, getElem?_mid]
          have hsplit := dirtyOwes_split o (I1 ++ I2) (I1 ++ m :: I2) C1 off oc cits
            (cits.take 31) (cits.drop 32) ccs dc C2 d 32 0 0
          simp only [insertAux, hfd, hnz, if_false, hms, hitem] at hres
          by_cases hk1 : less key m.key = true
          · simp only [hk1, if_true] at hres
            obtain ⟨c1, hr, hn1⟩ := insertDescend_result _ key s o (I1 ++ m :: I2) C1 off _
              ((0, some (mk 0 (cits.drop 32) (ccs.drop 32) true)) :: C2) true err n1 s1 hres
            rw [hn1]
            refine dirtyOwes_trans _ _ _ hsplit (dirtyOwes_child o (I1 ++ m :: I2) C1 off _ c1
              _ true ?_)
            exact ih _ s (by omega) hshl (by rw [inorder_mk]; exact hpl)
              (by simp only [items, hl31]; decide) err c1 s1 hr
          · have hk1f : less key m.key = false := by simpa using hk1
            by_cases hk2 : less m.key key = true
            · simp only [hk1f, hk2, if_true, Bool.false_eq_true, if_false] at hres
              have hlen2 : (C1 ++ [(off, some (mk oc (cits.take 31) (ccs.take 32) true))]).length
                  = C1.length + 1 := by
                simp only [List.length_append, List.length_singleton]
              have hre : C1 ++ (off, some (mk oc (cits.take 31) (ccs.take 32) true)) ::
                  (0, some (mk 0 (cits.drop 32) (ccs.drop 32) true)) :: C2
                  = (C1 ++ [(off, some (mk oc (cits.take 31) (ccs.take 32) true))]) ++
                    (0, some (mk 0 (cits.drop 32) (ccs.drop 32) true)) :: C2 := by
                simp
              rw [hre, ← hlen2] at hres
              obtain ⟨c1, hr, hn1⟩ := insertDescend_result _ key s o (I1 ++ m :: I2)
                (C1 ++ [(off, some (mk oc (cits.take 31) (ccs.take 32) true))]) 0 _ C2 true err
                n1 s1 hres
              rw [hn1]
              rw [hre] at hsplit
              refine dirtyOwes_trans _ _ _ hsplit (dirtyOwes_child o (I1 ++ m :: I2) _ 0 _ c1
                _ true ?_)
              exact ih _ s (by omega) hshr (by rw [inorder_mk]; exact hpr)
                (by simp only [items, hr31]; decide) err c1 s1 hr
            · have hk2f : less m.key key = false := by simpa using hk2
              simp only [hk1f, hk2f, Bool.false_eq_true, if_false, Option.some.injEq,
                Prod.mk.injEq] at hres
              rw [← hres.2.1]
              exact hsplit

/-- On a well-formed subtree whose root has room, `insert` returns. -/
theorem insert_returns {S : Type} (less : uint128 → uint128 → Bool) (hst : StrictTotal less)
    (writePair : uint128 → S → (pair × Option Error) × S) (n : nodeBlock) (key : uint128)
    (s : S) (hwf : wellFormed less n) (hroom : n.itemsSize < maxItems) :
    ∃ err n1 s1, insert less writePair n key s = some (err, n1, s1) := by
  obtain ⟨hsh, hp⟩ := hwf
  obtain ⟨hyes, hno⟩ := insertAux_owes less hst writePair key n.height n s (Nat.le_refl _) hsh
    hp hroom
  by_cases hpres : ∃ x ∈ n.inorder, x.key = key
  · obtain ⟨n1, hres, -⟩ := hyes hpres
    exact ⟨_, n1, s, hres⟩
  · have habs : ∀ x ∈ n.inorder, x.key ≠ key := fun x hx hk => hpres ⟨x, hx, hk⟩
    rcases hw : writePair key s with ⟨⟨p, e⟩, s1⟩
    cases e with
    | some err =>
      obtain ⟨n1, hres, -⟩ := (hno habs).2 p err s1 hw
      exact ⟨_, n1, s1, hres⟩
    | none =>
      obtain ⟨n1, A, B, hres, -⟩ := (hno habs).1 p s1 hw
      exact ⟨_, n1, s1, hres⟩

/-- C19: on a well-formed subtree whose root holds fewer than 63 items, `insert` returns, and
in the subtree it leaves, whether it returns an error or not, every node that is not in the
dirty set is a node that was in the subtree before the call, outside the dirty set, with the
same offset, the same items and the same child cells by offset; and the nodes outside the
dirty set are no more than before the call. So each node that a split has made and each node
whose items or child cells have changed is in the dirty set, and no node has left it. -/
theorem C19_insert_marks_what_it_changes {S : Type} (less : uint128 → uint128 → Bool)
    (hst : StrictTotal less) (writePair : uint128 → S → (pair × Option Error) × S)
    (n : nodeBlock) (key : uint128) (s : S)
    (hwf : wellFormed less n) (hroom : n.itemsSize < maxItems) :
    ∃ err n1 s1, insert less writePair n key s = some (err, n1, s1) ∧
      (∀ m ∈ n1.nodes, m.dirty = false →
        ∃ m0 ∈ n.nodes, m0.dirty = false ∧ m0.offset = m.offset ∧ m0.items = m.items ∧
          m0.children.map Prod.fst = m.children.map Prod.fst) ∧
      cleanCount n1 ≤ cleanCount n := by
  obtain ⟨err, n1, s1, hres⟩ := insert_returns less hst writePair n key s hwf hroom
  exact ⟨err, n1, s1, hres, insertAux_dirty less hst writePair key n.height n s (Nat.le_refl _)
    hwf.1 hwf.2 hroom err n1 s1 hres⟩

set_option maxRecDepth 100000 in
/-- C19 on the sample tree with the key 13, and on the node with a full leaf with a key
between those of 40 and 41, where the leaf is split. -/
theorem C19_insert_marks_what_it_changes_witness :
    (wellFormed lessByWords sampleTree ∧ sampleTree.itemsSize < maxItems) ∧
    (∃ err n1 s1, insert lessByWords sampleWritePair sampleTree ⟨13, 0⟩ [] =
        some (err, n1, s1) ∧ cleanCount n1 ≤ cleanCount sampleTree) ∧
    (wellFormed lessByWords sampleParent ∧ sampleParent.itemsSize < maxItems) ∧
    (∃ err n1 s1, insert lessByWords sampleWritePair sampleParent ⟨40, 1⟩ [] =
        some (err, n1, s1) ∧ cleanCount n1 ≤ cleanCount sampleParent) :=
  ⟨⟨by decide, by decide⟩,
   (C19_insert_marks_what_it_changes lessByWords lessByWords_strictTotal sampleWritePair
      sampleTree ⟨13, 0⟩ [] (by decide) (by decide)).imp
      fun _ h => h.imp fun _ h => h.imp fun _ h => ⟨h.1, h.2.2⟩,
   ⟨by decide, by decide⟩,
   (C19_insert_marks_what_it_changes lessByWords lessByWords_strictTotal sampleWritePair
      sampleParent ⟨40, 1⟩ [] (by decide) (by decide)).imp
      fun _ h => h.imp fun _ h => h.imp fun _ h => ⟨h.1, h.2.2⟩⟩

end nodeBlock
end fz


/-! ## Insertion: depth of the leaves, nodes made by splits, and no panic -/

namespace sort

/-- The loop of `sort.Search` calls `f` inside the window only: two functions that agree
below `n` give the same result on a window that ends at or before `n`. -/
theorem searchLoop_congr (f g : Nat → Bool) (n : Nat) (h : ∀ k, k < n → f k = g k) :
    ∀ fuel i j, j ≤ n → searchLoop f fuel i j = searchLoop g fuel i j := by
  intro fuel
  induction fuel with
  | zero => intro i j _; rfl
  | succ fuel ih =>
    intro i j hj
    simp only [searchLoop]
    by_cases hij : i < j
    · simp only [hij, if_true]
      have hh : (i + j) / 2 < n := by omega
      rw [h _ hh, ih _ _ hj, ih i ((i + j) / 2) (by omega)]
    · simp only [hij, if_false]

theorem searchLoop_le (f : Nat → Bool) :
    ∀ fuel i j, i ≤ j → searchLoop f fuel i j ≤ j := by
  intro fuel
  induction fuel with
  | zero => intro i j h; exact h
  | succ fuel ih =>
    intro i j hij
    simp only [searchLoop]
    by_cases hlt : i < j
    · simp only [hlt, if_true]
      split
      · exact ih _ _ (by omega)
      · exact Nat.le_trans (ih i ((i + j) / 2) (by omega)) (by omega)
    · simp only [hlt, if_false]
      exact hij

end sort

namespace fz
namespace nodeBlock

theorem leavesAt_leaf (o : Int) (its : List pair) (d : Bool) (k : Nat) :
    leavesAt (mk o its [] d) k = (k == 0) := by
  rw [leavesAt.eq_def]
  rfl

theorem leavesAt_inner (o : Int) (its : List pair) (cs : List (Int × Option nodeBlock))
    (d : Bool) (hne : cs ≠ []) (k : Nat) :
    leavesAt (mk o its cs d) k = true ↔ ∃ j, k = j + 1 ∧ leavesAtL cs j = true := by
  have hemp : cs.isEmpty = false := by
    cases cs with
    | nil => exact absurd rfl hne
    | cons _ _ => rfl
  rw [leavesAt.eq_def]
  simp only [hemp, Bool.false_eq_true, if_false]
  cases k with
  | zero => simp
  | succ j => simp

theorem leavesAtL_cons_some (off : Int) (c : nodeBlock) (cs : List (Int × Option nodeBlock))
    (k : Nat) :
    leavesAtL ((off, some c) :: cs) k = (leavesAt c k && leavesAtL cs k) := by
  rw [leavesAtL, leavesAtO]

theorem leavesAtL_append (C1 C2 : List (Int × Option nodeBlock)) (k : Nat) :
    leavesAtL (C1 ++ C2) k = (leavesAtL C1 k && leavesAtL C2 k) := by
  induction C1 with
  | nil => simp [leavesAtL]
  | cons sl r ih =>
    obtain ⟨off, c⟩ := sl
    show leavesAtL ((off, c) :: (r ++ C2)) k = _
    rw [leavesAtL, leavesAtL, ih, Bool.and_assoc]

theorem leavesAtL_take_drop (cs : List (Int × Option nodeBlock)) (j k : Nat)
    (h : leavesAtL cs k = true) :
    leavesAtL (cs.take j) k = true ∧ leavesAtL (cs.drop j) k = true := by
  rw [← List.take_append_drop j cs, leavesAtL_append, Bool.and_eq_true] at h
  exact h

/-- The halves of a full node of the right shape have their leaves as deep as it had. -/
theorem leavesAt_halves (oc : Int) (cits : List pair) (ccs : List (Int × Option nodeBlock))
    (dc : Bool) (hlen : cits.length = maxItems)
    (hccs : ccs = [] ∨ ccs.length = cits.length + 1) (o1 o2 : Int) (il ir : List pair)
    (k : Nat) (h : leavesAt (mk oc cits ccs dc) k = true) :
    leavesAt (mk o1 il (ccs.take 32) true) k = true ∧
    leavesAt (mk o2 ir (ccs.drop 32) true) k = true := by
  rcases hccs with h0 | h0
  · subst h0
    rw [leavesAt_leaf] at h
    simp only [List.take_nil, List.drop_nil, leavesAt_leaf]
    exact ⟨h, h⟩
  · have h64 : ccs.length = 64 := by rw [h0, hlen]; rfl
    have hne : ccs ≠ [] := by
      intro e; rw [e] at h64; exact absurd h64 (by decide)
    have hnel : ccs.take 32 ≠ [] := by
      intro e
      have := congrArg List.length e
      rw [List.length_take, h64] at this
      exact absurd this (by decide)
    have hner : ccs.drop 32 ≠ [] := by
      intro e
      have := congrArg List.length e
      rw [List.length_drop, h64] at this
      exact absurd this (by decide)
    obtain ⟨j, hk, hj⟩ := (leavesAt_inner oc cits ccs dc hne k).mp h
    obtain ⟨hl, hr⟩ := leavesAtL_take_drop ccs 32 j hj
    exact ⟨(leavesAt_inner _ _ _ _ hnel k).mpr ⟨j, hk, hl⟩,
      (leavesAt_inner _ _ _ _ hner k).mpr ⟨j, hk, hr⟩⟩

/-- The depth of the leaves of a node when a call has worked on the node of one of its cells
only and has kept the depth of the leaves there. -/
theorem leavesAt_child (o : Int) (its its1 : List pair) (C1 : List (Int × Option nodeBlock))
    (off off1 : Int) (c c1 : nodeBlock) (C2 : List (Int × Option nodeBlock)) (d d1 : Bool)
    (h : ∀ k, leavesAt c k = true → leavesAt c1 k = true) (k : Nat)
    (hk : leavesAt (mk o its (C1 ++ (off, some c) :: C2) d) k = true) :
    leavesAt (mk o its1 (C1 ++ (off1, some c1) :: C2) d1) k = true := by
  obtain ⟨j, hj, hl⟩ := (leavesAt_inner _ _ _ _ (by simp) k).mp hk
  refine (leavesAt_inner _ _ _ _ (by simp) k).mpr ⟨j, hj, ?_⟩
  rw [leavesAtL_append, leavesAtL_cons_some, Bool.and_eq_true, Bool.and_eq_true] at hl ⊢
  exact ⟨hl.1, h j hl.2.1, hl.2.2⟩

/-- The depth of the leaves of a node after `maybeSplitChild` has split the node of a
cell. -/
theorem leavesAt_split (o : Int) (I I1 : List pair) (C1 : List (Int × Option nodeBlock))
    (off oc : Int) (cits : List pair) (ccs : List (Int × Option nodeBlock)) (dc : Bool)
    (C2 : List (Int × Option nodeBlock)) (d : Bool) (hlen : cits.length = maxItems)
    (hccs : ccs = [] ∨ ccs.length = cits.length + 1) (il ir : List pair) (k : Nat)
    (hk : leavesAt (mk o I (C1 ++ (off, some (mk oc cits ccs dc)) :: C2) d) k = true) :
    leavesAt (mk o I1 (C1 ++ (off, some (mk oc il (ccs.take 32) true)) ::
      (0, some (mk 0 ir (ccs.drop 32) true)) :: C2) true) k = true := by
  obtain ⟨j, hj, hl⟩ := (leavesAt_inner _ _ _ _ (by simp) k).mp hk
  refine (leavesAt_inner _ _ _ _ (by simp) k).mpr ⟨j, hj, ?_⟩
  rw [leavesAtL_append, leavesAtL_cons_some, Bool.and_eq_true, Bool.and_eq_true] at hl
  obtain ⟨h1, h2⟩ := leavesAt_halves oc cits ccs dc hlen hccs oc 0 il ir j hl.2.1
  rw [leavesAtL_append, leavesAtL_cons_some, leavesAtL_cons_some, hl.1, h1, h2, hl.2.2]
  rfl

theorem cell_after_at (o : Int) (I : List pair) (C1 : List (Int × Option nodeBlock))
    (sl : Int × Option nodeBlock) (off : Int) (c : nodeBlock)
    (C2 : List (Int × Option nodeBlock)) (d : Bool) :
    (mk o I (C1 ++ sl :: (off, some c) :: C2) d).children[C1.length + 1]?
      = some (off, some c) := by
  have hre : C1 ++ sl :: (off, some c) :: C2 = (C1 ++ [sl]) ++ (off, some c) :: C2 := by simp
  have hlen : (C1 ++ [sl]).length = C1.length + 1 := by
    simp only [List.length_append, List.length_singleton]
  simp only [children]
  rw [hre, ← hlen]
  exact getElem?_mid _ _ _

theorem createdBySplit_at (o : Int) (I : List pair) (C1 : List (Int × Option nodeBlock))
    (sl : Int × Option nodeBlock) (off : Int) (c : nodeBlock)
    (C2 : List (Int × Option nodeBlock)) (d : Bool) :
    createdBySplit (mk o I (C1 ++ sl :: (off, some c) :: C2) d) C1.length = [c] := by
  simp only [createdBySplit, cell_after_at]

theorem descendCreates_at (rec : nodeBlock → uint128 → List nodeBlock) (key : uint128)
    (o : Int) (its : List pair) (C1 : List (Int × Option nodeBlock)) (off : Int)
    (c : nodeBlock) (C2 : List (Int × Option nodeBlock)) (d : Bool) :
    descendCreates rec (mk o its (C1 ++ (off, some c) :: C2) d) C1.length key = rec c key := by
  simp only [descendCreates, child_at]

theorem nodes_length_child (o : Int) (its : List pair) (C1 : List (Int × Option nodeBlock))
    (off : Int) (c c1 : nodeBlock) (C2 : List (Int × Option nodeBlock)) (d : Bool) (k : Nat)
    (h : c1.nodes.length = c.nodes.length + k) :
    (mk o its (C1 ++ (off, some c1) :: C2) d).nodes.length =
      (mk o its (C1 ++ (off, some c) :: C2) d).nodes.length + k := by
  simp only [nodes_mk, nodesL_append, nodesL_cons_some, List.length_cons, List.length_append, h]
  omega

theorem nodes_length_split (o : Int) (I I1 : List pair) (C1 : List (Int × Option nodeBlock))
    (off oc : Int) (its itl itr : List pair) (cs : List (Int × Option nodeBlock)) (dc : Bool)
    (C2 : List (Int × Option nodeBlock)) (d : Bool) (k : Nat) (off1 o1 : Int) :
    (mk o I1 (C1 ++ (off, some (mk oc itl (cs.take k) true)) ::
        (off1, some (mk o1 itr (cs.drop k) true)) :: C2) true).nodes.length =
      (mk o I (C1 ++ (off, some (mk oc its cs dc)) :: C2) d).nodes.length + 1 := by
  have h := congrArg List.length (nodesL_take_drop cs k)
  simp only [List.length_append] at h
  simp only [nodes_mk, nodesL_append, nodesL_cons_some, List.length_cons, List.length_append]
  omega

theorem grownFrom_refl (a : nodeBlock) : grownFrom a a :=
  ⟨List.Sublist.refl _, Nat.le_succ _, rfl⟩

theorem grownFrom_same (o : Int) (its : List pair) (cs cs1 : List (Int × Option nodeBlock))
    (d d1 : Bool) : grownFrom (mk o its cs d) (mk o its cs1 d1) :=
  ⟨List.Sublist.refl _, Nat.le_succ _, rfl⟩

theorem grownFrom_insert (o : Int) (I1 I2 : List pair) (x : pair)
    (cs cs1 : List (Int × Option nodeBlock)) (d d1 : Bool) :
    grownFrom (mk o (I1 ++ I2) cs d) (mk o (I1 ++ x :: I2) cs1 d1) := by
  refine ⟨(List.Sublist.refl I1).append (List.sublist_cons_self x I2), ?_, rfl⟩
  simp only [itemsSize, items, List.length_append, List.length_cons]
  omega

theorem mem_nodes_self (n : nodeBlock) : n ∈ n.nodes := by
  obtain ⟨o, its, cs, d⟩ := n
  rw [nodes_mk]
  exact List.mem_cons_self _ _

theorem mem_nodes_cell (o : Int) (its : List pair) (C1 : List (Int × Option nodeBlock))
    (off : Int) (c : nodeBlock) (C2 : List (Int × Option nodeBlock)) (d : Bool)
    (m : nodeBlock) (h : m ∈ c.nodes) :
    m ∈ (mk o its (C1 ++ (off, some c) :: C2) d).nodes := by
  rw [nodes_mk, nodesL_append, nodesL_cons_some]
  exact List.mem_cons_of_mem _ (List.mem_append_right _ (List.mem_append_left _ h))

theorem mem_nodes_cell_after (o : Int) (its : List pair) (C1 : List (Int × Option nodeBlock))
    (sl : Int × Option nodeBlock) (off : Int) (c : nodeBlock)
    (C2 : List (Int × Option nodeBlock)) (d : Bool) (m : nodeBlock) (h : m ∈ c.nodes) :
    m ∈ (mk o its (C1 ++ sl :: (off, some c) :: C2) d).nodes := by
  have hre : C1 ++ sl :: (off, some c) :: C2 = (C1 ++ [sl]) ++ (off, some c) :: C2 := by simp
  rw [hre]
  exact mem_nodes_cell o its _ off c C2 d m h

/-- A call of `maybeSplitChild` that returns true on a node of the right shape that has room
leaves in cell `i + 1` a node of exactly 31 items, and one child cell more than there were. -/
theorem maybeSplitChild_makes_31 (p : nodeBlock) (i : Nat) (p1 : nodeBlock)
    (hsh : p.shape = true) (hroom : p.itemsSize < maxItems)
    (h : maybeSplitChild p i = some (true, p1)) :
    ∃ off c, p1.children[i + 1]? = some (off, some c) ∧ c.itemsSize = 31 ∧
      createdBySplit p1 i = [c] ∧ p1.childrenSize = p.childrenSize + 1 := by
  obtain ⟨o, its, cs, d⟩ := p
  simp only [itemsSize, items] at hroom
  rcases hcell : cs[i]? with _ | ⟨off0, oc0⟩
  · simp [maybeSplitChild, child, children, hcell] at h
  · obtain ⟨hcut, hlen⟩ := cut_at cs i _ hcell
    have hi : i < cs.length := (List.getElem?_eq_some.mp hcell).1
    have hne : cs ≠ [] := by
      intro e; rw [e] at hi; exact absurd hi (by simp)
    obtain ⟨-, hor⟩ := (shape_mk o its cs d).mp hsh
    have hcs : cs.length = its.length + 1 ∧ shapeL cs = true := by
      rcases hor with h0 | h0
      · exact absurd h0 hne
      · exact h0
    obtain ⟨c0, hc0', hc0⟩ := shapeL_mem cs hcs.2 (off0, oc0) (List.getElem?_mem hcell)
    simp only at hc0'
    subst hc0'
    by_cases hfull : c0.items.length < maxItems
    · have hr := maybeSplitChild_roomy o its (cs.take i) off0 c0 (cs.drop (i + 1)) d hfull
      rw [← hcut, hlen, h] at hr
      simp at hr
    · obtain ⟨oc, cits, ccs, dc⟩ := c0
      have hc63 : cits.length = maxItems := by
        have h1 := ((shape_mk oc cits ccs dc).mp hc0).1
        simp only [items] at hfull
        omega
      obtain ⟨-, -, -, hr31, -, -, hccs⟩ := halves_shape oc cits ccs dc hc0 hc63
      have hI : (its.take i).length = (cs.take i).length := by
        rw [hlen, List.length_take]; omega
      obtain ⟨m, -, hres⟩ := maybeSplitChild_full o (its.take i) (its.drop i) (cs.take i) off0
        oc cits ccs dc (cs.drop (i + 1)) d hI (by rw [List.take_append_drop]; exact hroom)
        (by rw [← hcut, List.take_append_drop]; exact hcs.1) hc63 hccs
      rw [← hcut, hlen, List.take_append_drop, h] at hres
      simp only [Option.some.injEq, Prod.mk.injEq, true_and] at hres
      have hget := cell_after_at o (its.take i ++ m :: its.drop i) (cs.take i)
        (off0, some (mk oc (cits.take 31) (ccs.take 32) true)) 0
        (mk 0 (cits.drop 32) (ccs.drop 32) true) (cs.drop (i + 1)) true
      have hcb := createdBySplit_at o (its.take i ++ m :: its.drop i) (cs.take i)
        (off0, some (mk oc (cits.take 31) (ccs.take 32) true)) 0
        (mk 0 (cits.drop 32) (ccs.drop 32) true) (cs.drop (i + 1)) true
      rw [hlen, ← hres] at hget hcb
      refine ⟨0, mk 0 (cits.drop 32) (ccs.drop 32) true, hget, hr31, hcb, ?_⟩
      rw [hres]
      have h1 := congrArg List.length hcut
      simp only [List.length_append, List.length_cons] at h1
      simp only [childrenSize, children, List.length_append, List.length_cons]
      omega

/-- What `insert` does to the depth of the leaves and which nodes its splits make, on a
well-formed subtree whose root has room, with fuel for its height: the leaves stay as deep as
they were, every node a split makes has 31 items and the offset 0 when it is made, the
subtree has as many nodes more as splits have made, its root is the root it had with at most
one item put in, and every node a split has made is a node of the subtree left, as it was made
or with one item put in. -/
theorem insertAux_grows {S : Type} (less : uint128 → uint128 → Bool) (hst : StrictTotal less)
    (writePair : uint128 → S → (pair × Option Error) × S) (key : uint128) :
    ∀ (fuel : Nat) (n : nodeBlock) (s : S), n.height ≤ fuel → n.shape = true →
      n.inorder.Pairwise (fun a b => less a.key b.key = true) → n.items.length < maxItems →
      ∀ err n1 s1, insertAux less writePair fuel n key s = some (err, n1, s1) →
        (∀ k, leavesAt n k = true → leavesAt n1 k = true) ∧
        (∀ m ∈ insertCreates less fuel n key, m.itemsSize = 31 ∧ m.offset = 0) ∧
        n1.nodes.length = n.nodes.length + (insertCreates less fuel n key).length ∧
        grownFrom n n1 ∧
        (∀ m ∈ insertCreates less fuel n key, ∃ m1 ∈ n1.nodes, grownFrom m m1) := by
  intro fuel
  induction fuel with
  | zero =>
    intro n s hh
    have := height_pos n
    omega
  | succ fuel ih =>
    intro n s hh hsh hp hroom err n1 s1 hres
    obtain ⟨o, its, cs, d⟩ := n
    rw [inorder_mk] at hp
    simp only [items] at hroom
    have hits : its.Pairwise (fun a b => less a.key b.key = true) :=
      hp.sublist (items_sublist_inorderL its cs)
    obtain ⟨-, hnf⟩ := find_spec less hst (mk o its cs d) key hits
    rcases hfd : find less (mk o its cs d) key with ⟨i, b⟩
    rw [hfd] at hnf
    cases b with
    | true =>
      simp only [insertAux, hfd, Option.some.injEq, Prod.mk.injEq] at hres
      rw [← hres.2.1]
      have hcr : insertCreates less (fuel + 1) (mk o its cs d) key = [] := by
        simp only [insertCreates, hfd]
      rw [hcr]
      exact ⟨fun _ h => h, by simp, by simp, grownFrom_refl _, by simp⟩
    | false =>
      obtain ⟨hi, -, -⟩ := hnf rfl
      simp only [items] at hi
      by_cases hcs : cs = []
      · subst hcs
        have hcr : insertCreates less (fuel + 1) (mk o its [] d) key = [] := by
          simp only [insertCreates, hfd, childrenSize, children, List.length_nil, if_true]
        rw [hcr]
        have hti : (its.take i).length = i := by rw [List.length_take]; omega
        have hins : ∀ p, insertItemAt (mk o its [] d) i p
            = some (mk o (its.take i ++ p :: its.drop i) [] true) := by
          intro p
          have := insertItemAt_mid o (its.take i) (its.drop i) [] d p
            (by rw [List.take_append_drop]; exact hroom)
          rw [List.take_append_drop, hti] at this
          exact this
        rcases hw : writePair key s with ⟨⟨p, e⟩, s2⟩
        cases e with
        | some e1 =>
          simp only [insertAux, hfd, childrenSize, children, List.length_nil, if_true, hw,
            Option.some.injEq, Prod.mk.injEq] at hres
          rw [← hres.2.1]
          exact ⟨fun _ h => h, by simp, by simp, grownFrom_refl _, by simp⟩
        | none =>
          simp only [insertAux, hfd, childrenSize, children, List.length_nil, if_true, hw,
            hins, Option.some.injEq, Prod.mk.injEq] at hres
          rw [← hres.2.1]
          refine ⟨fun k hk => ?_, by simp, by simp [nodes_mk, nodesL], ?_, by simp⟩
          · rw [leavesAt_leaf] at hk ⊢
            exact hk
          · have := grownFrom_insert o (its.take i) (its.drop i) p [] [] d true
            rw [List.take_append_drop] at this
            exact this
      · obtain ⟨I1, I2, C1, off, c, C2, hI, hcut, hC1, hI1, hC2, hc, hs1, hs2, -, -, hdec⟩ :=
          descend_cut less hst key o its cs d hsh hp hcs i hfd
        subst hI hcut hC1
        have hnz : ¬ (mk o (I1 ++ I2) (C1 ++ (off, some c) :: C2) d).childrenSize = 0 := by
          simp [childrenSize, children]
        have hlt : c.height ≤ fuel := by
          have := height_child_lt o (I1 ++ I2) C1 off c C2 d
          omega
        have hpc : (inorder c).Pairwise (fun a b => less a.key b.key = true) := by
          rw [hdec] at hp
          exact ((List.pairwise_append.mp (List.pairwise_append.mp hp).2.1).1)
        by_cases hfull : c.items.length < maxItems
        · have hcr : insertCreates less (fuel + 1)
              (mk o (I1 ++ I2) (C1 ++ (off, some c) :: C2) d) key
              = insertCreates less fuel c key := by
            simp only [insertCreates, hfd, hnz, if_false,
              maybeSplitChild_roomy _ _ _ _ _ _ _ hfull, descendCreates_at]
          rw [hcr]
          simp only [insertAux, hfd, hnz, if_false,
            maybeSplitChild_roomy _ _ _ _ _ _ _ hfull] at hres
          obtain ⟨c1, hr, hn1⟩ := insertDescend_result _ key s o (I1 ++ I2) C1 off c C2 d err n1
            s1 hres
          obtain ⟨g1, g2, g3, -, g5⟩ := ih c s hlt hc hpc hfull err c1 s1 hr
          rw [hn1]
          refine ⟨fun k hk => leavesAt_child o _ _ C1 off off c c1 C2 d d g1 k hk, g2,
            nodes_length_child o _ C1 off c c1 C2 d _ g3, grownFrom_same _ _ _ _ _ _, ?_⟩
          intro x hx
          obtain ⟨m1, hm1, hg⟩ := g5 x hx
          exact ⟨m1, mem_nodes_cell _ _ _ _ _ _ _ _ hm1, hg⟩
        · obtain ⟨oc, cits, ccs, dc⟩ := c
          have hc63 : cits.length = maxItems := by
            have h1 := ((shape_mk oc cits ccs dc).mp hc).1
            simp only [items] at hfull
            omega
          obtain ⟨hshl, hshr, hl31, hr31, hhl, hhr, hccs⟩ :=
            halves_shape oc cits ccs dc hc hc63
          have hCl : (C1 ++ (off, some (mk oc cits ccs dc)) :: C2).length
              = (I1 ++ I2).length + 1 := by
            simp only [List.length_append, List.length_cons]; omega
          obtain ⟨m, hm, hms⟩ := maybeSplitChild_full o I1 I2 C1 off oc cits ccs dc C2 d hI1
            hroom hCl hc63 hccs
          have hinc := inorder_split cits ccs m hc63 hccs hm
          rw [inorder_mk, hinc] at hpc
          have hpl := (List.pairwise_append.mp hpc).1
          have hpr := List.Pairwise.of_cons (List.pairwise_append.mp hpc).2.1
          have hitem : (mk o (I1 ++ m :: I2)
              (C1 ++ (off, some (mk oc (cits.take 31) (ccs.take 32) true)) ::
                (0, some (mk 0 (cits.drop 32) (ccs.drop 32) true)) :: C2) true).items[C1.length]?
              = some m := by
            simp only [items, ← hI1, getElem?_mid]
          have hsc := createdBySplit_at o (I1 ++ m :: I2) C1
            (off, some (mk oc (cits.take 31) (ccs.take 32) true)) 0
            (mk 0 (cits.drop 32) (ccs.drop 32) true) C2 true
          have hnew : (mk 0 (cits.drop 32) (ccs.drop 32) true).itemsSize = 31 ∧
              (mk 0 (cits.drop 32) (ccs.drop 32) true).offset = 0 := ⟨hr31, rfl⟩
          have hlsplit := fun k => leavesAt_split o (I1 ++ I2) (I1 ++ m :: I2) C1 off oc cits ccs
            dc C2 d hc63 hccs (cits.take 31) (cits.drop 32) k
          have hnsplit := nodes_length_split o (I1 ++ I2) (I1 ++ m :: I2) C1 off oc cits
            (cits.take 31) (cits.drop 32) ccs dc C2 d 32 0 0
          have hre : C1 ++ (off, some (mk oc (cits.take 31) (ccs.take 32) true)) ::
              (0, some (mk 0 (cits.drop 32) (ccs.drop 32) true)) :: C2
              = (C1 ++ [(off, some (mk oc (cits.take 31) (ccs.take 32) true))]) ++
                (0, some (mk 0 (cits.drop 32) (ccs.drop 32) true)) :: C2 := by
            simp
          have hlen2 : (C1 ++ [(off, some (mk oc (cits.take 31) (ccs.take 32) true))]).length
              = C1.length + 1 := by
            simp only [List.length_append, List.length_singleton]
          simp only [insertAux, hfd, hnz, if_false, hms, hitem] at hres
          by_cases hk1 : less key m.key = true
          · have hcr : insertCreates less (fuel + 1)
                (mk o (I1 ++ I2) (C1 ++ (off, some (mk oc cits ccs dc)) :: C2) d) key
                = mk 0 (cits.drop 32) (ccs.drop 32) true ::
                  insertCreates less fuel (mk oc (cits.take 31) (ccs.take 32) true) key := by
              simp only [insertCreates, hfd, hnz, if_false, hms, hitem, hsc, hk1, if_true,
                descendCreates_at, List.singleton_append]
            rw [hcr]
            simp only [hk1, if_true] at hres
            obtain ⟨c1, hr, hn1⟩ := insertDescend_result _ key s o (I1 ++ m :: I2) C1 off _
              ((0, some (mk 0 (cits.drop 32) (ccs.drop 32) true)) :: C2) true err n1 s1 hres
            obtain ⟨g1, g2, g3, -, g5⟩ := ih _ s (by omega) hshl
              (by rw [inorder_mk]; exact hpl) (by simp only [items, hl31]; decide) err c1 s1 hr
            rw [hn1]
            refine ⟨?_, ?_, ?_, grownFrom_insert _ _ _ _ _ _ _ _, ?_⟩
            · intro k hk
              exact leavesAt_child o _ _ C1 off off _ c1 _ true true g1 k (hlsplit k hk)
            · intro x hx
              rcases List.mem_cons.mp hx with h | h
              · rw [h]; exact hnew
              · exact g2 x h
            · rw [nodes_length_child o _ C1 off _ c1 _ true _ g3, hnsplit, List.length_cons]
              omega
            · intro x hx
              rcases List.mem_cons.mp hx with h | h
              · rw [h]
                exact ⟨_, mem_nodes_cell_after _ _ _ _ _ _ _ _ _ (mem_nodes_self _),
                  grownFrom_refl _⟩
              · obtain ⟨m1, hm1, hg⟩ := g5 x h
                exact ⟨m1, mem_nodes_cell _ _ _ _ _ _ _ _ hm1, hg⟩
          · have hk1f : less key m.key = false := by simpa using hk1
            by_cases hk2 : less m.key key = true
            · have hcr : insertCreates less (fuel + 1)
                  (mk o (I1 ++ I2) (C1 ++ (off, some (mk oc cits ccs dc)) :: C2) d) key
                  = mk 0 (cits.drop 32) (ccs.drop 32) true ::
                    insertCreates less fuel (mk 0 (cits.drop 32) (ccs.drop 32) true) key := by
                simp only [insertCreates, hfd, hnz, if_false, hms, hitem, hsc, hk1f, hk2,
                  if_true, Bool.false_eq_true, List.singleton_append]
                rw [hre, ← hlen2, descendCreates_at]
              rw [hcr]
              simp only [hk1f, hk2, if_true, Bool.false_eq_true, if_false] at hres
              rw [hre, ← hlen2] at hres
              obtain ⟨c1, hr, hn1⟩ := insertDescend_result _ key s o (I1 ++ m :: I2)
                (C1 ++ [(off, some (mk oc (cits.take 31) (ccs.take 32) true))]) 0 _ C2 true err
                n1 s1 hres
              obtain ⟨g1, g2, g3, g4, g5⟩ := ih _ s (by omega) hshr
                (by rw [inorder_mk]; exact hpr) (by simp only [items, hr31]; decide) err c1 s1
                hr
              rw [hn1]
              rw [hre] at hlsplit hnsplit
              refine ⟨?_, ?_, ?_, grownFrom_insert _ _ _ _ _ _ _ _, ?_⟩
              · intro k hk
                exact leavesAt_child o _ _ _ 0 0 _ c1 _ true true g1 k (hlsplit k hk)
              · intro x hx
                rcases List.mem_cons.mp hx with h | h
                · rw [h]; exact hnew
                · exact g2 x h
              · rw [nodes_length_child o _ _ 0 _ c1 _ true _ g3, hnsplit, List.length_cons]
                omega
              · intro x hx
                rcases List.mem_cons.mp hx with h | h
                · rw [h]
                  exact ⟨c1, mem_nodes_cell _ _ _ _ _ _ _ _ (mem_nodes_self _), g4⟩
                · obtain ⟨m1, hm1, hg⟩ := g5 x h
                  exact ⟨m1, mem_nodes_cell _ _ _ _ _ _ _ _ hm1, hg⟩
            · have hk2f : less m.key key = false := by simpa using hk2
              have hcr : insertCreates less (fuel + 1)
                  (mk o (I1 ++ I2) (C1 ++ (off, some (mk oc cits ccs dc)) :: C2) d) key
                  = [mk 0 (cits.drop 32) (ccs.drop 32) true] := by
                simp only [insertCreates, hfd, hnz, if_false, hms, hitem, hsc, hk1f, hk2f,
                  Bool.false_eq_true, List.append_nil]
              rw [hcr]
              simp only [hk1f, hk2f, Bool.false_eq_true, if_false, Option.some.injEq,
                Prod.mk.injEq] at hres
              rw [← hres.2.1]
              refine ⟨fun k hk => hlsplit k hk, ?_, ?_, grownFrom_insert _ _ _ _ _ _ _ _, ?_⟩
              · intro x hx
                rw [List.mem_singleton.mp hx]; exact hnew
              · rw [hnsplit]; rfl
              · intro x hx
                rw [List.mem_singleton.mp hx]
                exact ⟨_, mem_nodes_cell_after _ _ _ _ _ _ _ _ _ (mem_nodes_self _),
                  grownFrom_refl _⟩

/-- C21: on a well-formed subtree whose root holds fewer than 63 items, `insert` returns, and
when what it returns is an error, `ErrKeyExisted` or the error of `writePair`, the records of
the subtree in traversal order are exactly those before the call, whatever nodes the call has
split on the way down, and the subtree is well formed. -/
theorem C21_failed_insert_keeps_the_records {S : Type} (less : uint128 → uint128 → Bool)
    (hst : StrictTotal less) (writePair : uint128 → S → (pair × Option Error) × S)
    (n : nodeBlock) (key : uint128) (s : S)
    (hwf : wellFormed less n) (hroom : n.itemsSize < maxItems) :
    ∃ err n1 s1, insert less writePair n key s = some (err, n1, s1) ∧
      (err ≠ none → n1.inorder = n.inorder ∧ wellFormed less n1) ∧
      ((∃ x ∈ n.inorder, x.key = key) → err = some Error.ErrKeyExisted) ∧
      (∀ p e s2, (∀ x ∈ n.inorder, x.key ≠ key) → writePair key s = ((p, some e), s2) →
        err = some e) := by
  obtain ⟨hsh, hp⟩ := hwf
  obtain ⟨hyes, hno⟩ := insertAux_owes less hst writePair key n.height n s (Nat.le_refl _) hsh
    hp hroom
  by_cases hpres : ∃ x ∈ n.inorder, x.key = key
  · obtain ⟨n1, hres, hin, hsh1⟩ := hyes hpres
    refine ⟨_, n1, s, hres, fun _ => ⟨hin, hsh1, by rw [hin]; exact hp⟩, fun _ => rfl, ?_⟩
    intro p e s2 habs _
    obtain ⟨x, hx, hxk⟩ := hpres
    exact absurd hxk (habs x hx)
  · have habs : ∀ x ∈ n.inorder, x.key ≠ key := fun x hx hk => hpres ⟨x, hx, hk⟩
    rcases hw : writePair key s with ⟨⟨p, e⟩, s1⟩
    cases e with
    | some err =>
      obtain ⟨n1, hres, hin, hsh1⟩ := (hno habs).2 p err s1 hw
      refine ⟨_, n1, s1, hres, fun _ => ⟨hin, hsh1, by rw [hin]; exact hp⟩,
        fun h => absurd h hpres, ?_⟩
      intro p1 e1 s2 _ h1
      have h2 := congrArg (fun r => r.1.2) h1
      simp only at h2
      exact h2
    | none =>
      obtain ⟨n1, A, B, hres, -⟩ := (hno habs).1 p s1 hw
      refine ⟨_, n1, s1, hres, fun h => absurd rfl h, fun h => absurd h hpres, ?_⟩
      intro p1 e1 s2 _ h1
      have h2 := congrArg (fun r => r.1.2) h1
      simp only at h2
      exact Option.noConfusion h2

set_option maxRecDepth 100000 in
/-- C21 on the node with a full leaf: the key 50, which the leaf holds, is refused after the
leaf has been split, and the key 63, which it does not hold, meets a `writePair` that fails. -/
theorem C21_failed_insert_keeps_the_records_witness :
    (wellFormed lessByWords sampleParent ∧ sampleParent.itemsSize < maxItems) ∧
    (∃ err n1 s1, insert lessByWords sampleWritePair sampleParent ⟨50, 0⟩ [] =
        some (err, n1, s1) ∧ err = some Error.ErrKeyExisted ∧
        n1.inorder = sampleParent.inorder) ∧
    (∃ err n1 s1, insert lessByWords sampleFailingWritePair sampleParent ⟨63, 0⟩ [] =
        some (err, n1, s1) ∧ err = some (Error.other 5) ∧
        n1.inorder = sampleParent.inorder) := by
  refine ⟨⟨by decide, by decide⟩, ?_, ?_⟩
  · obtain ⟨err, n1, s1, h1, h2, h3, -⟩ := C21_failed_insert_keeps_the_records lessByWords
      lessByWords_strictTotal sampleWritePair sampleParent ⟨50, 0⟩ [] (by decide) (by decide)
    have he := h3 ⟨sampleRecord 50, by decide, rfl⟩
    exact ⟨err, n1, s1, h1, he, (h2 (by rw [he]; exact fun h => Option.noConfusion h)).1⟩
  · obtain ⟨err, n1, s1, h1, h2, -, h4⟩ := C21_failed_insert_keeps_the_records lessByWords
      lessByWords_strictTotal sampleFailingWritePair sampleParent ⟨63, 0⟩ [] (by decide)
      (by decide)
    have he := h4 pair.zero (Error.other 5) [] (by decide) rfl
    exact ⟨err, n1, s1, h1, he, (h2 (by rw [he]; exact fun h => Option.noConfusion h)).1⟩

/-- C22: on a well-formed subtree whose root holds fewer than 63 items, `insert` returns, and
whether it returns an error or not: if every leaf lay `d` levels below the root before the
call, every leaf lies `d` levels below it afterwards; every node that a split of the call has
made, taken from the parent as `maybeSplitChild` leaves it, holds exactly 31 items; the
subtree has exactly as many nodes more as the splits have made; and each of these nodes is a
node of the subtree the call leaves, as it was made or with one item put in. And whenever
`maybeSplitChild` returns true on a node of the right shape with fewer than 63 items, the node
it has put into cell `i + 1` holds exactly 31 items. -/
theorem C22_insert_keeps_the_leaves_level {S : Type} (less : uint128 → uint128 → Bool)
    (hst : StrictTotal less) (writePair : uint128 → S → (pair × Option Error) × S)
    (n : nodeBlock) (key : uint128) (s : S)
    (hwf : wellFormed less n) (hroom : n.itemsSize < maxItems) :
    (∃ err n1 s1, insert less writePair n key s = some (err, n1, s1) ∧
      (∀ d, leavesAt n d = true → leavesAt n1 d = true) ∧
      (∀ m ∈ insertCreates less n.height n key, m.itemsSize = 31) ∧
      n1.nodes.length = n.nodes.length + (insertCreates less n.height n key).length ∧
      (∀ m ∈ insertCreates less n.height n key, ∃ m1 ∈ n1.nodes, grownFrom m m1)) ∧
    (∀ (p : nodeBlock) (i : Nat) (p1 : nodeBlock), p.shape = true → p.itemsSize < maxItems →
      maybeSplitChild p i = some (true, p1) →
      ∃ off c, p1.children[i + 1]? = some (off, some c) ∧ c.itemsSize = 31 ∧
        createdBySplit p1 i = [c]) := by
  refine ⟨?_, ?_⟩
  · obtain ⟨err, n1, s1, hres⟩ := insert_returns less hst writePair n key s hwf hroom
    obtain ⟨h1, h2, h3, -, h5⟩ := insertAux_grows less hst writePair key n.height n s
      (Nat.le_refl _) hwf.1 hwf.2 hroom err n1 s1 hres
    exact ⟨err, n1, s1, hres, h1, fun m hm => (h2 m hm).1, h3, h5⟩
  · intro p i p1 hsh hr h
    obtain ⟨off, c, h1, h2, h3, -⟩ := maybeSplitChild_makes_31 p i p1 hsh hr h
    exact ⟨off, c, h1, h2, h3⟩

set_option maxRecDepth 100000 in
/-- C22 on the node with a full leaf, whose leaves lie one level below it, with a key between
those of 40 and 41: the leaf is split, one node is made, and the leaves stay one level
below. -/
theorem C22_insert_keeps_the_leaves_level_witness :
    (wellFormed lessByWords sampleParent ∧ sampleParent.itemsSize < maxItems ∧
      leavesAt sampleParent 1 = true ∧
      (insertCreates lessByWords sampleParent.height sampleParent ⟨40, 1⟩).map itemsSize
        = [31]) ∧
    (∃ err n1 s1, insert lessByWords sampleWritePair sampleParent ⟨40, 1⟩ [] =
        some (err, n1, s1) ∧ leavesAt n1 1 = true ∧
      n1.nodes.length = sampleParent.nodes.length + 1) ∧
    (∃ p1 off c, maybeSplitChild sampleParent 0 = some (true, p1) ∧
      p1.children[1]? = some (off, some c) ∧ c.itemsSize = 31) := by
  have hm : (insertCreates lessByWords sampleParent.height sampleParent ⟨40, 1⟩).map itemsSize
      = [31] := by decide
  have hc : (insertCreates lessByWords sampleParent.height sampleParent ⟨40, 1⟩).length = 1 := by
    have := congrArg List.length hm
    simpa using this
  have hT := C22_insert_keeps_the_leaves_level lessByWords lessByWords_strictTotal
    sampleWritePair sampleParent ⟨40, 1⟩ [] (by decide) (by decide)
  refine ⟨⟨by decide, by decide, by decide, hm⟩, ?_, ?_⟩
  · obtain ⟨err, n1, s1, h1, h2, -, h4, -⟩ := hT.1
    rw [hc] at h4
    exact ⟨err, n1, s1, h1, h2 1 (by decide), h4⟩
  · obtain ⟨item, -, hms⟩ := maybeSplitChild_full 0 [] [sampleRecord 100] [] 0 0
      ((List.range 63).map sampleRecord) [] false [(0, some (sampleLeaf [200]))] false rfl
      (by decide) rfl (by decide) (Or.inl rfl)
    obtain ⟨off, c, g1, g2, -⟩ := hT.2 sampleParent 0 _ (by decide) (by decide) hms
    exact ⟨_, off, c, hms, g1, g2⟩

/-- C23: on a well-formed subtree (all children present) whose root holds fewer than 63
items, `insert` returns a result, for every key, every `writePair` and every state of the
super-block. In the embedding a call has no result when an index is past the cells in use of
`items` or of the child cells, when `insertItemAt` or `insertChildAt` is called on a full
node, when `appendItems` or `appendChildrenAndOffsets` reaches its panic, or when the child to
go down into is nil; so none of these happens. And the bisection of `find` reads no item at
or past `itemsSize`: its result is at most `itemsSize` and is the same for any two
functions that agree below `itemsSize`. -/
theorem C23_insert_returns_without_panic {S : Type} (less : uint128 → uint128 → Bool)
    (hst : StrictTotal less) (writePair : uint128 → S → (pair × Option Error) × S)
    (n : nodeBlock) (key : uint128) (s : S)
    (hwf : wellFormed less n) (hroom : n.itemsSize < maxItems) :
    (∃ err n1 s1, insert less writePair n key s = some (err, n1, s1) ∧ n1.shape = true) ∧
    (∀ (m : nodeBlock) (f g : Nat → Bool), (∀ i, i < m.itemsSize → f i = g i) →
      sort.Search m.itemsSize f = sort.Search m.itemsSize g ∧
      sort.Search m.itemsSize f ≤ m.itemsSize) := by
  refine ⟨?_, ?_⟩
  · obtain ⟨hsh, hp⟩ := hwf
    obtain ⟨hyes, hno⟩ := insertAux_owes less hst writePair key n.height n s (Nat.le_refl _)
      hsh hp hroom
    by_cases hpres : ∃ x ∈ n.inorder, x.key = key
    · obtain ⟨n1, hres, -, hsh1⟩ := hyes hpres
      exact ⟨_, n1, s, hres, hsh1⟩
    · have habs : ∀ x ∈ n.inorder, x.key ≠ key := fun x hx hk => hpres ⟨x, hx, hk⟩
      rcases hw : writePair key s with ⟨⟨p, e⟩, s1⟩
      cases e with
      | some err =>
        obtain ⟨n1, hres, -, hsh1⟩ := (hno habs).2 p err s1 hw
        exact ⟨_, n1, s1, hres, hsh1⟩
      | none =>
        obtain ⟨n1, A, B, hres, -, -, -, -, hsh1⟩ := (hno habs).1 p s1 hw
        exact ⟨_, n1, s1, hres, hsh1⟩
  · intro m f g hfg
    exact ⟨sort.searchLoop_congr f g m.itemsSize hfg _ _ _ (Nat.le_refl _),
      sort.searchLoop_le f _ _ _ (Nat.zero_le _)⟩

set_option maxRecDepth 100000 in
/-- C23 on the node with a full leaf, with a key between those of 40 and 41: the leaf is
split on the way and the call returns. -/
theorem C23_insert_returns_without_panic_witness :
    (wellFormed lessByWords sampleParent ∧ sampleParent.itemsSize < maxItems) ∧
    ∃ err n1 s1, insert lessByWords sampleWritePair sampleParent ⟨40, 1⟩ [] =
      some (err, n1, s1) ∧ n1.shape = true :=
  ⟨⟨by decide, by decide⟩,
   (C23_insert_returns_without_panic lessByWords lessByWords_strictTotal sampleWritePair
      sampleParent ⟨40, 1⟩ [] (by decide) (by decide)).1⟩

end nodeBlock
end fz


/-! ## Traversal -/

namespace fz

/-- One round of the loop of `iterate` on a record either calls the callback once, for that
record and with a handle on it when data is read, or fails and calls nothing; it does not
fail when data is read and the record is readable. -/
theorem iterateItem_cases (e : byte) (file : List byte)
    (callback : List byte → Option Data → Option Error) (readData : Bool) (depth : Nat)
    (node : pair) (i : Nat) (st : Walked) :
    ((∃ c pos, iterateItem e file callback readData depth node i st
        = (none, ⟨st.calls ++ [c], pos⟩) ∧ c.item = node ∧
        c.result = callback c.keyname c.d ∧
        (readData = true → c.d = some ⟨node, depth, i⟩) ∧ (readData = false → c.d = none)) ∨
     (∃ err pos, iterateItem e file callback readData depth node i st
        = (some err, ⟨st.calls, pos⟩))) ∧
    (readData = true → recordReadable file node = true →
      (iterateItem e file callback readData depth node i st).1 = none) := by
  cases readData with
  | true =>
    unfold iterateItem recordReadable
    simp only [if_true]
    cases hseek : Seek node.value with
    | some err =>
      have hneg : ¬ (0 ≤ node.value) := by
        intro h
        have : ¬ node.value < 0 := by omega
        simp [Seek, this] at hseek
      refine ⟨Or.inr ⟨err, st.pos, rfl⟩, fun _ h => ?_⟩
      simp [hneg] at h
    | none =>
      simp only
      by_cases hoct : node.oct = 9
      · simp only [hoct, if_true]
        rcases h1 : ReadAtLeast file node.value.toNat 2 with ⟨r1, pos1⟩
        cases r1 with
        | error err =>
          refine ⟨Or.inr ⟨err, st.pos, rfl⟩, fun _ h => ?_⟩
          simp at h
        | ok buf =>
          simp only
          rcases h2 : ReadAtLeast file pos1 (bigEndianUint16 buf) with ⟨r2, pos2⟩
          cases r2 with
          | error err =>
            refine ⟨Or.inr ⟨err, st.pos, rfl⟩, fun _ h => ?_⟩
            simp at h
          | ok keyname =>
            exact ⟨Or.inl ⟨_, st.pos, rfl, rfl, rfl, fun _ => rfl, fun h => by simp at h⟩,
              fun _ _ => rfl⟩
      · simp only [hoct, if_false]
        exact ⟨Or.inl ⟨_, st.pos, rfl, rfl, rfl, fun _ => rfl, fun h => by simp at h⟩,
          fun _ _ => trivial⟩
  | false =>
    unfold iterateItem
    simp only [Bool.false_eq_true, if_false]
    refine ⟨?_, fun h => by simp at h⟩
    rcases h1 : ReadAtLeast file st.pos 2 with ⟨r1, pos1⟩
    cases r1 with
    | error err => exact Or.inr ⟨err, pos1, rfl⟩
    | ok buf =>
      simp only
      rcases h2 : ReadAtLeast file pos1 (bigEndianUint16 buf) with ⟨r2, pos2⟩
      cases r2 with
      | error err => exact Or.inr ⟨err, pos2, rfl⟩
      | ok keyname =>
        exact Or.inl ⟨_, pos2, rfl, rfl, rfl, fun h => by simp at h, fun _ => rfl⟩

namespace nodeBlock

theorem walkOwes_nil (good : pair → Prop) (ok : Call → Prop) (st : Walked) :
    walkOwes good ok [] st (some (none, st)) :=
  ⟨none, st, [], rfl, by simp, ⟨[], rfl⟩, by simp, fun _ => rfl, fun _ => rfl⟩

/-- Two pieces of a traversal, one after the other, the second one run only when the first
returns a nil error. -/
theorem walkOwes_seq (good : pair → Prop) (ok : Call → Prop) (L1 L2 : List pair) (st : Walked)
    (r1 res : Option (Option Error × Walked)) (k : Walked → Option (Option Error × Walked))
    (h1 : walkOwes good ok L1 st r1)
    (herr : ∀ err st1, r1 = some (some err, st1) → res = some (some err, st1))
    (hok : ∀ st1, r1 = some (none, st1) → res = k st1)
    (h2 : ∀ st1, walkOwes good ok L2 st1 (k st1)) :
    walkOwes good ok (L1 ++ L2) st res := by
  obtain ⟨err, st1, done, hr, hcalls, ⟨rest, hrest⟩, hokc, hall, hgood⟩ := h1
  cases err with
  | some err =>
    refine ⟨some err, st1, done, herr err st1 hr, hcalls, ⟨rest ++ L2, ?_⟩, hokc, ?_, ?_⟩
    · rw [hrest, List.append_assoc]
    · intro h; exact Option.noConfusion h
    · intro hg
      exact hgood (fun p hp => hg p (List.mem_append_left _ hp))
  | none =>
    have hd := hall rfl
    obtain ⟨err2, st2, done2, hr2, hcalls2, ⟨rest2, hrest2⟩, hokc2, hall2, hgood2⟩ := h2 st1
    refine ⟨err2, st2, done ++ done2, by rw [hok st1 hr, hr2], ?_, ⟨rest2, ?_⟩, ?_, ?_, ?_⟩
    · rw [hcalls2, hcalls, List.append_assoc]
    · rw [List.map_append, hd, hrest2, List.append_assoc]
    · intro c hc
      rcases List.mem_append.mp hc with h | h
      · exact hokc c h
      · exact hokc2 c h
    · intro h
      rw [List.map_append, hd, hall2 h]
    · intro hg
      exact hgood2 (fun p hp => hg p (List.mem_append_right _ hp))

theorem walkOwes_item (e : byte) (file : List byte)
    (callback : List byte → Option Data → Option Error) (readData : Bool) (depth : Nat)
    (node : pair) (i : Nat) (st : Walked) :
    walkOwes (fun p => readData = true ∧ recordReadable file p = true)
      (okCall callback readData) [node] st
      (some (iterateItem e file callback readData depth node i st)) := by
  obtain ⟨hc, hgood⟩ := iterateItem_cases e file callback readData depth node i st
  rcases hc with ⟨c, pos, hr, hitem, hres, hd1, hd2⟩ | ⟨err, pos, hr⟩
  · refine ⟨none, ⟨st.calls ++ [c], pos⟩, [c], by rw [hr], rfl, ⟨[], by simp [hitem]⟩, ?_,
      fun _ => by simp [hitem], fun _ => rfl⟩
    intro c1 hc1
    rw [List.mem_singleton.mp hc1]
    exact ⟨hres, fun h => by rw [hd1 h, hitem]; rfl, hd2⟩
  · refine ⟨some err, ⟨st.calls, pos⟩, [], by rw [hr], by simp, ⟨[node], rfl⟩, by simp,
      fun h => Option.noConfusion h, fun hg => ?_⟩
    have := hgood (hg node (List.mem_singleton_self _)).1 (hg node (List.mem_singleton_self _)).2
    rw [hr] at this
    exact this

/-- The loop of `iterate` on a well-shaped node, from index `i` on: it visits child `i`,
item `i`, child `i + 1`, and so on up to the last item. -/
theorem iterateLoop_owes (good : pair → Prop) (ok : Call → Prop)
    (body : pair → Nat → Walked → Option Error × Walked)
    (rec : nodeBlock → Walked → Option (Option Error × Walked))
    (o : Int) (its : List pair) (cs : List (Int × Option nodeBlock)) (d : Bool)
    (hcs : cs = [] ∨ (cs.length = its.length + 1 ∧ shapeL cs = true))
    (hbody : ∀ node i st, walkOwes good ok [node] st (some (body node i st)))
    (hrec : ∀ off ch, (off, some ch) ∈ cs → ∀ st, walkOwes good ok ch.inorder st (rec ch st)) :
    ∀ (todo i : Nat) (st : Walked), i + todo = its.length →
      walkOwes good ok (inorderL (its.drop i) ((cs.drop i).take todo)) st
        (iterateLoop body rec (mk o its cs d) todo i st) := by
  intro todo
  induction todo with
  | zero =>
    intro i st hi
    have : its.drop i = [] := List.drop_of_length_le (by omega)
    rw [this]
    simp only [List.take_zero, inorderL_nil, iterateLoop]
    exact walkOwes_nil good ok st
  | succ todo ih =>
    intro i st hi
    have hlt : i < its.length := by omega
    have hget : its[i]? = some its[i] := List.getElem?_eq_getElem hlt
    have hdrop : its.drop i = its[i] :: its.drop (i + 1) := List.drop_eq_getElem_cons hlt
    -- the rest of a round, after the visit of the child
    have hrest : ∀ st1, walkOwes good ok ([its[i]] ++
        inorderL (its.drop (i + 1)) ((cs.drop (i + 1)).take todo)) st1
        (match (mk o its cs d).items[i]? with
          | none => none
          | some node =>
            match body node i st1 with
            | (some err, st2) => some (some err, st2)
            | (none, st2) => iterateLoop body rec (mk o its cs d) todo (i + 1) st2) := by
      intro st1
      simp only [items, hget]
      apply walkOwes_seq good ok _ _ st1 (some (body its[i] i st1)) _
        (fun st2 => iterateLoop body rec (mk o its cs d) todo (i + 1) st2) (hbody _ _ _)
      · intro err st2 h
        rw [Option.some.inj h]
      · intro st2 h
        rw [Option.some.inj h]
      · intro st2
        exact ih (i + 1) st2 (by omega)
    rcases hcs with h | ⟨hlen, hsh⟩
    · subst h
      have hz : ¬ (mk o its [] d).childrenSize > 0 := by simp [childrenSize, children]
      simp only [List.drop_nil, List.take_nil, inorderL_nil] at hrest ⊢
      rw [hdrop]
      simp only [iterateLoop, hz, if_false]
      exact hrest st
    · have hci : i < cs.length := by omega
      have hcdrop : cs.drop i = cs[i] :: cs.drop (i + 1) := List.drop_eq_getElem_cons hci
      obtain ⟨ch, hch2, -⟩ := shapeL_mem cs hsh cs[i] (List.getElem_mem _)
      have hcell : cs[i] = ((cs[i]).1, some ch) := by rw [← hch2]
      have hchild : child (mk o its cs d) i = some (some ch, none) := by
        simp only [child, children, List.getElem?_eq_getElem hci]
        rw [hcell]
      have hpos : (mk o its cs d).childrenSize > 0 := by
        simp only [childrenSize, children]; omega
      have hmem : ((cs[i]).1, some ch) ∈ cs := by
        rw [← hcell]; exact List.getElem_mem _
      rw [hdrop, hcdrop, List.take_succ_cons, inorderL_cons, hcell]
      simp only [inorderO, inorderR]
      apply walkOwes_seq good ok _ _ st (rec ch st) _ _ (hrec _ ch hmem st) _ _ hrest
      · intro err st1 h
        simp only [iterateLoop, hpos, if_true, iterateVisit, hchild, h]
      · intro st1 h
        simp only [iterateLoop, hpos, if_true, iterateVisit, hchild, h]
        try rfl

/-- What `iterate` does on a well-shaped subtree, with fuel for its height. -/
theorem iterateAux_owes (e : byte) (file : List byte)
    (callback : List byte → Option Data → Option Error) (readData : Bool) :
    ∀ (fuel : Nat) (n : nodeBlock) (depth : Nat) (st : Walked), n.height ≤ fuel →
      n.shape = true →
      walkOwes (fun p => readData = true ∧ recordReadable file p = true)
        (okCall callback readData) n.inorder st
        (iterateAux e file callback readData fuel n depth st) := by
  intro fuel
  induction fuel with
  | zero =>
    intro n depth st hh
    have := height_pos n
    omega
  | succ fuel ih =>
    intro n depth st hh hsh
    obtain ⟨o, its, cs, d⟩ := n
    rw [shape_mk] at hsh
    obtain ⟨-, hcs⟩ := hsh
    rw [height_mk] at hh
    have hrec : ∀ off ch, (off, some ch) ∈ cs → ∀ st1,
        walkOwes (fun p => readData = true ∧ recordReadable file p = true)
          (okCall callback readData) ch.inorder st1
          (iterateAux e file callback readData fuel ch (depth + 1) st1) := by
      intro off ch hmem st1
      have hch := heightL_mem cs off ch hmem
      rcases hcs with h | ⟨-, hshL⟩
      · rw [h] at hmem; simp at hmem
      · obtain ⟨c, hc, hshc⟩ := shapeL_mem cs hshL _ hmem
        have : ch = c := Option.some.inj hc
        subst this
        exact ih ch (depth + 1) st1 (by omega) hshc
    have hloop := iterateLoop_owes (fun p => readData = true ∧ recordReadable file p = true)
      (okCall callback readData) (iterateItem e file callback readData depth)
      (fun ch st1 => iterateAux e file callback readData fuel ch (depth + 1) st1)
      o its cs d hcs (walkOwes_item e file callback readData depth) hrec its.length 0 st
      (by omega)
    simp only [List.drop_zero] at hloop
    rw [inorder_mk]
    rcases hcs with h | ⟨hlen, hshL⟩
    · subst h
      simp only [List.take_nil, inorderL_nil] at hloop ⊢
      have hz : ¬ (mk o its [] d).childrenSize > 0 := by simp [childrenSize, children]
      have := walkOwes_seq _ _ its [] st _
        (iterateAux e file callback readData (fuel + 1) (mk o its [] d) depth st)
        (fun st1 => some (none, st1)) hloop
        (by
          intro err st1 h
          simp only [iterateAux, itemsSize, items, h])
        (by
          intro st1 h
          simp only [iterateAux, itemsSize, items, h, hz, if_false])
        (fun st1 => walkOwes_nil _ _ st1)
      rw [List.append_nil] at this
      exact this
    · have hci : its.length < cs.length := by omega
      have hcut : cs = cs.take its.length ++ cs[its.length] :: [] := by
        have h1 := List.drop_eq_getElem_cons hci
        have h2 : cs.drop (its.length + 1) = [] := List.drop_of_length_le (by omega)
        rw [h2] at h1
        rw [← h1, List.take_append_drop]
      obtain ⟨ch, hch2, -⟩ := shapeL_mem cs hshL cs[its.length] (List.getElem_mem _)
      have hcell : cs[its.length] = ((cs[its.length]).1, some ch) := by rw [← hch2]
      have hmem : ((cs[its.length]).1, some ch) ∈ cs := by
        rw [← hcell]; exact List.getElem_mem _
      have hpos : (mk o its cs d).childrenSize > 0 := by
        simp only [childrenSize, children]; omega
      have hlast : (mk o its cs d).childrenSize - 1 = its.length := by
        simp only [childrenSize, children]; omega
      have hchild : child (mk o its cs d) its.length = some (some ch, none) := by
        simp only [child, children, List.getElem?_eq_getElem hci]
        rw [hcell]
      have hin : inorderL its cs = inorderL its (cs.take its.length) ++ ch.inorder := by
        have h0 := inorderL_append its [] (cs.take its.length) cs[its.length] []
          (by rw [List.length_take]; omega)
        rw [List.append_nil, ← hcut, hcell] at h0
        rw [h0]
        simp [inorderO, inorderR, inorderL_nil]
      rw [hin]
      exact walkOwes_seq _ _ _ _ st _
        (iterateAux e file callback readData (fuel + 1) (mk o its cs d) depth st)
        (fun st1 => iterateAux e file callback readData fuel ch (depth + 1) st1) hloop
        (by
          intro err st1 h
          simp only [iterateAux, itemsSize, items, h])
        (by
          intro st1 h
          simp only [iterateAux, itemsSize, items, h, hpos, if_true, hlast, iterateVisit,
            hchild])
        (fun st1 => hrec _ ch hmem st1)

/-- C4: on a well-formed tree `iterate` returns, and the calls of the callback it has added
are made for the first records of the traversal order (child, item, child, ..., last child),
one call a record, so with strictly ascending ordering keys; each call gets a handle on its
record when data is read. When the returned error is nil the calls have gone through all the
records, each record of the tree (deleted or not: the flag is not looked at) being handed
over exactly once. And the error is nil when data is read and every record is readable. -/
theorem C4_walk_visits_every_record_in_order (less : uint128 → uint128 → Bool)
    (hst : StrictTotal less) (_endian : byte) (file : List byte)
    (callback : List byte → Option Data → Option Error) (readData : Bool)
    (n : nodeBlock) (hwf : wellFormed less n) (depth : Nat) (st : Walked) :
    ∃ err st1 done, iterate _endian file callback readData n depth st = some (err, st1) ∧
      st1.calls = st.calls ++ done ∧
      (∃ rest, n.inorder = done.map Call.item ++ rest) ∧
      (done.map Call.item).Pairwise (fun a b => less a.key b.key = true) ∧
      (∀ c ∈ done, okCall callback readData c) ∧
      (err = none → done.map Call.item = n.inorder ∧
        (∀ p ∈ n.inorder, (done.map Call.item).count p = 1) ∧
        (∀ p ∈ n.inorder, p.deleted = false → (done.map Call.item).count p = 1)) ∧
      ((readData = true ∧ ∀ p ∈ n.inorder, recordReadable file p = true) → err = none) := by
  obtain ⟨hsh, hp⟩ := hwf
  obtain ⟨err, st1, done, hres, hcalls, ⟨rest, hrest⟩, hok, hall, hgood⟩ :=
    iterateAux_owes _endian file callback readData n.height n depth st (Nat.le_refl _) hsh
  have hpd : (done.map Call.item).Pairwise (fun a b => less a.key b.key = true) := by
    rw [hrest] at hp
    exact (List.pairwise_append.mp hp).1
  have hnd : n.inorder.Nodup := by
    refine hp.imp ?_
    intro a b hab heq
    rw [heq, hst.irrefl] at hab
    exact Bool.noConfusion hab
  refine ⟨err, st1, done, hres, hcalls, ⟨rest, hrest⟩, hpd, hok, ?_, ?_⟩
  · intro he
    have hd := hall he
    refine ⟨hd, ?_, ?_⟩
    · intro p hpin
      rw [hd]
      exact List.count_eq_one_of_mem hnd hpin
    · intro p hpin _
      rw [hd]
      exact List.count_eq_one_of_mem hnd hpin
  · rintro ⟨hrd, hread⟩
    exact hgood (fun p hpin => ⟨hrd, hread p hpin⟩)

/-- C4 on the sample tree, read with data from a fresh state: the six records are handed over
in order of their keys. -/
theorem C4_walk_visits_every_record_in_order_witness :
    wellFormed lessByWords sampleTree ∧
    ∃ err st1 done, iterate 1 [] (fun _ _ => none) true sampleTree 0 ⟨[], 0⟩ = some (err, st1) ∧
      st1.calls = [] ++ done ∧ (done.map Call.item).Pairwise
        (fun a b => lessByWords a.key b.key = true) :=
  ⟨by decide,
   (C4_walk_visits_every_record_in_order lessByWords lessByWords_strictTotal 1 []
      (fun _ _ => none) true sampleTree (by decide) 0 ⟨[], 0⟩).imp fun _ h =>
        h.imp fun _ h => h.imp fun _ h => ⟨h.1, h.2.1, h.2.2.2.1⟩⟩

/-- C5 does not hold of the code: on a leaf of two records, with a callback that reports an
error at every call, `iterate` calls the callback for the first record, drops the error, calls
it again for the second record and returns a nil error. -/
theorem C5_callback_error_is_dropped :
    iterate 1 [] (fun _ _ => some (Error.other 1)) true (sampleLeaf [1, 2]) 0 ⟨[], 0⟩ =
      some (none,
        ⟨[⟨[1], some ⟨sampleRecord 1, 0, 0⟩, some (Error.other 1), sampleRecord 1⟩,
          ⟨[2], some ⟨sampleRecord 2, 0, 1⟩, some (Error.other 1), sampleRecord 2⟩], 0⟩) := by
  decide

end nodeBlock
end fz


/-! ## The header of the file -/

namespace fz

theorem leBytes_length (w x : Nat) : (leBytes w x).length = w := by
  induction w generalizing x with
  | zero => rfl
  | succ w ih => simp [leBytes, ih]

theorem leNat_leBytes (w x : Nat) : leNat (leBytes w x) = x % 256 ^ w := by
  induction w generalizing x with
  | zero => simp [leBytes, leNat, Nat.mod_one]
  | succ w ih =>
    simp only [leBytes, leNat, ih]
    rw [Nat.pow_succ, Nat.mul_comm (256 ^ w) 256, Nat.mod_mul]

theorem leBytes_leNat (bs : List byte) : leBytes bs.length (leNat bs) = bs := by
  induction bs with
  | nil => rfl
  | cons b r ih =>
    have h1 : (b.val + 256 * leNat r) % 256 = b.val := by
      have := b.isLt
      omega
    have h2 : (b.val + 256 * leNat r) / 256 = leNat r := by
      have := b.isLt
      omega
    simp only [List.length_cons, leBytes, leNat, h1, h2, ih]

theorem memBytes_length (e : byte) (w x : Nat) : (memBytes e w x).length = w := by
  unfold memBytes
  split <;> simp [leBytes_length]

theorem memNat_memBytes (e : byte) (w x : Nat) (h : x < 256 ^ w) :
    memNat e (memBytes e w x) = x := by
  unfold memNat memBytes
  split <;> simp [leNat_leBytes, Nat.mod_eq_of_lt h]

theorem memBytes_memNat (e : byte) (bs : List byte) :
    memBytes e bs.length (memNat e bs) = bs := by
  unfold memNat memBytes
  split
  · exact leBytes_leNat bs
  · have := leBytes_leNat bs.reverse
    rw [List.length_reverse] at this
    rw [this, List.reverse_reverse]

theorem slice_mid {α : Type} (A X B : List α) (n k : Nat) (hA : A.length = n)
    (hX : X.length = k) : ((A ++ X ++ B).drop n).take k = X := by
  subst hA hX
  simp [List.append_assoc]

namespace SuperBlock

theorem int64Bits_lt (x : Int) : int64Bits x < 2 ^ 64 := by
  unfold int64Bits
  have h1 : 0 ≤ x % (2 : Int) ^ 64 := Int.emod_nonneg _ (by norm_num)
  have h2 : x % (2 : Int) ^ 64 < (2 : Int) ^ 64 := Int.emod_lt_of_pos _ (by norm_num)
  omega

theorem int64OfBits_int64Bits (x : Int) (h1 : -(2 : Int) ^ 63 ≤ x) (h2 : x < (2 : Int) ^ 63) :
    int64OfBits (int64Bits x) = x := by
  unfold int64OfBits int64Bits
  have h3 : 0 ≤ x % (2 : Int) ^ 64 := Int.emod_nonneg _ (by norm_num)
  have h4 : x % (2 : Int) ^ 64 < (2 : Int) ^ 64 := Int.emod_lt_of_pos _ (by norm_num)
  have h5 : ((x % (2 : Int) ^ 64).toNat : Int) = x % (2 : Int) ^ 64 := Int.toNat_of_nonneg h3
  split
  · rw [h5]; omega
  · rw [h5]; omega

theorem bytes_length (e : byte) (b : SuperBlock) (h : b.wellTyped) :
    (b.bytes e).length = 64 := by
  obtain ⟨h1, h2, -, -, -, h6, -⟩ := h
  simp [bytes, memBytes_length, h1, h2, h6]

theorem ofBytes_bytes (e : byte) (b : SuperBlock) (h : b.wellTyped) :
    ofBytes e (b.bytes e) = b := by
  obtain ⟨h1, h2, h3, h4, h5, h6, h7, h8, h9⟩ := h
  have l4 := memBytes_length e 4 b.createdAt
  have l5 := memBytes_length e 8 b.size
  have l6 := memBytes_length e 8 b.count
  have l8 := memBytes_length e 8 (int64Bits b.rootNode)
  have l9 := memBytes_length e 8 b.superHash
  have e1 : (b.bytes e).take 4 = b.magic := by
    have := slice_mid [] b.magic ([b.endian] ++ b.reserved ++ memBytes e 4 b.createdAt ++
      memBytes e 8 b.size ++ memBytes e 8 b.count ++ b.salt ++
      memBytes e 8 (int64Bits b.rootNode) ++ memBytes e 8 b.superHash) 0 4 rfl h1
    simpa [bytes, List.append_assoc] using this
  have e2 : (b.bytes e).getD 4 0 = b.endian := by
    simp only [bytes, List.append_assoc, List.getD_eq_getElem?_getD]
    rw [List.getElem?_append_right (by omega)]
    simp [h1]
  have e3 : ((b.bytes e).drop 5).take 7 = b.reserved := by
    have := slice_mid (b.magic ++ [b.endian]) b.reserved (memBytes e 4 b.createdAt ++
      memBytes e 8 b.size ++ memBytes e 8 b.count ++ b.salt ++
      memBytes e 8 (int64Bits b.rootNode) ++ memBytes e 8 b.superHash) 5 7 (by simp [h1]) h2
    simpa [bytes, List.append_assoc] using this
  have e4 : ((b.bytes e).drop 12).take 4 = memBytes e 4 b.createdAt := by
    have := slice_mid (b.magic ++ [b.endian] ++ b.reserved) (memBytes e 4 b.createdAt)
      (memBytes e 8 b.size ++ memBytes e 8 b.count ++ b.salt ++
      memBytes e 8 (int64Bits b.rootNode) ++ memBytes e 8 b.superHash) 12 4
      (by simp [h1, h2]) l4
    simpa [bytes, List.append_assoc] using this
  have e5 : ((b.bytes e).drop 16).take 8 = memBytes e 8 b.size := by
    have := slice_mid (b.magic ++ [b.endian] ++ b.reserved ++ memBytes e 4 b.createdAt)
      (memBytes e 8 b.size) (memBytes e 8 b.count ++ b.salt ++
      memBytes e 8 (int64Bits b.rootNode) ++ memBytes e 8 b.superHash) 16 8
      (by simp [h1, h2, l4]) l5
    simpa [bytes, List.append_assoc] using this
  have e6 : ((b.bytes e).drop 24).take 8 = memBytes e 8 b.count := by
    have := slice_mid (b.magic ++ [b.endian] ++ b.reserved ++ memBytes e 4 b.createdAt ++
      memBytes e 8 b.size) (memBytes e 8 b.count) (b.salt ++
      memBytes e 8 (int64Bits b.rootNode) ++ memBytes e 8 b.superHash) 24 8
      (by simp [h1, h2, l4, l5]) l6
    simpa [bytes, List.append_assoc] using this
  have e7 : ((b.bytes e).drop 32).take 16 = b.salt := by
    have := slice_mid (b.magic ++ [b.endian] ++ b.reserved ++ memBytes e 4 b.createdAt ++
      memBytes e 8 b.size ++ memBytes e 8 b.count) b.salt
      (memBytes e 8 (int64Bits b.rootNode) ++ memBytes e 8 b.superHash) 32 16
      (by simp [h1, h2, l4, l5, l6]) h6
    simpa [bytes, List.append_assoc] using this
  have e8 : ((b.bytes e).drop 48).take 8 = memBytes e 8 (int64Bits b.rootNode) := by
    have := slice_mid (b.magic ++ [b.endian] ++ b.reserved ++ memBytes e 4 b.createdAt ++
      memBytes e 8 b.size ++ memBytes e 8 b.count ++ b.salt)
      (memBytes e 8 (int64Bits b.rootNode)) (memBytes e 8 b.superHash) 48 8
      (by simp [h1, h2, l4, l5, l6, h6]) l8
    simpa [bytes, List.append_assoc] using this
  have e9 : ((b.bytes e).drop 56).take 8 = memBytes e 8 b.superHash := by
    have := slice_mid (b.magic ++ [b.endian] ++ b.reserved ++ memBytes e 4 b.createdAt ++
      memBytes e 8 b.size ++ memBytes e 8 b.count ++ b.salt ++
      memBytes e 8 (int64Bits b.rootNode)) (memBytes e 8 b.superHash) [] 56 8
      (by simp [h1, h2, l4, l5, l6, h6, l8]) l9
    simpa [bytes, List.append_assoc] using this
  unfold ofBytes
  rw [e1, e2, e3, e4, e5, e6, e7, e8, e9]
  rw [memNat_memBytes e 4 _ (by norm_num; exact h3), memNat_memBytes e 8 _ (by norm_num; exact h4),
    memNat_memBytes e 8 _ (by norm_num; exact h5),
    memNat_memBytes e 8 _ (by norm_num; exact int64Bits_lt _),
    memNat_memBytes e 8 _ (by norm_num; exact h9), int64OfBits_int64Bits _ h7 h8]

/-- The first 56 bytes of the header do not depend on the stored hash. -/
theorem bytes_take_56 (e : byte) (b : SuperBlock) (h : b.wellTyped) (x : Nat) :
    ({ b with superHash := x }.bytes e).take 56 = (b.bytes e).take 56 := by
  obtain ⟨h1, h2, -, -, -, h6, -⟩ := h
  have key : ∀ y : Nat, ({ b with superHash := y }.bytes e).take 56 =
      b.magic ++ [b.endian] ++ b.reserved ++ memBytes e 4 b.createdAt ++
      memBytes e 8 b.size ++ memBytes e 8 b.count ++ b.salt ++
      memBytes e 8 (int64Bits b.rootNode) := by
    intro y
    have := slice_mid [] (b.magic ++ [b.endian] ++ b.reserved ++ memBytes e 4 b.createdAt ++
      memBytes e 8 b.size ++ memBytes e 8 b.count ++ b.salt ++
      memBytes e 8 (int64Bits b.rootNode)) (memBytes e 8 y) 0 56 rfl
      (by simp [h1, h2, h6, memBytes_length])
    simpa [bytes, List.append_assoc] using this
  have h0 := key b.superHash
  rw [key x]
  exact h0.symm

end SuperBlock

theorem ReadAtLeast_header (f : List byte) :
    (f.length < 64 ∧ ∃ err pos, ReadAtLeast f 0 superBlockSize = (Except.error err, pos)) ∨
    (64 ≤ f.length ∧ ReadAtLeast f 0 superBlockSize = (Except.ok (f.take 64), 64)) := by
  unfold ReadAtLeast superBlockSize
  by_cases h : f.length < 64
  · left
    refine ⟨h, ?_⟩
    have h1 : ¬ (0 + 64 ≤ f.length) := by omega
    simp only [h1, if_false]
    by_cases h2 : f.length ≤ 0
    · exact ⟨Error.EOF, 0, by simp [h2]⟩
    · exact ⟨Error.ErrUnexpectedEOF, f.length, by simp [h2]⟩
  · right
    have h1 : 0 + 64 ≤ f.length := by omega
    refine ⟨by omega, ?_⟩
    simp [h1]

theorem OpenFZ_existing_short (e : byte) (now : Int) (rnd f : List byte) (h : f.length < 64) :
    ∃ err, OpenFZ e now rnd (some f) false = ((none, some err), f) := by
  rcases ReadAtLeast_header f with ⟨-, err, pos, hr⟩ | ⟨h1, -⟩
  · exact ⟨err, by simp [OpenFZ, hr]⟩
  · omega

theorem OpenFZ_existing_long (e : byte) (now : Int) (rnd f : List byte) (h : 64 ≤ f.length) :
    OpenFZ e now rnd (some f) false =
      if (SuperBlock.ofBytes e (f.take 64)).magic ≠ superBlockMagic then
        ((none, some Error.wrongMagic), f)
      else if (SuperBlock.ofBytes e (f.take 64)).endian ≠ e then
        ((none, some Error.wrongEndianness), f)
      else if (SuperBlock.ofBytes e (f.take 64)).superHash ≠ fnv64 (f.take 56) then
        ((none, some Error.wrongSuperHash), f)
      else if (SuperBlock.ofBytes e (f.take 64)).rootNode ≥ (f.length : Int) then
        ((none, some Error.corruptedRootNode), f)
      else ((some (SuperBlock.ofBytes e (f.take 64)), none), f) := by
  rcases ReadAtLeast_header f with ⟨h1, -⟩ | ⟨-, hr⟩
  · omega
  · have ht : (f.take 64).take (superBlockSize - 8) = f.take 56 := by
      simp [superBlockSize, List.take_take]
    simp only [OpenFZ, hr, Option.getD_some, Bool.false_eq_true, if_false, ht]

theorem fnv64_lt (data : List byte) : fnv64 data < 2 ^ 64 := by
  unfold fnv64
  have key : ∀ (l : List byte) (h0 : Nat), h0 < 2 ^ 64 →
      l.foldl (fun h c => ((h * 1099511628211) % 2 ^ 64) ^^^ c.val) h0 < 2 ^ 64 := by
    intro l
    induction l with
    | nil => intro h0 hh; simpa using hh
    | cons c r ih =>
      intro h0 _
      simp only [List.foldl_cons]
      apply ih
      apply Nat.xor_lt_two_pow
      · exact Nat.mod_lt _ (by norm_num)
      · have := c.isLt
        omega
  exact key data _ (by norm_num)

theorem Sync_eq (e : byte) (b : SuperBlock) (file : List byte) :
    b.Sync e file = (none, { b with superHash := fnv64 ((b.bytes e).take 56) },
      { b with superHash := fnv64 ((b.bytes e).take 56) }.bytes e ++ file.drop 64) := rfl

/-- C7: opening an existing file with `create = false` fails exactly when the file has fewer
than 64 bytes, or its first four bytes are not the magic, or its endianness byte is not the
host's, or the stored hash is not the FNV-64 hash of its first 56 bytes, or the stored root
offset is at least the size of the file; when it fails no super-block is returned, when it
does not the super-block read from the header is, and the file is left as it is. -/
theorem C7_open_existing_fails_iff_header_invalid (_endian : byte) (now : Int)
    (rnd f : List byte) :
    ((OpenFZ _endian now rnd (some f) false).1.2 ≠ none ↔
      (f.length < 64 ∨
       (SuperBlock.ofBytes _endian (f.take 64)).magic ≠ superBlockMagic ∨
       (SuperBlock.ofBytes _endian (f.take 64)).endian ≠ _endian ∨
       (SuperBlock.ofBytes _endian (f.take 64)).superHash ≠ fnv64 (f.take 56) ∨
       (SuperBlock.ofBytes _endian (f.take 64)).rootNode ≥ (f.length : Int))) ∧
    ((OpenFZ _endian now rnd (some f) false).1.2 ≠ none →
      (OpenFZ _endian now rnd (some f) false).1.1 = none) ∧
    ((OpenFZ _endian now rnd (some f) false).1.2 = none →
      (OpenFZ _endian now rnd (some f) false).1.1 =
        some (SuperBlock.ofBytes _endian (f.take 64))) ∧
    (OpenFZ _endian now rnd (some f) false).2 = f := by
  by_cases h : f.length < 64
  · obtain ⟨err, he⟩ := OpenFZ_existing_short _endian now rnd f h
    rw [he]
    simp [h]
  · have h64 : 64 ≤ f.length := by omega
    rw [OpenFZ_existing_long _endian now rnd f h64]
    by_cases h1 : (SuperBlock.ofBytes _endian (f.take 64)).magic ≠ superBlockMagic
    · simp [h1]
    · by_cases h2 : (SuperBlock.ofBytes _endian (f.take 64)).endian ≠ _endian
      · simp [h1, h2]
      · by_cases h3 : (SuperBlock.ofBytes _endian (f.take 64)).superHash ≠ fnv64 (f.take 56)
        · simp [h1, h2, h3]
        · by_cases h4 : (SuperBlock.ofBytes _endian (f.take 64)).rootNode ≥ (f.length : Int)
          · simp [h1, h2, h3, h4]
          · simp only [h1, h2, h3, h4, if_false]
            simp [h]

/-- C8: for a super-block whose fields fit their types, with the magic, the endianness of the
host and a root offset below the size of the file, `Sync` succeeds and writes the 64 bytes of
the header over the start of the file; the hash it stores, in the last 8 of them, is the FNV-64
hash of the 56 bytes before; `OpenFZ` with `create = false` accepts the file and returns the
super-block `Sync` left, whose `createdAt`, `size`, `count`, `salt` and `rootNode` are those
given. -/
theorem C8_header_round_trip (_endian : byte) (now : Int) (rnd file : List byte)
    (b : SuperBlock) (hwt : b.wellTyped) (hmagic : b.magic = superBlockMagic)
    (hend : b.endian = _endian)
    (hroot : b.rootNode < ((b.Sync _endian file).2.2.length : Int)) :
    (b.Sync _endian file).1 = none ∧
    (b.Sync _endian file).2.2.take 64 = (b.Sync _endian file).2.1.bytes _endian ∧
    (b.Sync _endian file).2.2.drop 64 = file.drop 64 ∧
    (b.Sync _endian file).2.1.superHash = fnv64 ((b.Sync _endian file).2.2.take 56) ∧
    ((b.Sync _endian file).2.2.drop 56).take 8 =
      memBytes _endian 8 (b.Sync _endian file).2.1.superHash ∧
    OpenFZ _endian now rnd (some (b.Sync _endian file).2.2) false =
      ((some (b.Sync _endian file).2.1, none), (b.Sync _endian file).2.2) ∧
    (b.Sync _endian file).2.1.createdAt = b.createdAt ∧
    (b.Sync _endian file).2.1.size = b.size ∧
    (b.Sync _endian file).2.1.count = b.count ∧
    (b.Sync _endian file).2.1.salt = b.salt ∧
    (b.Sync _endian file).2.1.rootNode = b.rootNode := by
  rw [Sync_eq] at hroot ⊢
  simp only at hroot ⊢
  generalize hx : fnv64 ((b.bytes _endian).take 56) = x at hroot ⊢
  have hxlt : x < 2 ^ 64 := by rw [← hx]; exact fnv64_lt _
  have hwt1 : ({ b with superHash := x } : SuperBlock).wellTyped := by
    obtain ⟨h1, h2, h3, h4, h5, h6, h7, h8, -⟩ := hwt
    exact ⟨h1, h2, h3, h4, h5, h6, h7, h8, hxlt⟩
  have hlen := SuperBlock.bytes_length _endian _ hwt1
  have htake : (({ b with superHash := x } : SuperBlock).bytes _endian ++ file.drop 64).take 64
      = ({ b with superHash := x } : SuperBlock).bytes _endian := by
    rw [List.take_append_of_le_length (by omega), List.take_of_length_le (by omega)]
  have h56 : (({ b with superHash := x } : SuperBlock).bytes _endian ++ file.drop 64).take 56
      = (b.bytes _endian).take 56 := by
    rw [List.take_append_of_le_length (by omega)]
    exact SuperBlock.bytes_take_56 _endian b hwt x
  have hlast : ((({ b with superHash := x } : SuperBlock).bytes _endian ++ file.drop 64).drop
      56).take 8 = memBytes _endian 8 x := by
    have e9 := congrArg SuperBlock.superHash
      (SuperBlock.ofBytes_bytes _endian _ hwt1)
    have : ((({ b with superHash := x } : SuperBlock).bytes _endian ++ file.drop 64).drop
        56).take 8 = ((({ b with superHash := x } : SuperBlock).bytes _endian).drop 56).take 8 := by
      rw [List.drop_append_of_le_length (by omega), List.take_append_of_le_length
        (by rw [List.length_drop]; omega)]
    rw [this]
    have hl : (((({ b with superHash := x } : SuperBlock).bytes _endian).drop 56).take 8).length
        = 8 := by
      rw [List.length_take, List.length_drop]; omega
    have := memBytes_memNat _endian
      (((({ b with superHash := x } : SuperBlock).bytes _endian).drop 56).take 8)
    rw [hl] at this
    rw [← this]
    congr 1
  refine ⟨trivial, htake, ?_, ?_, hlast, ?_, trivial, trivial, trivial, trivial, trivial⟩
  · rw [List.drop_append_of_le_length (by omega), List.drop_of_length_le (by omega)]
    simp
  · rw [h56, hx]
  · have hl64 : 64 ≤ (({ b with superHash := x } : SuperBlock).bytes _endian
        ++ file.drop 64).length := by
      rw [List.length_append]; omega
    rw [OpenFZ_existing_long _endian now rnd _ hl64, htake, h56,
      SuperBlock.ofBytes_bytes _endian _ hwt1]
    have c1 : ¬ (({ b with superHash := x } : SuperBlock).magic ≠ superBlockMagic) := by
      simpa using hmagic
    have c2 : ¬ (({ b with superHash := x } : SuperBlock).endian ≠ _endian) := by
      simpa using hend
    have c3 : ¬ (({ b with superHash := x } : SuperBlock).superHash
        ≠ fnv64 ((b.bytes _endian).take 56)) := by
      simpa using hx.symm
    have c4 : ¬ (({ b with superHash := x } : SuperBlock).rootNode ≥
        (((({ b with superHash := x } : SuperBlock).bytes _endian
        ++ file.drop 64).length : Nat) : Int)) := by
      simpa using hroot
    simp only [c1, c2, c3, c4, if_false]

/-- C8 at the sample super-block of 5 records, written to an empty file. -/
theorem C8_header_round_trip_witness :
    (sampleSuperBlock.wellTyped ∧ sampleSuperBlock.magic = superBlockMagic ∧
      sampleSuperBlock.endian = 1 ∧
      sampleSuperBlock.rootNode < ((sampleSuperBlock.Sync 1 []).2.2.length : Int)) ∧
    ((OpenFZ 1 0 [] (some (sampleSuperBlock.Sync 1 []).2.2) false).1.1.map
      (fun sb => sb.count)) = some 5 :=
  ⟨⟨by decide, by decide, by decide, by decide⟩, by
    have h := (C8_header_round_trip 1 0 [] [] sampleSuperBlock (by decide) (by decide)
      (by decide) (by decide)).2.2.2.2.2.1
    rw [h]
    rfl⟩

set_option maxRecDepth 1000000 in
/-- C9 refuted: `sampleFile` is not empty and holds a valid header, that of 5 records
(`OpenFZ` with `create = false` accepts it), yet `OpenFZ` with `create = true` resets it: it
returns a super-block of 0 records and leaves another content in the file. And an absent file
opened with `create = false` gets no header: the call fails and the file stays empty. -/
theorem C9_fresh_header_iff_absent_counterexample :
    sampleFile ≠ [] ∧
    (OpenFZ 1 2000 [] (some sampleFile) false).1.2 = none ∧
    (OpenFZ 1 2000 [] (some sampleFile) false).1.1.map (fun sb => sb.count) = some 5 ∧
    (OpenFZ 1 2000 [] (some sampleFile) true).1.1.map (fun sb => sb.count) = some 0 ∧
    (OpenFZ 1 2000 [] (some sampleFile) true).2 ≠ sampleFile ∧
    OpenFZ 1 2000 [] none false = ((none, some Error.EOF), []) := by
  decide

theorem OpenFZ_no_create_file (e : byte) (now : Int) (rnd : List byte)
    (path : Option (List byte)) : (OpenFZ e now rnd path false).2 = path.getD [] := by
  have h0 : OpenFZ e now rnd path false = OpenFZ e now rnd (some (path.getD [])) false := by
    cases path <;> rfl
  rw [h0]
  by_cases h : (path.getD []).length < 64
  · obtain ⟨err, he⟩ := OpenFZ_existing_short e now rnd _ h
    rw [he]
  · rw [OpenFZ_existing_long e now rnd _ (by omega)]
    split_ifs <;> rfl

/-- The super-block `OpenFZ` fills in before `Sync` when `create` is set. -/
theorem fresh_wellTyped (e : byte) (now : Int) (rnd : List byte) :
    (⟨superBlockMagic, e, List.replicate 7 0, (now % (2 : Int) ^ 32).toNat, 0, 0,
      rnd.take 16 ++ List.replicate (16 - rnd.length) 0, 0, 0⟩ : SuperBlock).wellTyped := by
  have h3 : 0 ≤ now % (2 : Int) ^ 32 := Int.emod_nonneg _ (by norm_num)
  have h4 : now % (2 : Int) ^ 32 < (2 : Int) ^ 32 := Int.emod_lt_of_pos _ (by norm_num)
  refine ⟨rfl, by simp, ?_, by norm_num, by norm_num, ?_, by norm_num, by norm_num,
    by norm_num⟩
  · show (now % (2 : Int) ^ 32).toNat < 2 ^ 32
    omega
  · simp only [List.length_append, List.length_take, List.length_replicate]
    omega

theorem OpenFZ_create (e : byte) (now : Int) (rnd : List byte) (path : Option (List byte)) :
    OpenFZ e now rnd path true =
      ((some ((⟨superBlockMagic, e, List.replicate 7 0, (now % (2 : Int) ^ 32).toNat, 0, 0,
          rnd.take 16 ++ List.replicate (16 - rnd.length) 0, 0, 0⟩ : SuperBlock).Sync e
          (path.getD [])).2.1, none),
       ((⟨superBlockMagic, e, List.replicate 7 0, (now % (2 : Int) ^ 32).toNat, 0, 0,
          rnd.take 16 ++ List.replicate (16 - rnd.length) 0, 0, 0⟩ : SuperBlock).Sync e
          (path.getD [])).2.2) := by
  cases hrd : ReadAtLeast (path.getD []) 0 superBlockSize with
  | mk rd pos =>
    cases rd <;> (simp only [OpenFZ, hrd]; rfl)

/-- C9 as amended: with `create = true`, whatever the file holds, `OpenFZ` succeeds, writes
over the first 64 bytes the header of the super-block it returns, and that super-block is
fresh: the magic, the endianness of the host, `createdAt` taken from the clock, size, count
and root offset 0, the salt drawn, and the FNV-64 hash of the 56 bytes before it. With
`create = false` the file is left as it is. -/
theorem C9_fresh_header_iff_create (_endian : byte) (now : Int) (rnd : List byte)
    (path : Option (List byte)) :
    (∃ sb, OpenFZ _endian now rnd path true =
        ((some sb, none), sb.bytes _endian ++ (path.getD []).drop 64) ∧
      sb.magic = superBlockMagic ∧ sb.endian = _endian ∧
      sb.createdAt = (now % (2 : Int) ^ 32).toNat ∧ sb.size = 0 ∧ sb.count = 0 ∧
      sb.rootNode = 0 ∧ sb.salt = rnd.take 16 ++ List.replicate (16 - rnd.length) 0 ∧
      sb.superHash = fnv64 ((sb.bytes _endian).take 56)) ∧
    (OpenFZ _endian now rnd path false).2 = path.getD [] := by
  constructor
  · refine ⟨_, OpenFZ_create _endian now rnd path, ?_, ?_, ?_, ?_, ?_, ?_, ?_, ?_⟩
    · rfl
    · rfl
    · rfl
    · rfl
    · rfl
    · rfl
    · rfl
    · rw [Sync_eq]
      have h := fun y =>
        SuperBlock.bytes_take_56 _endian _ (fresh_wellTyped _endian now rnd) y
      dsimp only at h ⊢
      exact (congrArg fnv64 (h _)).symm
  · exact OpenFZ_no_create_file _endian now rnd path

end fz


/-! ## Storing a node: where `sync` puts it, what it stages, and the way back -/

namespace fz
namespace nodeBlock

theorem pendingGet_pendingSet (l : List (Nat × blockImage)) (id : Nat) (x : blockImage) :
    pendingGet (pendingSet l id x) id = some x := by
  simp [pendingGet, pendingSet]

theorem pendingGet_pendingSet_other (l : List (Nat × blockImage)) (id id1 : Nat)
    (x : blockImage) (h : id1 ≠ id) :
    pendingGet (pendingSet l id x) id1 = pendingGet l id1 := by
  unfold pendingGet pendingSet
  rw [List.find?_cons]
  have h0 : ¬ id = id1 := fun e => h e.symm
  simp only [h0, decide_False]
  congr 1
  induction l with
  | nil => rfl
  | cons e r ih =>
    simp only [List.filter_cons, List.find?_cons]
    by_cases he : e.1 = id
    · have h1 : ¬ e.1 = id1 := by rw [he]; exact h0
      simp only [he, ne_eq, not_true_eq_false, decide_False, Bool.false_eq_true, if_false]
      rw [ih]
      simp [← he, h1]
    · simp only [ne_eq, he, not_false_eq_true, decide_True, if_true, List.find?_cons]
      rw [ih]

/-- What `sync` does on a node that is given an offset from the mapped region. -/
theorem sync_mapped (nodeBlockSize : Int) (n : nodeStruct) (sb : superState)
    (hnew : n.image.offset = 0) (hfit : sb.mmapSizeUsed + nodeBlockSize < sb.mmapSize) :
    sync nodeBlockSize n sb =
      if 0 ≤ sb.mmapSizeUsed ∧ sb.mmapSizeUsed ≤ sb._mmap.len then
        some (none, n.setOffset sb.mmapSizeUsed,
          superState.setPending
            ⟨sb.mmapSize, sb.mmapSizeUsed + nodeBlockSize,
              ⟨sb._mmap.len,
                (sb.mmapSizeUsed, (n.setOffset sb.mmapSizeUsed).image) :: sb._mmap.blocks⟩,
              sb._fd, sb._snapshotChPending⟩ n.id (n.setOffset sb.mmapSizeUsed).image)
      else none := by
  unfold sync syncOffset
  rw [if_pos hnew, if_pos hfit]
  rfl

/-- What `sync` does on a node that is not given an offset from the mapped region: `n1` and
`sb1` are the node and the super-block when the image is taken. -/
theorem sync_filed (nodeBlockSize : Int) (n n1 : nodeStruct) (sb sb1 : superState)
    (h : syncOffset nodeBlockSize n sb = (none, false, n1, sb1)) :
    sync nodeBlockSize n sb =
      match sb1._fd.SeekStart n1.image.offset with
      | (some err, fd1) => some (some err, n1, sb1.setFd fd1)
      | (none, fd1) =>
        match fd1.Write nodeBlockSize n1.image with
        | (some err, fd2) => some (some err, n1, sb1.setFd fd2)
        | (none, fd2) => some (none, n1, (sb1.setFd fd2).setPending n1.id n1.image) := by
  unfold sync
  rw [h]
  rfl

/-- The cases of the first part of `sync`. -/
theorem syncOffset_cases (nodeBlockSize : Int) (n : nodeStruct) (sb : superState) :
    (n.image.offset ≠ 0 ∧ syncOffset nodeBlockSize n sb = (none, false, n, sb)) ∨
    (n.image.offset = 0 ∧ sb.mmapSizeUsed + nodeBlockSize < sb.mmapSize ∧
      syncOffset nodeBlockSize n sb = (none, true, n.setOffset sb.mmapSizeUsed,
        ⟨sb.mmapSize, sb.mmapSizeUsed + nodeBlockSize, sb._mmap, sb._fd,
          sb._snapshotChPending⟩)) ∨
    (n.image.offset = 0 ∧ sb.mmapSize ≤ sb.mmapSizeUsed + nodeBlockSize ∧
      sb._fd.seekFault = none ∧
      syncOffset nodeBlockSize n sb = (none, false, n.setOffset sb._fd.size,
        sb.setFd ⟨sb._fd.size, sb._fd.size, sb._fd.blocks, none, sb._fd.writeFault⟩)) ∨
    (∃ e, n.image.offset = 0 ∧ sb.mmapSize ≤ sb.mmapSizeUsed + nodeBlockSize ∧
      sb._fd.seekFault = some e ∧
      syncOffset nodeBlockSize n sb = (some e, false, n.setOffset 0, sb.setFd sb._fd)) := by
  unfold syncOffset
  by_cases h0 : n.image.offset = 0
  · rw [if_pos h0]
    by_cases hfit : sb.mmapSizeUsed + nodeBlockSize < sb.mmapSize
    · rw [if_pos hfit]
      exact Or.inr (Or.inl ⟨h0, hfit, rfl⟩)
    · rw [if_neg hfit]
      cases hf : sb._fd.seekFault with
      | none =>
        refine Or.inr (Or.inr (Or.inl ⟨h0, by omega, rfl, ?_⟩))
        simp only [blockFile.SeekEnd, hf]
      | some e =>
        refine Or.inr (Or.inr (Or.inr ⟨e, h0, by omega, rfl, ?_⟩))
        simp only [blockFile.SeekEnd, hf]
  · rw [if_neg h0]
    exact Or.inl ⟨h0, rfl⟩

/-- What `sync` leaves, case by case: with `n1` and `sb1` the node and the super-block after
the first part, either the block was copied into the mapped region, or it was written to the
file, or `Seek` or `Write` failed and only the file may have changed. -/
theorem sync_result (nodeBlockSize : Int) (n : nodeStruct) (sb : superState)
    (err : Option Error) (n2 : nodeStruct) (sb2 : superState)
    (h : sync nodeBlockSize n sb = some (err, n2, sb2)) :
    ∃ e0 mm sb1, syncOffset nodeBlockSize n sb = (e0, mm, n2, sb1) ∧
      ((err = none ∧ e0 = none ∧ mm = true ∧
          sb2 = superState.setPending ⟨sb1.mmapSize, sb1.mmapSizeUsed,
            ⟨sb1._mmap.len, (n2.image.offset, n2.image) :: sb1._mmap.blocks⟩, sb1._fd,
            sb1._snapshotChPending⟩ n2.id n2.image) ∨
       (err = none ∧ e0 = none ∧ mm = false ∧ ∃ fd2,
          fd2.blocks.head? = some (n2.image.offset, n2.image) ∧
          sb2 = (sb1.setFd fd2).setPending n2.id n2.image) ∨
       (err ≠ none ∧ ∃ fd2, sb2 = sb1.setFd fd2)) := by
  unfold sync at h
  rcases hso : syncOffset nodeBlockSize n sb with ⟨e0, mm, n1, sb1⟩
  rw [hso] at h
  cases e0 with
  | some e =>
    simp only [Option.some.injEq, Prod.mk.injEq] at h
    obtain ⟨h1, h2, h3⟩ := h
    subst h1 h2 h3
    exact ⟨_, _, _, rfl, Or.inr (Or.inr ⟨by simp, sb1._fd, rfl⟩)⟩
  | none =>
    cases mm with
    | true =>
      simp only [if_true] at h
      split at h
      · simp only [Option.some.injEq, Prod.mk.injEq] at h
        obtain ⟨h1, h2, h3⟩ := h
        subst h1 h2
        exact ⟨_, _, _, rfl, Or.inl ⟨rfl, rfl, rfl, h3.symm⟩⟩
      · exact Option.noConfusion h
    | false =>
      simp only [Bool.false_eq_true, if_false] at h
      rcases hs : sb1._fd.SeekStart n1.image.offset with ⟨e1, fd1⟩
      rw [hs] at h
      cases e1 with
      | some e =>
        simp only [Option.some.injEq, Prod.mk.injEq] at h
        obtain ⟨h1, h2, h3⟩ := h
        subst h1 h2 h3
        exact ⟨_, _, _, rfl, Or.inr (Or.inr ⟨by simp, fd1, rfl⟩)⟩
      | none =>
        simp only at h
        rcases hw : fd1.Write nodeBlockSize n1.image with ⟨e2, fd2⟩
        rw [hw] at h
        cases e2 with
        | some e =>
          simp only [Option.some.injEq, Prod.mk.injEq] at h
          obtain ⟨h1, h2, h3⟩ := h
          subst h1 h2 h3
          exact ⟨_, _, _, rfl, Or.inr (Or.inr ⟨by simp, fd2, rfl⟩)⟩
        | none =>
          simp only [Option.some.injEq, Prod.mk.injEq] at h
          obtain ⟨h1, h2, h3⟩ := h
          subst h1 h2 h3
          refine ⟨_, _, _, rfl, Or.inr (Or.inl ⟨rfl, rfl, rfl, fd2, ?_, rfl⟩)⟩
          unfold blockFile.Write at hw
          split at hw
          · simp at hw
          · simp only [Prod.mk.injEq, true_and] at hw
            have hpos : fd1.pos = n1.image.offset := by
              unfold blockFile.SeekStart at hs
              split at hs
              · simp at hs
              · split at hs
                · simp at hs
                · simp only [Prod.mk.injEq, true_and] at hs
                  rw [← hs]
            rw [← hw, hpos]
            rfl

/-- What the first part of `sync` leaves alone, and when it moves the bump offset. -/
theorem syncOffset_frame (nodeBlockSize : Int) (n : nodeStruct) (sb : superState)
    (e0 : Option Error) (mm : Bool) (n1 : nodeStruct) (sb1 : superState)
    (h : syncOffset nodeBlockSize n sb = (e0, mm, n1, sb1)) :
    n1 = n.setOffset n1.image.offset ∧
    sb1._snapshotChPending = sb._snapshotChPending ∧ sb1.mmapSize = sb.mmapSize ∧
    sb1._mmap = sb._mmap ∧
    (n.image.offset ≠ 0 → n1 = n ∧ sb1 = sb ∧ mm = false ∧ e0 = none) ∧
    (mm = true → n.image.offset = 0 ∧ sb.mmapSizeUsed + nodeBlockSize < sb.mmapSize ∧
      n1.image.offset = sb.mmapSizeUsed ∧ sb1.mmapSizeUsed = sb.mmapSizeUsed + nodeBlockSize ∧
      sb1._fd = sb._fd ∧ e0 = none) ∧
    (mm = false → sb1.mmapSizeUsed = sb.mmapSizeUsed) := by
  rcases syncOffset_cases nodeBlockSize n sb with ⟨h0, hc⟩ | ⟨h0, hfit, hc⟩ | ⟨h0, hfit, hf, hc⟩ |
    ⟨e, h0, hfit, hf, hc⟩
  all_goals
    rw [hc] at h
    simp only [Prod.mk.injEq] at h
    obtain ⟨h1, h2, h3, h4⟩ := h
    subst h1 h2 h3 h4
  · exact ⟨rfl, rfl, rfl, rfl, fun _ => ⟨rfl, rfl, rfl, rfl⟩, fun hm => Bool.noConfusion hm,
      fun _ => rfl⟩
  · exact ⟨rfl, rfl, rfl, rfl, fun hn => absurd h0 hn, fun _ => ⟨h0, hfit, rfl, rfl, rfl, rfl⟩,
      fun hm => Bool.noConfusion hm⟩
  · exact ⟨rfl, rfl, rfl, rfl, fun hn => absurd h0 hn, fun hm => Bool.noConfusion hm,
      fun _ => rfl⟩
  · exact ⟨rfl, rfl, rfl, rfl, fun hn => absurd h0 hn, fun hm => Bool.noConfusion hm,
      fun _ => rfl⟩

/-- One call of `sync` that returns does not lower the bump offset, and it leaves the offset of
a node that has one. -/
theorem sync_step (nodeBlockSize : Int) (hsize : 0 ≤ nodeBlockSize) (n : nodeStruct)
    (sb : superState) (err : Option Error) (n2 : nodeStruct) (sb2 : superState)
    (h : sync nodeBlockSize n sb = some (err, n2, sb2)) :
    sb.mmapSizeUsed ≤ sb2.mmapSizeUsed ∧ sb2.mmapSize = sb.mmapSize ∧
    sb2._mmap.len = sb._mmap.len ∧
    (n.image.offset ≠ 0 → n2.image.offset = n.image.offset ∧
      sb2.mmapSizeUsed = sb.mmapSizeUsed) := by
  obtain ⟨e0, mm, sb1, hso, hcase⟩ := sync_result nodeBlockSize n sb err n2 sb2 h
  obtain ⟨-, -, hsz, hmap, hold, hmm, hnm⟩ := syncOffset_frame nodeBlockSize n sb e0 mm n2 sb1 hso
  have hused : sb2.mmapSizeUsed = sb1.mmapSizeUsed ∧ sb2.mmapSize = sb1.mmapSize ∧
      sb2._mmap.len = sb1._mmap.len := by
    rcases hcase with ⟨-, -, -, h2⟩ | ⟨-, -, -, fd2, -, h2⟩ | ⟨-, fd2, h2⟩ <;> rw [h2] <;>
      exact ⟨rfl, rfl, rfl⟩
  have hmono : sb.mmapSizeUsed ≤ sb1.mmapSizeUsed := by
    cases mm with
    | true => rw [(hmm rfl).2.2.2.1]; omega
    | false => rw [hnm rfl]
  refine ⟨by rw [hused.1]; exact hmono, by rw [hused.2.1, hsz], by rw [hused.2.2, hmap], ?_⟩
  intro hn
  obtain ⟨h1, h2, -, -⟩ := hold hn
  rw [hused.1, h1, h2]
  exact ⟨rfl, rfl⟩

/-- A call of `sync` returns when the bump offset is not negative and the mapped region is at
least as long as `mmapSize`. -/
theorem sync_returns (nodeBlockSize : Int) (hsize : 0 ≤ nodeBlockSize) (n : nodeStruct)
    (sb : superState) (hused : 0 ≤ sb.mmapSizeUsed) (hlen : sb.mmapSize ≤ sb._mmap.len) :
    ∃ r, sync nodeBlockSize n sb = some r := by
  rcases syncOffset_cases nodeBlockSize n sb with ⟨h0, hc⟩ | ⟨h0, hfit, hc⟩ | ⟨h0, hfit, hf, hc⟩ |
    ⟨e, h0, hfit, hf, hc⟩
  · rw [sync_filed nodeBlockSize n _ sb _ hc]
    split
    · exact ⟨_, rfl⟩
    · split <;> exact ⟨_, rfl⟩
  · rw [sync_mapped nodeBlockSize n sb h0 hfit, if_pos ⟨hused, by omega⟩]
    exact ⟨_, rfl⟩
  · rw [sync_filed nodeBlockSize n _ sb _ hc]
    split
    · exact ⟨_, rfl⟩
    · split <;> exact ⟨_, rfl⟩
  · unfold sync
    rw [hc]
    exact ⟨_, rfl⟩

/-- A run of `sync` calls that returns does not lower the bump offset, and leaves the offset
of every node that had one. -/
theorem syncEach_step (nodeBlockSize : Int) (hsize : 0 ≤ nodeBlockSize) :
    ∀ (ids : List Nat) (nodes : Nat → nodeStruct) (sb : superState)
      (nodes1 : Nat → nodeStruct) (sb1 : superState),
      syncEach nodeBlockSize ids nodes sb = some (nodes1, sb1) →
      sb.mmapSizeUsed ≤ sb1.mmapSizeUsed ∧
      ∀ i, (nodes i).image.offset ≠ 0 → (nodes1 i).image.offset = (nodes i).image.offset := by
  intro ids
  induction ids with
  | nil =>
    intro nodes sb nodes1 sb1 h
    simp only [syncEach, Option.some.injEq, Prod.mk.injEq] at h
    obtain ⟨h1, h2⟩ := h
    subst h1 h2
    exact ⟨Int.le_refl _, fun _ _ => rfl⟩
  | cons i rest ih =>
    intro nodes sb nodes1 sb1 h
    rw [syncEach] at h
    rcases hs : sync nodeBlockSize (nodes i) sb with _ | ⟨err, n2, sb2⟩
    · rw [hs] at h
      exact Option.noConfusion h
    · rw [hs] at h
      obtain ⟨hm, -, -, hold⟩ := sync_step nodeBlockSize hsize (nodes i) sb err n2 sb2 hs
      obtain ⟨hm1, hold1⟩ := ih _ sb2 nodes1 sb1 h
      refine ⟨Int.le_trans hm hm1, ?_⟩
      intro j hj
      by_cases hji : j = i
      · subst hji
        have h2 := hold1 j
        simp only [if_true] at h2
        rw [h2 (by rw [(hold hj).1]; exact hj), (hold hj).1]
      · have h2 := hold1 j
        simp only [hji, if_false] at h2
        exact h2 hj

/-- A run of `sync` calls returns when the bump offset is not negative and the mapped region
is at least as long as `mmapSize`. -/
theorem syncEach_returns (nodeBlockSize : Int) (hsize : 0 ≤ nodeBlockSize) :
    ∀ (ids : List Nat) (nodes : Nat → nodeStruct) (sb : superState),
      0 ≤ sb.mmapSizeUsed → sb.mmapSize ≤ sb._mmap.len →
      ∃ r, syncEach nodeBlockSize ids nodes sb = some r := by
  intro ids
  induction ids with
  | nil => exact fun nodes sb _ _ => ⟨_, rfl⟩
  | cons i rest ih =>
    intro nodes sb hused hlen
    obtain ⟨⟨err, n2, sb2⟩, hs⟩ := sync_returns nodeBlockSize hsize (nodes i) sb hused hlen
    obtain ⟨hm, hsz, hl, -⟩ := sync_step nodeBlockSize hsize (nodes i) sb err n2 sb2 hs
    rw [syncEach, hs]
    exact ih _ sb2 (Int.le_trans hused hm) (by rw [hsz, hl]; exact hlen)

/-- C15 as it stands fails where the block ends exactly at the end of the mapped region: with
blocks of 4096 bytes and 4096 of 8192 bytes taken, the sum does not exceed `mmapSize`, and
`sync` gives the node the end of the file, 16384, and leaves `mmapSizeUsed` at 4096. -/
theorem C15_sync_at_exact_capacity_counterexample :
    (sampleNode 1).image.offset = 0 ∧
    ¬ ((sampleSuper 8192 4096 none).mmapSizeUsed + 4096 > (sampleSuper 8192 4096 none).mmapSize) ∧
    ∃ n1 sb1, sync 4096 (sampleNode 1) (sampleSuper 8192 4096 none) = some (none, n1, sb1) ∧
      n1.image.offset = 16384 ∧ n1.image.offset ≠ (sampleSuper 8192 4096 none).mmapSizeUsed ∧
      sb1.mmapSizeUsed = 4096 ∧
      sb1.mmapSizeUsed ≠ (sampleSuper 8192 4096 none).mmapSizeUsed + 4096 :=
  ⟨rfl, by decide, _, _, rfl, rfl, by decide, rfl, by decide⟩

/-- C15, amended: for a node whose offset is 0. When `mmapSizeUsed + nodeBlockSize` is
strictly below `mmapSize` (and the bump offset lies in the mapped region), `sync` succeeds, the
offset of the node is the former `mmapSizeUsed`, and `mmapSizeUsed` has grown by exactly
`nodeBlockSize`. When the sum is `mmapSize` or more, `sync` returns with `mmapSizeUsed` as it
was; the offset of the node is the length of the file when `Seek` succeeds, and it stays 0
with the error returned when `Seek` fails. -/
theorem C15_sync_offset_by_strict_capacity (nodeBlockSize : Int) (n : nodeStruct)
    (sb : superState) (hnew : n.image.offset = 0) :
    (sb.mmapSizeUsed + nodeBlockSize < sb.mmapSize → 0 ≤ sb.mmapSizeUsed →
      sb.mmapSizeUsed ≤ sb._mmap.len →
      ∃ n1 sb1, sync nodeBlockSize n sb = some (none, n1, sb1) ∧
        n1.image.offset = sb.mmapSizeUsed ∧
        sb1.mmapSizeUsed = sb.mmapSizeUsed + nodeBlockSize) ∧
    (sb.mmapSize ≤ sb.mmapSizeUsed + nodeBlockSize →
      ∃ err n1 sb1, sync nodeBlockSize n sb = some (err, n1, sb1) ∧
        sb1.mmapSizeUsed = sb.mmapSizeUsed ∧
        (sb._fd.seekFault = none → n1.image.offset = sb._fd.size) ∧
        (∀ e, sb._fd.seekFault = some e → err = some e ∧ n1.image.offset = 0)) := by
  refine ⟨?_, ?_⟩
  · intro hfit h0 hlen
    rw [sync_mapped nodeBlockSize n sb hnew hfit, if_pos ⟨h0, hlen⟩]
    exact ⟨_, _, rfl, rfl, rfl⟩
  · intro hfull
    rcases syncOffset_cases nodeBlockSize n sb with ⟨h0, -⟩ | ⟨-, hfit, -⟩ | ⟨-, -, hf, hc⟩ |
      ⟨e, -, -, hf, hc⟩
    · exact absurd hnew h0
    · omega
    · rw [sync_filed nodeBlockSize n _ sb _ hc]
      have hno : ∀ e, sb._fd.seekFault = some e → False := by
        intro e he
        rw [hf] at he
        exact Option.noConfusion he
      split
      · exact ⟨_, _, _, rfl, rfl, fun _ => rfl, fun e he => (hno e he).elim⟩
      · split
        · exact ⟨_, _, _, rfl, rfl, fun _ => rfl, fun e he => (hno e he).elim⟩
        · exact ⟨_, _, _, rfl, rfl, fun _ => rfl, fun e he => (hno e he).elim⟩
    · refine ⟨some e, n.setOffset 0, sb.setFd sb._fd, ?_, rfl, ?_, ?_⟩
      · unfold sync
        rw [hc]
      · intro hn
        rw [hf] at hn
        exact Option.noConfusion hn
      · intro e1 he1
        rw [hf] at he1
        exact ⟨by rw [Option.some.inj he1], rfl⟩

/-- C15, amended, on a region with room for the block and more (4096 + 4056 < 16384), and on
a region where the block would end exactly at its end (4136 + 4056 = 8192). -/
theorem C15_sync_offset_by_strict_capacity_witness :
    (∃ n1 sb1, sync 4056 (sampleNode 1) (sampleSuper 16384 4096 none) = some (none, n1, sb1) ∧
      n1.image.offset = 4096 ∧ sb1.mmapSizeUsed = 4096 + 4056) ∧
    (∃ err n1 sb1, sync 4056 (sampleNode 1) (sampleSuper 8192 4136 none) = some (err, n1, sb1) ∧
      sb1.mmapSizeUsed = 4136 ∧ n1.image.offset = 16384) :=
  ⟨(C15_sync_offset_by_strict_capacity 4056 (sampleNode 1) (sampleSuper 16384 4096 none) rfl).1
      (by decide) (by decide) (by decide),
   ((C15_sync_offset_by_strict_capacity 4056 (sampleNode 1) (sampleSuper 8192 4136 none) rfl).2
      (by decide)).imp fun _ h => h.imp fun _ h => h.imp fun _ h => ⟨h.1, h.2.1, h.2.2.1 rfl⟩⟩

/-- C16: with a block size that is not negative. A call of `sync` on a node whose offset is
not 0 returns, with that offset and `mmapSizeUsed` as they were. A call of `sync` that returns
leaves `mmapSizeUsed` at least as large as it was. Over a run of `sync` calls on any nodes in
any order, `mmapSizeUsed` at the end is at least what it was and every node whose offset was
not 0 has the same offset; and the run does return when `mmapSizeUsed` is not negative and the
mapped region is at least as long as `mmapSize`. -/
theorem C16_sync_allocates_once_and_only_grows (nodeBlockSize : Int)
    (hsize : 0 ≤ nodeBlockSize) :
    (∀ n sb, n.image.offset ≠ 0 →
      ∃ err n1 sb1, sync nodeBlockSize n sb = some (err, n1, sb1) ∧
        n1.image.offset = n.image.offset ∧ sb1.mmapSizeUsed = sb.mmapSizeUsed) ∧
    (∀ n sb err n1 sb1, sync nodeBlockSize n sb = some (err, n1, sb1) →
      sb.mmapSizeUsed ≤ sb1.mmapSizeUsed) ∧
    (∀ ids nodes sb nodes1 sb1, syncEach nodeBlockSize ids nodes sb = some (nodes1, sb1) →
      sb.mmapSizeUsed ≤ sb1.mmapSizeUsed ∧
      ∀ i, (nodes i).image.offset ≠ 0 → (nodes1 i).image.offset = (nodes i).image.offset) ∧
    (∀ ids nodes sb, 0 ≤ sb.mmapSizeUsed → sb.mmapSize ≤ sb._mmap.len →
      ∃ r, syncEach nodeBlockSize ids nodes sb = some r) := by
  refine ⟨?_, ?_, syncEach_step nodeBlockSize hsize, syncEach_returns nodeBlockSize hsize⟩
  · intro n sb hn
    have hc : syncOffset nodeBlockSize n sb = (none, false, n, sb) := by
      unfold syncOffset
      rw [if_neg hn]
    have hret : ∃ r, sync nodeBlockSize n sb = some r := by
      rw [sync_filed nodeBlockSize n _ sb _ hc]
      split
      · exact ⟨_, rfl⟩
      · split <;> exact ⟨_, rfl⟩
    obtain ⟨⟨err, n1, sb1⟩, hs⟩ := hret
    obtain ⟨-, -, -, hold⟩ := sync_step nodeBlockSize hsize n sb err n1 sb1 hs
    exact ⟨err, n1, sb1, hs, hold hn⟩
  · intro n sb err n1 sb1 hs
    exact (sync_step nodeBlockSize hsize n sb err n1 sb1 hs).1

/-- C16 on three calls, two of them on the same node: the node gets the offset 4096 in the
first call and keeps it in the third, and the bump offset ends at 4096 + 2 * 4056. -/
theorem C16_sync_allocates_once_and_only_grows_witness :
    (0 : Int) ≤ 4056 ∧
    (∃ nodes1 sb1, syncEach 4056 [1, 2, 1] sampleNode (sampleSuper 16384 4096 none) =
        some (nodes1, sb1) ∧
      (4096 : Int) ≤ sb1.mmapSizeUsed) ∧
    (∃ err n1 sb1, sync 4056 ((sampleNode 1).setOffset 4096) (sampleSuper 16384 8152 none) =
        some (err, n1, sb1) ∧ n1.image.offset = 4096 ∧ sb1.mmapSizeUsed = 8152) := by
  have h := C16_sync_allocates_once_and_only_grows 4056 (by decide)
  refine ⟨by decide, ?_, ?_⟩
  · obtain ⟨⟨nodes1, sb1⟩, hr⟩ := h.2.2.2 [1, 2, 1] sampleNode (sampleSuper 16384 4096 none)
      (by decide) (by decide)
    exact ⟨nodes1, sb1, hr, (h.2.2.1 _ _ _ _ _ hr).1⟩
  · exact h.1 ((sampleNode 1).setOffset 4096) (sampleSuper 16384 8152 none) (by decide)

/-- C17: when `sync` returns without an error, the map of pending snapshots holds under the
node the image of the node as the call leaves it, which is the image of the node as it was
with the offset it now has, and that image is the block last copied into the mapped region or
last written to the file, at that offset; the last snapshot of the node is as it was, and the
entry of every other node in the map is as it was. When `sync` returns an error, the map is
as it was and so is the last snapshot. And `sync` does return the error of a failing `Write`,
with the map as it was, on a node that has a positive offset when `Seek` does not fail. -/
theorem C17_sync_stages_the_image (nodeBlockSize : Int) (n : nodeStruct) (sb : superState) :
    (∀ n1 sb1, sync nodeBlockSize n sb = some (none, n1, sb1) →
      pendingGet sb1._snapshotChPending n.id = some n1.image ∧
      n1 = n.setOffset n1.image.offset ∧
      (sb1._mmap.blocks.head? = some (n1.image.offset, n1.image) ∨
        sb1._fd.blocks.head? = some (n1.image.offset, n1.image)) ∧
      n1._snapshot = n._snapshot ∧
      ∀ id, id ≠ n.id → pendingGet sb1._snapshotChPending id =
        pendingGet sb._snapshotChPending id) ∧
    (∀ err n1 sb1, sync nodeBlockSize n sb = some (some err, n1, sb1) →
      sb1._snapshotChPending = sb._snapshotChPending ∧ n1._snapshot = n._snapshot) ∧
    (∀ e, sb._fd.writeFault = some e → sb._fd.seekFault = none → 0 < n.image.offset →
      ∃ sb1, sync nodeBlockSize n sb = some (some e, n, sb1) ∧
        sb1._snapshotChPending = sb._snapshotChPending) := by
  refine ⟨?_, ?_, ?_⟩
  · intro n1 sb1 hs
    obtain ⟨e0, mm, sb0, hso, hcase⟩ := sync_result nodeBlockSize n sb none n1 sb1 hs
    obtain ⟨hn1, hpend, -, -, -, -, -⟩ := syncOffset_frame nodeBlockSize n sb e0 mm n1 sb0 hso
    have hid : n1.id = n.id := by rw [hn1]; rfl
    have hsnap : n1._snapshot = n._snapshot := by rw [hn1]; rfl
    rcases hcase with ⟨-, -, -, h2⟩ | ⟨-, -, -, fd2, hhead, h2⟩ | ⟨hne, -⟩
    · subst h2
      refine ⟨?_, hn1, Or.inl rfl, hsnap, ?_⟩
      · rw [← hid]
        exact pendingGet_pendingSet _ _ _
      · intro id hne
        show pendingGet (pendingSet sb0._snapshotChPending n1.id n1.image) id = _
        rw [pendingGet_pendingSet_other _ _ _ _ (by rw [hid]; exact hne), hpend]
    · subst h2
      refine ⟨?_, hn1, Or.inr hhead, hsnap, ?_⟩
      · rw [← hid]
        exact pendingGet_pendingSet _ _ _
      · intro id hne
        show pendingGet (pendingSet sb0._snapshotChPending n1.id n1.image) id = _
        rw [pendingGet_pendingSet_other _ _ _ _ (by rw [hid]; exact hne), hpend]
    · exact absurd rfl hne
  · intro err n1 sb1 hs
    obtain ⟨e0, mm, sb0, hso, hcase⟩ := sync_result nodeBlockSize n sb (some err) n1 sb1 hs
    obtain ⟨hn1, hpend, -, -, -, -, -⟩ := syncOffset_frame nodeBlockSize n sb e0 mm n1 sb0 hso
    have hsnap : n1._snapshot = n._snapshot := by rw [hn1]; rfl
    rcases hcase with ⟨h1, -⟩ | ⟨h1, -⟩ | ⟨-, fd2, h2⟩
    · exact Option.noConfusion h1
    · exact Option.noConfusion h1
    · subst h2
      exact ⟨hpend, hsnap⟩
  · intro e hw hsk hpos
    have hc : syncOffset nodeBlockSize n sb = (none, false, n, sb) := by
      unfold syncOffset
      rw [if_neg (by omega)]
    rw [sync_filed nodeBlockSize n _ sb _ hc]
    have h1 : sb._fd.SeekStart n.image.offset =
        (none, ⟨sb._fd.size, n.image.offset, sb._fd.blocks, sb._fd.seekFault,
          sb._fd.writeFault⟩) := by
      unfold blockFile.SeekStart
      rw [if_neg (by omega)]
      simp only [hsk]
    rw [h1]
    simp only [blockFile.Write, hw]
    exact ⟨_, rfl, rfl⟩

/-- C17 on a node stored at 4096 whose write succeeds, and whose write fails. -/
theorem C17_sync_stages_the_image_witness :
    (∃ sb1, sync 4056 ((sampleNode 1).setOffset 4096) (sampleSuper 8192 8152 none) =
        some (none, (sampleNode 1).setOffset 4096, sb1) ∧
      pendingGet sb1._snapshotChPending 1 = some ((sampleNode 1).setOffset 4096).image) ∧
    (∃ sb1, sync 4056 ((sampleNode 1).setOffset 4096)
        (sampleSuper 8192 8152 (some (Error.other 5))) =
        some (some (Error.other 5), (sampleNode 1).setOffset 4096, sb1) ∧
      sb1._snapshotChPending = []) :=
  ⟨⟨_, rfl, ((C17_sync_stages_the_image 4056 ((sampleNode 1).setOffset 4096)
      (sampleSuper 8192 8152 none)).1 _ _ rfl).1⟩,
   (C17_sync_stages_the_image 4056 ((sampleNode 1).setOffset 4096)
      (sampleSuper 8192 8152 (some (Error.other 5)))).2.2 (Error.other 5) rfl rfl (by decide)⟩

/-- C18: after `revertToLastSnapshot` the fields kept in the file, `magic`, `itemsSize`,
`childrenSize`, `offset`, `items` and `childrenOffset`, are those of the last snapshot, the
cache `_children` has its 64 entries and each is nil, the reference to the super-block and the
last snapshot are as they were, and a second `revertToLastSnapshot` changes nothing. -/
theorem C18_revert_restores_the_last_snapshot (n : nodeStruct) :
    (revertToLastSnapshot n).image.magic = n._snapshot.magic ∧
    (revertToLastSnapshot n).image.itemsSize = n._snapshot.itemsSize ∧
    (revertToLastSnapshot n).image.childrenSize = n._snapshot.childrenSize ∧
    (revertToLastSnapshot n).image.offset = n._snapshot.offset ∧
    (revertToLastSnapshot n).image.items = n._snapshot.items ∧
    (revertToLastSnapshot n).image.childrenOffset = n._snapshot.childrenOffset ∧
    (revertToLastSnapshot n)._children.length = maxChildren ∧
    (∀ c ∈ (revertToLastSnapshot n)._children, c = none) ∧
    (revertToLastSnapshot n)._super = n._super ∧
    (revertToLastSnapshot n)._snapshot = n._snapshot ∧
    (revertToLastSnapshot n).id = n.id ∧
    revertToLastSnapshot (revertToLastSnapshot n) = revertToLastSnapshot n := by
  refine ⟨rfl, rfl, rfl, rfl, rfl, rfl, ?_, ?_, rfl, rfl, rfl, rfl⟩
  · simp [revertToLastSnapshot]
  · intro c hc
    simp only [revertToLastSnapshot] at hc
    exact List.eq_of_mem_replicate hc

end nodeBlock
end fz


/-! ## Inline keys -/

namespace fz

theorem leNat_lt (bs : List byte) : leNat bs < 256 ^ bs.length := by
  induction bs with
  | nil => simp [leNat]
  | cons b r ih =>
    have := b.isLt
    simp only [leNat, List.length_cons, Nat.pow_succ]
    omega

theorem memNat_lt (e : byte) (bs : List byte) : memNat e bs < 256 ^ bs.length := by
  unfold memNat
  split
  · exact leNat_lt bs
  · have := leNat_lt bs.reverse
    rwa [List.length_reverse] at this

theorem inlineKeyname_inlinePair (e : byte) (key : List byte) (hlen : key.length ≤ 8)
    (p : pair) : inlineKeyname e (inlinePair e key p) = key := by
  have hl : (key ++ List.replicate (8 - key.length) (0 : byte)).length = 8 := by
    simp only [List.length_append, List.length_replicate]; omega
  have hlt := memNat_lt e (key ++ List.replicate (8 - key.length) (0 : byte))
  rw [hl] at hlt
  have hmod : memNat e (key ++ List.replicate (8 - key.length) (0 : byte)) % 2 ^ 64
      = memNat e (key ++ List.replicate (8 - key.length) (0 : byte)) :=
    Nat.mod_eq_of_lt (by norm_num at hlt ⊢; exact hlt)
  have hrt := memBytes_memNat e (key ++ List.replicate (8 - key.length) (0 : byte))
  rw [hl] at hrt
  simp only [inlineKeyname, inlinePair, packKey, hmod, hrt]
  have h0 : key.length - 8 = 0 := by omega
  rw [h0]
  simp

/-- C6: for a key of at most 8 bytes, the key `iterate` recovers from the record of the packed
key (the first `oct` bytes in memory of the low word) is the key itself; and the round of the
loop of `iterate` on that record, reading data, hands the callback exactly these bytes. -/
theorem C6_inline_key_round_trip (_endian : byte) (key : List byte) (hlen : key.length ≤ 8)
    (p : pair) :
    (inlinePair _endian key p).oct = key.length ∧
    (memBytes _endian 8 (inlinePair _endian key p).key.w0).take key.length = key ∧
    inlineKeyname _endian (inlinePair _endian key p) = key ∧
    ∀ (file : List byte) (callback : List byte → Option Data → Option Error)
      (depth i : Nat) (st : Walked), 0 ≤ p.value →
      iterateItem _endian file callback true depth (inlinePair _endian key p) i st =
        (none, ⟨st.calls ++ [⟨key, some ⟨inlinePair _endian key p, depth, i⟩,
          callback key (some ⟨inlinePair _endian key p, depth, i⟩),
          inlinePair _endian key p⟩], st.pos⟩) := by
  refine ⟨rfl, ?_, inlineKeyname_inlinePair _endian key hlen p, ?_⟩
  · have hl : (key ++ List.replicate (8 - key.length) (0 : byte)).length = 8 := by
      simp only [List.length_append, List.length_replicate]; omega
    have hrt := memBytes_memNat _endian (key ++ List.replicate (8 - key.length) (0 : byte))
    rw [hl] at hrt
    simp only [inlinePair, packKey, hrt]
    simp
  · intro file callback depth i st hv
    have hseek : Seek (inlinePair _endian key p).value = none := by
      have : ¬ p.value < 0 := by omega
      simp [Seek, inlinePair, this]
    have hoct : ¬ (inlinePair _endian key p).oct = 9 := by
      show ¬ key.length = 9
      omega
    simp only [iterateItem, if_true, hseek, hoct, if_false,
      inlineKeyname_inlinePair _endian key hlen p]

/-- C6 at the key "abc" on a little-endian host. -/
theorem C6_inline_key_round_trip_witness :
    ([97, 98, 99] : List byte).length ≤ 8 ∧
    inlineKeyname 1 (inlinePair 1 [97, 98, 99] ⟨⟨0, 0⟩, 64, 8, 0, 0, false, 0, 0⟩)
      = [97, 98, 99] :=
  ⟨by decide, (C6_inline_key_round_trip 1 [97, 98, 99] (by decide)
    ⟨⟨0, 0⟩, 64, 8, 0, 0, false, 0, 0⟩).2.2.1⟩

end fz


/-! ## The timing wheel: keys and buckets -/

namespace sched

theorem makeKey_eq (s m c : Nat) (hs : s < 60) (hm : m < 60) :
    makeKey s m c = (s + 1) * 2 ^ 58 + (m + 1) * 2 ^ 52 + c % 2 ^ 52 := by
  unfold makeKey
  have h1 : ((s + 1) <<< 58) % 2 ^ 64 = (s + 1) * 2 ^ 58 := by
    rw [Nat.shiftLeft_eq]; apply Nat.mod_eq_of_lt; omega
  have h2 : ((m + 1) <<< 52) % 2 ^ 64 = (m + 1) * 2 ^ 52 := by
    rw [Nat.shiftLeft_eq]; apply Nat.mod_eq_of_lt; omega
  have h3 : c &&& 0xfffffffffffff = c % 2 ^ 52 := by
    have : (0xfffffffffffff : Nat) = 2 ^ 52 - 1 := by norm_num
    rw [this, Nat.and_pow_two_sub_one_eq_mod]
  rw [h1, h2, h3]
  have hc : c % 2 ^ 52 < 2 ^ 52 := Nat.mod_lt _ (by norm_num)
  have e1 : (s + 1) * 2 ^ 58 ||| (m + 1) * 2 ^ 52 = 2 ^ 52 * ((s + 1) * 2 ^ 6 + (m + 1)) := by
    have : (s + 1) * 2 ^ 58 = 2 ^ 58 * (s + 1) := by ring
    rw [this]
    have hlt : (m + 1) * 2 ^ 52 < 2 ^ 58 := by omega
    rw [← Nat.mul_add_lt_is_or hlt]
    ring
  rw [e1, ← Nat.mul_add_lt_is_or hc]
  ring

theorem makeKey_ne_zero (s m c : Nat) (hs : s < 60) (hm : m < 60) : makeKey s m c ≠ 0 := by
  rw [makeKey_eq s m c hs hm]
  intro h
  have h1 : (s + 1) * 2 ^ 58 + (m + 1) * 2 ^ 52 + c % 2 ^ 52 = 0 := h
  omega

theorem cancelCell_makeKey (s m c : Nat) (hs : s < 60) (hm : m < 60) :
    cancelCell (makeKey s m c) = ((s : Int), (m : Int)) := by
  rw [makeKey_eq s m c hs hm]
  unfold cancelCell
  have hc : c % 2 ^ 52 < 2 ^ 52 := Nat.mod_lt _ (by norm_num)
  have a1 : ((s + 1) * 2 ^ 58 + (m + 1) * 2 ^ 52 + c % 2 ^ 52) >>> 58 = s + 1 := by
    rw [Nat.shiftRight_eq_div_pow]; omega
  have a2 : ((((s + 1) * 2 ^ 58 + (m + 1) * 2 ^ 52 + c % 2 ^ 52) <<< 6) % 2 ^ 64) >>> 58
      = m + 1 := by
    rw [Nat.shiftLeft_eq, Nat.shiftRight_eq_div_pow]
    have e : ((s + 1) * 2 ^ 58 + (m + 1) * 2 ^ 52 + c % 2 ^ 52) * 2 ^ 6
        = 2 ^ 64 * (s + 1) + ((m + 1) * 2 ^ 58 + c % 2 ^ 52 * 2 ^ 6) := by ring
    rw [e, Nat.mul_add_mod, Nat.mod_eq_of_lt (by omega)]
    omega
  rw [a1, a2]
  simp

theorem mapGet_mapSet (l : List (SchedKey × notifier)) (k : SchedKey) (n : notifier) :
    mapGet (mapSet l k n) k = some n := by
  simp [mapGet, mapSet]

theorem mapGet_mapDelete_self (l : List (SchedKey × notifier)) (k : SchedKey) :
    mapGet (mapDelete l k) k = none := by
  simp only [mapGet, mapDelete, Option.map_eq_none', List.find?_eq_none]
  intro e he
  simp only [List.mem_filter] at he
  simpa using he.2

theorem mapGet_mapDelete_other (l : List (SchedKey × notifier)) (k k1 : SchedKey) (h : k1 ≠ k) :
    mapGet (mapDelete l k) k1 = mapGet l k1 := by
  unfold mapGet mapDelete
  congr 1
  induction l with
  | nil => rfl
  | cons e r ih =>
    simp only [List.filter_cons, List.find?_cons]
    by_cases he : e.1 = k
    · have h1 : ¬ e.1 = k1 := by rw [he]; exact fun h1 => h h1.symm
      simp only [he, ne_eq, not_true_eq_false, decide_False, Bool.false_eq_true, if_false]
      rw [ih]
      simp [← he, h1]
    · simp only [ne_eq, he, not_false_eq_true, decide_True, if_true, List.find?_cons]
      rw [ih]

theorem Cancel_makeKey (s m c : Nat) (hs : s < 60) (hm : m < 60) (w : Wheel) :
    Cancel (makeKey s m c) w =
      match (w s m).list with
      | some l => setBucket w s m ⟨(w s m).counter, some (mapDelete l (makeKey s m c))⟩
      | none => w := by
  unfold Cancel
  rw [cancelCell_makeKey s m c hs hm]
  have : ¬ ((s : Int) < 0 ∨ (s : Int) > 59 ∨ (m : Int) < 0 ∨ (m : Int) > 59) := by omega
  simp only [this, if_false, Int.toNat_ofNat]
  try rfl

theorem Cancel_zero (w : Wheel) : Cancel 0 w = w := by
  unfold Cancel
  have : cancelCell 0 = (-1, -1) := by decide
  rw [this]
  simp

/-- C10: for a deadline later than now whose second and minute are below 60, whatever the
counter of the bucket, the key `schedule` returns is not 0, `Cancel` reads back from it the
second and the minute of the deadline, the notifier is stored under the key in that bucket,
`Cancel` deletes it from that bucket and leaves the other entries and every other bucket as
they are; `Cancel` of the key 0 leaves the wheel as it is. -/
theorem C10_cancel_hits_the_bucket_of_schedule (callback : Nat) (async : Bool) (deadline : Time)
    (now : Int) (w : Wheel) (hs : deadline.second < 60) (hm : deadline.minute < 60)
    (hlate : now < deadline.unix) :
    let s := deadline.second
    let m := deadline.minute
    let key := (schedule callback async deadline now w).1
    let w1 := (schedule callback async deadline now w).2.1
    key = makeKey s m (((w s m).counter + 1) % 2 ^ 64) ∧
    key ≠ 0 ∧
    cancelCell key = ((s : Int), (m : Int)) ∧
    (∃ l, (w1 s m).list = some l ∧
      mapGet l key = some ⟨(deadline.unix % (2 : Int) ^ 32).toNat, async, callback⟩ ∧
      (Cancel key w1 s m).list = some (mapDelete l key) ∧
      mapGet (mapDelete l key) key = none ∧
      ∀ k, k ≠ key → mapGet (mapDelete l key) k = mapGet l k) ∧
    (∀ s1 m1, ¬ (s1 = s ∧ m1 = m) → Cancel key w1 s1 m1 = w1 s1 m1) ∧
    (∀ w0 : Wheel, Cancel 0 w0 = w0) := by
  intro s m key w1
  have hkey : key = makeKey s m (((w s m).counter + 1) % 2 ^ 64) := by
    show (schedule callback async deadline now w).1 = _
    unfold schedule
    have h1 : ¬ now > deadline.unix := by omega
    have h2 : ¬ now = deadline.unix := by omega
    simp only [h1, h2, if_false]
  have hw1 : w1 = setBucket w s m ⟨((w s m).counter + 1) % 2 ^ 64,
      some (mapSet ((w s m).list.getD []) key
        ⟨(deadline.unix % (2 : Int) ^ 32).toNat, async, callback⟩)⟩ := by
    rw [hkey]
    show (schedule callback async deadline now w).2.1 = _
    unfold schedule
    have h1 : ¬ now > deadline.unix := by omega
    have h2 : ¬ now = deadline.unix := by omega
    simp only [h1, h2, if_false]
  have hcell : (w1 s m) = ⟨((w s m).counter + 1) % 2 ^ 64,
      some (mapSet ((w s m).list.getD []) key
        ⟨(deadline.unix % (2 : Int) ^ 32).toNat, async, callback⟩)⟩ := by
    rw [hw1]; simp [setBucket]
  have hC : Cancel key w1 = setBucket w1 s m ⟨(w1 s m).counter,
      some (mapDelete (mapSet ((w s m).list.getD []) key
        ⟨(deadline.unix % (2 : Int) ^ 32).toNat, async, callback⟩) key)⟩ := by
    conv_lhs => rw [hkey]
    rw [Cancel_makeKey s m _ hs hm w1, hcell, ← hkey]
  refine ⟨hkey, ?_, ?_, ?_, ?_, Cancel_zero⟩
  · rw [hkey]; exact makeKey_ne_zero s m _ hs hm
  · rw [hkey]; exact cancelCell_makeKey s m _ hs hm
  · refine ⟨_, by rw [hcell], mapGet_mapSet _ _ _, ?_, mapGet_mapDelete_self _ _,
      fun k hk => mapGet_mapDelete_other _ _ _ hk⟩
    rw [hC]; simp [setBucket]
  · intro s1 m1 hne
    rw [hC]; simp [setBucket, hne]

/-- C10 at a deadline in second 40 of minute 1, scheduled on the wheel of a fresh program. -/
theorem C10_cancel_hits_the_bucket_of_schedule_witness :
    (40 < 60 ∧ 1 < 60 ∧ (50 : Int) < 100) ∧
    (schedule 7 true ⟨100, 40, 1⟩ 50 emptyWheel).1 ≠ 0 ∧
    cancelCell (schedule 7 true ⟨100, 40, 1⟩ 50 emptyWheel).1 = (40, 1) :=
  ⟨by decide,
   (C10_cancel_hits_the_bucket_of_schedule 7 true ⟨100, 40, 1⟩ 50 emptyWheel
      (by decide) (by decide) (by decide)).2.1,
   (C10_cancel_hits_the_bucket_of_schedule 7 true ⟨100, 40, 1⟩ 50 emptyWheel
      (by decide) (by decide) (by decide)).2.2.1⟩

end sched


/-! ## The timing wheel: the three cases of `schedule` -/

namespace sched

theorem mapDelete_length_of_absent (l : List (SchedKey × notifier)) (k : SchedKey)
    (h : mapGet l k = none) : (mapDelete l k).length = l.length := by
  unfold mapDelete
  rw [List.filter_eq_self.mpr]
  intro e he
  simp only [mapGet, Option.map_eq_none', List.find?_eq_none] at h
  simpa using h e he

theorem mapSet_count (l : List (SchedKey × notifier)) (k : SchedKey) (n : notifier) :
    ((mapSet l k n).filter (fun e => e.1 = k)) = [(k, n)] := by
  unfold mapSet
  rw [List.filter_cons]
  simp only [decide_True, if_true, List.filter_filter]
  congr 1
  rw [List.filter_eq_nil_iff]
  intro e _
  simp

/-- C11: for a deadline whose second and minute are below 60. When the deadline is earlier than
now, `schedule` returns the key 0, the wheel as it was and no callback to run. When it is now,
`schedule` returns the key 0, the wheel as it was, and the callback is run on the spot. When it
is later, no callback is run, the key is not 0, every other bucket is as it was, and the bucket
at the second and minute of the deadline holds the new notifier under the key, exactly one
entry under that key, the entries of the other keys as they were, and one entry more than
before when the key was not in use. -/
theorem C11_schedule_by_deadline (callback : Nat) (async : Bool) (deadline : Time)
    (now : Int) (w : Wheel) (hs : deadline.second < 60) (hm : deadline.minute < 60) :
    (deadline.unix < now → schedule callback async deadline now w = (0, w, none)) ∧
    (deadline.unix = now →
      schedule callback async deadline now w = (0, w, some (callback, async))) ∧
    (now < deadline.unix →
      let s := deadline.second
      let m := deadline.minute
      let old := (w s m).list.getD []
      let key := (schedule callback async deadline now w).1
      let w1 := (schedule callback async deadline now w).2.1
      let n : notifier := ⟨(deadline.unix % (2 : Int) ^ 32).toNat, async, callback⟩
      key ≠ 0 ∧
      (schedule callback async deadline now w).2.2 = none ∧
      (∀ s1 m1, ¬ (s1 = s ∧ m1 = m) → w1 s1 m1 = w s1 m1) ∧
      ∃ l, (w1 s m).list = some l ∧
        mapGet l key = some n ∧
        l.filter (fun e => e.1 = key) = [(key, n)] ∧
        (∀ k, k ≠ key → mapGet l k = mapGet old k) ∧
        l.filter (fun e => e.1 ≠ key) = old.filter (fun e => e.1 ≠ key) ∧
        (mapGet old key = none → l.length = old.length + 1)) := by
  refine ⟨?_, ?_, ?_⟩
  · intro h
    unfold schedule
    rw [if_pos (by omega)]
  · intro h
    unfold schedule
    rw [if_neg (by omega), if_pos h.symm]
  · intro hlate s m old key w1 n
    have h1 : ¬ now > deadline.unix := by omega
    have h2 : ¬ now = deadline.unix := by omega
    have hkey : key = makeKey s m (((w s m).counter + 1) % 2 ^ 64) := by
      show (schedule callback async deadline now w).1 = _
      unfold schedule
      simp only [h1, h2, if_false]
    have hw1 : w1 = setBucket w s m ⟨((w s m).counter + 1) % 2 ^ 64,
        some (mapSet old key n)⟩ := by
      rw [hkey]
      show (schedule callback async deadline now w).2.1 = _
      unfold schedule
      simp only [h1, h2, if_false]
    refine ⟨?_, ?_, ?_, mapSet old key n, ?_, mapGet_mapSet _ _ _, mapSet_count _ _ _, ?_, ?_, ?_⟩
    · rw [hkey]; exact makeKey_ne_zero s m _ hs hm
    · unfold schedule
      simp only [h1, h2, if_false]
    · intro s1 m1 hne
      rw [hw1]; simp [setBucket, hne]
    · rw [hw1]; simp [setBucket]
    · intro k hk
      have : mapGet (mapSet old key n) k = mapGet (mapDelete old key) k := by
        unfold mapGet mapSet mapDelete
        rw [List.find?_cons]
        have : ¬ key = k := fun h => hk h.symm
        simp [this]
      rw [this]
      exact mapGet_mapDelete_other _ _ _ hk
    · unfold mapSet
      rw [List.filter_cons]
      simp
    · intro habs
      have := mapDelete_length_of_absent old key habs
      unfold mapDelete at this
      unfold mapSet
      rw [List.length_cons, this]

/-- C11 at work: a deadline 10 seconds ahead, on the empty wheel. -/
theorem C11_schedule_by_deadline_witness :
    (schedule 7 false ⟨110, 50, 1⟩ 100 emptyWheel).1 ≠ 0 ∧
    (schedule 7 false ⟨110, 50, 1⟩ 100 emptyWheel).2.2 = none ∧
    ((schedule 7 false ⟨110, 50, 1⟩ 100 emptyWheel).2.1 50 1).list =
      some [(makeKey 50 1 1, ⟨110, false, 7⟩)] ∧
    schedule 7 false ⟨90, 30, 1⟩ 100 emptyWheel = (0, emptyWheel, none) ∧
    schedule 7 false ⟨100, 40, 1⟩ 100 emptyWheel = (0, emptyWheel, some (7, false)) := by
  have h := C11_schedule_by_deadline 7 false ⟨110, 50, 1⟩ 100 emptyWheel (by decide) (by decide)
  have h3 := h.2.2 (by decide)
  have ha := (C11_schedule_by_deadline 7 false ⟨90, 30, 1⟩ 100 emptyWheel (by decide)
    (by decide)).1 (by decide)
  have hb := (C11_schedule_by_deadline 7 false ⟨100, 40, 1⟩ 100 emptyWheel (by decide)
    (by decide)).2.1 (by decide)
  exact ⟨h3.1, h3.2.1, by decide, ha, hb⟩

end sched
